import Mathlib

/-!
# aflnet-exec: replay harness

A shallow embedding of `src/aflnet-exec.c` and theorems about it.

Conventions of the embedding.

* A C buffer `const unsigned char* buf` is a function `Nat → Nat` from byte
  offsets to byte values (every read is reduced modulo 256) together with the
  `unsigned int len` that travels with it.  A finite byte list `l` is turned
  into such a buffer by `mem l`.
* `unsigned int` and `uint32_t` are natural numbers reduced modulo `2 ^ 32`
  after every arithmetic operation; `size_t` is 64 bits wide (LP64), so the
  loop guard `off + sizeof(uint32_t) <= len` is evaluated modulo `2 ^ 64`.
* `int` values are integers; a conversion to `int` is `to_int32`, a conversion
  of an `int` expression to `unsigned int` is reduction modulo `2 ^ 32`.
* `memcpy(&sz, buf + off, 4)` reads the size in the byte order of the host,
  which is a parameter (`Endian`) of every definition that reads a header.
* Loops that the C code does not bound (their offset may wrap around) take a
  fuel argument and return `none` when it runs out.
* Calls into the network and process layers are recorded as a trace of
  `Event`s; what the environment answers is supplied by an `Env`.
* C strings are `String`s (lists of characters without the terminator).  The
  C library functions `strtol`, `isspace`, `isdigit` and `strrchr` are written
  out as ISO C defines them for the "C" locale and a 64-bit `long`; `getopt`
  is represented by the list of options it returns, and `strtoul`, `strtoull`
  and the extractors declared in `aflnet.h` are parameters (`Lib`).
-/

namespace AflnetExec

/-! ## Machine integers and buffers -/

/-- Byte order of the host (`memcpy` into a `uint32_t` is native-endian). -/
inductive Endian where
  | little
  | big
  deriving DecidableEq, Repr

/-- Conversion of an `unsigned int` value to `int` (two's complement). -/
def to_int32 (x : Nat) : Int :=
  if x % 2 ^ 32 < 2 ^ 31 then ((x % 2 ^ 32 : Nat) : Int) else ((x % 2 ^ 32 : Nat) : Int) - 2 ^ 32

/-- The buffer holding the bytes of `l` (bytes past the end read as 0). -/
def mem (l : List Nat) : Nat → Nat := fun i => l.getD i 0

/-- The `len` bytes of a buffer starting at `off`, as a list. -/
def bytes_at (buf : Nat → Nat) (off len : Nat) : List Nat :=
  (List.range len).map (fun i => buf (off + i) % 256)

/-- The `memcpy(&sz, buf + off, sizeof(uint32_t))` of both replay loops: the
four bytes at `off` read as a host-order 32-bit unsigned integer. -/
def load_u32 (e : Endian) (buf : Nat → Nat) (off : Nat) : Nat :=
  match e with
  | Endian.little =>
      buf off % 256 + 256 * (buf (off + 1) % 256) + 65536 * (buf (off + 2) % 256)
        + 16777216 * (buf (off + 3) % 256)
  | Endian.big =>
      16777216 * (buf off % 256) + 65536 * (buf (off + 1) % 256) + 256 * (buf (off + 2) % 256)
        + buf (off + 3) % 256

/-- The four bytes that hold the 32-bit value `n` in host order. -/
def encode_u32 (e : Endian) (n : Nat) : List Nat :=
  match e with
  | Endian.little => [n % 256, n / 256 % 256, n / 65536 % 256, n / 16777216 % 256]
  | Endian.big => [n / 16777216 % 256, n / 65536 % 256, n / 256 % 256, n % 256]

/-! ## Framing classifier -/

/-- The `while` loop of `looks_like_len_prefixed` (lines 165-175), started at
offset `off` with `packets` records counted, followed by the final `return`.
The first argument is fuel. -/
def looks_like_len_prefixed_loop (e : Endian) (buf : Nat → Nat) (len : Nat) :
    Nat → Nat → Nat → Option Bool
  | 0, _, _ => none
  | fuel + 1, off, packets =>
    if (off + 4) % 2 ^ 64 ≤ len then
      let sz := load_u32 e buf off
      let off1 := (off + 4) % 2 ^ 32
      if sz = 0 then looks_like_len_prefixed_loop e buf len fuel off1 packets
      else if sz > 1024 * 1024 * 64 then some false
      else if (off1 + sz) % 2 ^ 32 > len then some false
      else looks_like_len_prefixed_loop e buf len fuel ((off1 + sz) % 2 ^ 32)
        ((packets + 1) % 2 ^ 32)
    else some (decide (off = len) && decide (packets > 0))

/-- The function `looks_like_len_prefixed(buf, len)`; the C `int` result is
read as a truth value. -/
def looks_like_len_prefixed (fuel : Nat) (e : Endian) (buf : Nat → Nat) (len : Nat) :
    Option Bool :=
  if len < 4 then some false else looks_like_len_prefixed_loop e buf len fuel 0 0

/-! ## Trace of external calls and the environment -/

/-- The decoded `int status` written by `waitpid`, as `WIFSIGNALED` and
`WTERMSIG` see it.  `exited 0` is also the value of an untouched `status = 0`. -/
inductive WaitStatus where
  | exited (code : Nat)
  | signaled (sig : Nat)
  | stopped
  deriving DecidableEq, Repr

/-- The macro `WIFSIGNALED(status)`. -/
def WIFSIGNALED : WaitStatus → Bool
  | WaitStatus.signaled _ => true
  | _ => false

/-- The macro `WTERMSIG(status)`. -/
def WTERMSIG : WaitStatus → Nat
  | WaitStatus.signaled s => s
  | _ => 0

/-- The signal number of `SIGKILL`. -/
def SIGKILL : Nat := 9

/-- The signal number of `SIGTERM`. -/
def SIGTERM : Nat := 15

/-- One call that leaves the harness: library, network or process layer. -/
inductive Event where
  | usage
  | diag
  | read_all_stdin
  | fork
  | usleep (usecs : Nat)
  | socket
  | connect
  | close
  | net_recv
  | net_send (off : Nat) (sz : Nat)
  | extract
  | waitpid (nohang : Bool)
  | kill (sig : Nat)
  | raise (sig : Nat)
  | kill_and_wait (graceful : Bool)
  deriving DecidableEq, Repr

/-- A region as the extractors return it; only the two `int` fields that
`replay_raw_split` reads are kept. -/
structure region_t where
  start_byte : Int
  end_byte : Int
  deriving DecidableEq, Repr

/-- The type of `extract_requests_fn` when it is not `NULL`: from the buffer and
its size to `NULL` (`none`) or an array of `region_count` regions. -/
abbrev Extractor := (Nat → Nat) → Nat → Option (List region_t)

/-- Standard input as `read` sees it: the bytes, how many of them the `i`-th
call may deliver at most (at least one is delivered while some are left), and
whether the `i`-th call fails. -/
structure Stdin where
  data : List Nat
  chunk : Nat → Nat
  fails : Nat → Bool

/-- What the environment answers to the calls of the harness.  The answer to a
call may depend on everything the harness did before (the trace so far). -/
structure Env where
  /-- return value of `net_send(sockfd, timeout, buf + off, sz)` -/
  net_send : List Event → Nat → Nat → Int
  /-- `waitpid(pid, &status, WNOHANG)`: `some st` when it returns `pid` -/
  waitpid_nohang : List Event → Option WaitStatus
  /-- `waitpid(pid, &status, 0)`: `some st` when it returns `pid` -/
  waitpid_block : List Event → Option WaitStatus
  /-- whether this `connect` call returns 0 -/
  connect : List Event → Bool
  /-- return value of `fork()` -/
  fork_pid : Int
  /-- whether `socket` returns a descriptor -/
  socket_ok : Bool
  /-- whether `inet_pton` returns 1 -/
  inet_pton_ok : Bool
  stdin : Stdin
  /-- whether `kill(getpid(), sig)` returns to `main`: the source installs no
  handler, so this is `false` (the signal ends the harness) unless the harness
  was started with the signal ignored or blocked, which it inherits -/
  raise_returns : Nat → Bool

/-- The `(offset, size)` arguments of the `net_send` calls of a trace, in order. -/
def sends : List Event → List (Nat × Nat)
  | [] => []
  | Event.net_send off sz :: tr => (off, sz) :: sends tr
  | _ :: tr => sends tr

/-- The messages a trace sends out of buffer `buf`, in order. -/
def sent_messages (buf : Nat → Nat) (tr : List Event) : List (List Nat) :=
  (sends tr).map (fun p => bytes_at buf p.1 p.2)

/-! ## Reading the test case -/

/-- One `read(STDIN_FILENO, buf + len, count)`: `none` when it fails, otherwise
the bytes it delivers (none at end of input). -/
def read_call (src : Stdin) (i : Nat) (rest : List Nat) (count : Nat) : Option (List Nat) :=
  if src.fails i then none else some (rest.take (min count (max 1 (src.chunk i))))

/-- The `for (;;)` loop of `read_all_stdin` (lines 128-151).  `buf` holds the
`len` bytes read so far, `rest` the unread input, `i` counts the `read` calls.
The result is `none` without fuel, `some none` for `return NULL`, and
`some (some (bytes, out_len))` for a returned buffer. -/
def read_all_stdin_loop (src : Stdin) (max_bytes : Nat) :
    Nat → Nat → List Nat → List Nat → Nat → Option (Option (List Nat × Nat))
  | 0, _, _, _, _ => none
  | fuel + 1, cap, buf, rest, i =>
    let len := buf.length
    let grown : Option Nat :=
      if len = cap then
        let new_cap := (cap * 2) % 2 ^ 64
        let new_cap := if new_cap > max_bytes then max_bytes else new_cap
        if new_cap ≤ cap then none else some new_cap
      else some cap
    match grown with
    | none => some none
    | some cap1 =>
      match read_call src i rest (cap1 - len) with
      | none => some none
      | some got =>
        if got.length = 0 then some (some (buf, len % 2 ^ 32))
        else if (buf ++ got).length > max_bytes then some none
        else read_all_stdin_loop src max_bytes fuel cap1 (buf ++ got) (rest.drop got.length) (i + 1)

/-- The function `read_all_stdin(max_bytes, &out_len)`. -/
def read_all_stdin (fuel : Nat) (max_bytes : Nat) (src : Stdin) :
    Option (Option (List Nat × Nat)) :=
  read_all_stdin_loop src max_bytes fuel 4096 [] src.data 0

/-! ## Terminating the child -/

/-- The polling loop of `kill_and_wait` (lines 228-232) with `n` rounds left. -/
def kill_and_wait_poll (env : Env) : Nat → List Event → Option WaitStatus × List Event
  | 0, tr => (none, tr)
  | n + 1, tr =>
    match env.waitpid_nohang tr with
    | some st => (some st, tr ++ [Event.waitpid true])
    | none => kill_and_wait_poll env n (tr ++ [Event.waitpid true, Event.usleep 10000])

/-- The function `kill_and_wait(pid, graceful)`; returns the status and the
extended trace. -/
def kill_and_wait (env : Env) (pid : Int) (graceful : Bool) (tr : List Event) :
    WaitStatus × List Event :=
  if pid ≤ 0 then (WaitStatus.exited 0, tr)
  else
    let tr1 := tr ++ [Event.kill (if graceful then SIGTERM else SIGKILL)]
    match kill_and_wait_poll env 100 tr1 with
    | (some st, tr2) => (st, tr2)
    | (none, tr2) =>
      let tr3 := tr2 ++ [Event.kill SIGKILL]
      ((env.waitpid_block tr3).getD (WaitStatus.exited 0), tr3 ++ [Event.waitpid false])

/-! ## Replaying the messages -/

/-- The `while` loop of `replay_len_prefixed` (lines 244-269) from offset
`off`, followed by `return 0`.  Returns the result and the extended trace. -/
def replay_len_prefixed_loop (env : Env) (e : Endian) (buf : Nat → Nat) (len : Nat) :
    Nat → Nat → List Event → Option (Int × List Event)
  | 0, _, _ => none
  | fuel + 1, off, tr =>
    if (off + 4) % 2 ^ 64 ≤ len then
      let sz := load_u32 e buf off
      let off1 := (off + 4) % 2 ^ 32
      if sz = 0 then replay_len_prefixed_loop env e buf len fuel off1 tr
      else if (off1 + sz) % 2 ^ 32 > len then some (-1, tr)
      else
        let tr1 := tr ++ [Event.net_recv]
        let n := env.net_send tr1 off1 sz
        let tr2 := tr1 ++ [Event.net_send off1 sz]
        if n ≠ to_int32 sz then some (-1, tr2)
        else replay_len_prefixed_loop env e buf len fuel ((off1 + sz) % 2 ^ 32)
          (tr2 ++ [Event.net_recv])
    else some (0, tr)

/-- The function `replay_len_prefixed(sockfd, timeout, poll_timeout_ms, buf, len)`. -/
def replay_len_prefixed (fuel : Nat) (env : Env) (e : Endian) (buf : Nat → Nat) (len : Nat)
    (tr : List Event) : Option (Int × List Event) :=
  replay_len_prefixed_loop env e buf len fuel 0 tr

/-- The `for` loop of `replay_raw_split` (lines 287-317) over the regions that
are left, followed by `return 0`. -/
def replay_raw_split_loop (env : Env) (len : Nat) :
    List region_t → List Event → Int × List Event
  | [], tr => (0, tr)
  | r :: rs, tr =>
    let start0 := r.start_byte
    let end0 := r.end_byte
    let start := if start0 < 0 then 0 else start0
    if end0 < start then replay_raw_split_loop env len rs tr
    else if (start % 2 ^ 32).toNat ≥ len then replay_raw_split_loop env len rs tr
    else
      let end1 := if (end0 % 2 ^ 32).toNat ≥ len then to_int32 len - 1 else end0
      let msg_len := ((end1 - start + 1) % 2 ^ 32).toNat
      if msg_len = 0 then replay_raw_split_loop env len rs tr
      else
        let tr1 := tr ++ [Event.net_recv]
        let n := env.net_send tr1 start.toNat msg_len
        let tr2 := tr1 ++ [Event.net_send start.toNat msg_len]
        if n ≠ to_int32 msg_len then (-1, tr2)
        else replay_raw_split_loop env len rs (tr2 ++ [Event.net_recv])

/-- The function `replay_raw_split(sockfd, timeout, poll_timeout_ms, buf, len)`;
the global `extract_requests_fn` is the argument `fn`. -/
def replay_raw_split (env : Env) (fn : Option Extractor) (buf : Nat → Nat) (len : Nat)
    (tr : List Event) : Int × List Event :=
  match fn with
  | none => (-1, tr)
  | some f =>
    match f buf len with
    | none => (-1, tr ++ [Event.extract])
    | some [] => (-1, tr ++ [Event.extract])
    | some (r :: rs) => replay_raw_split_loop env len (r :: rs) (tr ++ [Event.extract])

/-! ## The main program -/

/-- The enumeration `input_mode_t`. -/
inductive input_mode_t where
  | INPUT_AUTO
  | INPUT_LEN
  | INPUT_RAW
  deriving DecidableEq, Repr

/-- The local variables of `main` once the `getopt` loop (lines 341-389) has
run, `extract_requests_fn` included; `rest_args` is `argv` from `optind` on. -/
structure Config where
  ip : Option String
  port : Int
  use_udp : Bool
  input_mode : input_mode_t
  extract_requests_fn : Option Extractor
  server_wait_usecs : Nat
  poll_timeout_ms : Nat
  socket_timeout_usecs : Nat
  max_stdin_bytes : Nat
  graceful_term : Bool
  rest_args : List String

/-- How `main` ends: `return code`, `PFATAL`, the forked child (which goes on
to `execvp`), or the end of the process by the signal `sig` that it sent to
itself (no `return` is reached and there is no exit code). -/
inductive Exit where
  | code (n : Int)
  | pfatal
  | child
  | signaled (sig : Nat)
  deriving DecidableEq, Repr

/-- The resolution of `effective_mode` (lines 483-493). -/
def effective_mode (fuel : Nat) (e : Endian) (input_mode : input_mode_t)
    (fn : Option Extractor) (buf : Nat → Nat) (len : Nat) : Option input_mode_t :=
  if input_mode = input_mode_t.INPUT_AUTO then
    match looks_like_len_prefixed fuel e buf len with
    | none => none
    | some true => some input_mode_t.INPUT_LEN
    | some false =>
      if fn.isSome then some input_mode_t.INPUT_RAW else some input_mode_t.INPUT_LEN
  else some input_mode

/-- The replay stage of `main` (lines 477-511): computes `replay_rc`. -/
def main_replay (fuel : Nat) (env : Env) (e : Endian) (input_mode : input_mode_t)
    (fn : Option Extractor) (buf : Nat → Nat) (stdin_len : Nat) (tr : List Event) :
    Option (Int × List Event) :=
  if stdin_len = 0 then some (0, tr)
  else
    match effective_mode fuel e input_mode fn buf stdin_len with
    | none => none
    | some mode =>
      if mode = input_mode_t.INPUT_LEN then
        match looks_like_len_prefixed fuel e buf stdin_len with
        | none => none
        | some true => replay_len_prefixed fuel env e buf stdin_len tr
        | some false =>
          let tr1 := tr ++ [Event.net_recv]
          let n := env.net_send tr1 0 stdin_len
          some (if n ≠ to_int32 stdin_len then 1 else 0, tr1 ++ [Event.net_send 0 stdin_len])
      else some (replay_raw_split env fn buf stdin_len tr)

/-- The calls of the outcome stage of `main` (lines 518-527), entered after
the socket has been closed.  Raising the signal is recorded as a call; how the
run ends after it is `main_exit`. -/
def main_outcome (env : Env) (srv_pid : Int) (graceful_term : Bool) (tr : List Event) :
    List Event :=
  match env.waitpid_nohang tr with
  | some status =>
    if WIFSIGNALED status then tr ++ [Event.waitpid true, Event.raise (WTERMSIG status)]
    else tr ++ [Event.waitpid true]
  | none =>
    (kill_and_wait env srv_pid graceful_term
      (tr ++ [Event.waitpid true, Event.kill_and_wait graceful_term])).2

/-- How `main` ends once the socket is closed (lines 518-531), `tr` being the
trace at the non-blocking poll: when the poll reports the child terminated by
a signal, `kill(getpid(), WTERMSIG(status))` of line 523 ends the harness by
that signal unless the call returns; in every other case, and when the call
returns, `main` reaches `return replay_rc ? 1 : 0`. -/
def main_exit (env : Env) (replay_rc : Int) (tr : List Event) : Exit :=
  match env.waitpid_nohang tr with
  | some status =>
    if WIFSIGNALED status && !env.raise_returns (WTERMSIG status) then
      Exit.signaled (WTERMSIG status)
    else Exit.code (if replay_rc ≠ 0 then 1 else 0)
  | none => Exit.code (if replay_rc ≠ 0 then 1 else 0)

/-- The connect loop of `main` (lines 462-468) with `n` attempts left. -/
def main_connect (env : Env) : Nat → List Event → Bool × List Event
  | 0, tr => (false, tr)
  | n + 1, tr =>
    if env.connect tr then (true, tr ++ [Event.connect])
    else main_connect env n (tr ++ [Event.connect, Event.usleep 1000])

/-- The function `main` from line 391 on, with the options already parsed into
`cfg`.  Returns how the program ends and the trace of its external calls. -/
def main (fuel : Nat) (env : Env) (e : Endian) (cfg : Config) : Option (Exit × List Event) :=
  if cfg.ip.isNone ∨ cfg.port = 0 then some (Exit.code 1, [Event.usage])
  else if cfg.input_mode = input_mode_t.INPUT_RAW ∧ cfg.extract_requests_fn.isNone then
    some (Exit.code 1, [Event.diag])
  else
    match cfg.rest_args with
    | [] => some (Exit.code 1, [Event.usage])
    | sep :: server_argv =>
      if sep ≠ "--" then some (Exit.code 1, [Event.usage])
      else if server_argv.isEmpty then some (Exit.code 1, [Event.usage])
      else
        match read_all_stdin fuel cfg.max_stdin_bytes env.stdin with
        | none => none
        | some stdin_res =>
          let tr0 := [Event.read_all_stdin]
          if stdin_res.isNone ∧ cfg.max_stdin_bytes ≠ 0 then
            some (Exit.code 1, tr0 ++ [Event.diag])
          else
            let stdin_buf := mem ((stdin_res.map Prod.fst).getD [])
            let stdin_len := (stdin_res.map Prod.snd).getD 0
            let srv_pid := env.fork_pid
            let tr1 := tr0 ++ [Event.fork]
            if srv_pid < 0 then some (Exit.pfatal, tr1)
            else if srv_pid = 0 then some (Exit.child, tr1)
            else
              let tr2 := tr1 ++ [Event.usleep cfg.server_wait_usecs, Event.socket]
              if ¬ env.socket_ok then
                some (Exit.pfatal,
                  (kill_and_wait env srv_pid cfg.graceful_term
                    (tr2 ++ [Event.kill_and_wait cfg.graceful_term])).2)
              else if ¬ env.inet_pton_ok then
                some (Exit.code 1,
                  (kill_and_wait env srv_pid cfg.graceful_term
                    (tr2 ++ [Event.close, Event.kill_and_wait cfg.graceful_term])).2
                    ++ [Event.diag])
              else
                match main_connect env 1000 tr2 with
                | (false, tr3) =>
                  some (Exit.code 1,
                    (kill_and_wait env srv_pid cfg.graceful_term
                      (tr3 ++ [Event.close, Event.kill_and_wait cfg.graceful_term])).2)
                | (true, tr3) =>
                  match main_replay fuel env e cfg.input_mode cfg.extract_requests_fn
                      stdin_buf stdin_len tr3 with
                  | none => none
                  | some (replay_rc, tr4) =>
                    some (main_exit env replay_rc (tr4 ++ [Event.close]),
                      main_outcome env srv_pid cfg.graceful_term (tr4 ++ [Event.close]))

/-! ## Specification: record streams -/

/-- One record of the test-case format: the host-order 4-byte size of the
payload, then the payload. -/
def record (e : Endian) (payload : List Nat) : List Nat :=
  encode_u32 e payload.length ++ payload

/-- The concatenation of the records with the given payloads. -/
def concat_records (e : Endian) : List (List Nat) → List Nat
  | [] => []
  | r :: rs => record e r ++ concat_records e rs

/-- Specification of the classifier, in the words of the format: the byte list
`l` is exactly a concatenation of records whose sizes are 0 or between 1 and
64 MiB, at least one of them with a non-empty payload. -/
def IsRecordStream (e : Endian) (l : List Nat) : Prop :=
  ∃ recs : List (List Nat),
    (∀ r ∈ recs, r.length ≤ 67108864) ∧ (∃ r ∈ recs, r ≠ []) ∧ l = concat_records e recs

/-- The sizes `szs` are the headers of consecutive records of `buf` starting
at offset `off`. -/
def Chain (e : Endian) (buf : Nat → Nat) : Nat → List Nat → Prop
  | _, [] => True
  | off, s :: ss => load_u32 e buf off = s ∧ Chain e buf (off + 4 + s) ss

/-- Number of bytes taken by records of the given sizes. -/
def total_len : List Nat → Nat
  | [] => 0
  | s :: ss => 4 + s + total_len ss

/-- The payloads of the records of sizes `szs` that start at `off`. -/
def payloads_at (buf : Nat → Nat) : Nat → List Nat → List (List Nat)
  | _, [] => []
  | off, s :: ss => bytes_at buf (off + 4) s :: payloads_at buf (off + 4 + s) ss

/-- The scan of `looks_like_len_prefixed_loop` computed over the natural
numbers, without any reduction modulo a word size; used to compare the code
with the format. -/
def scan_nowrap (e : Endian) (buf : Nat → Nat) (len : Nat) : Nat → Nat → Nat → Option Bool
  | 0, _, _ => none
  | fuel + 1, off, packets =>
    if off + 4 ≤ len then
      let sz := load_u32 e buf off
      if sz = 0 then scan_nowrap e buf len fuel (off + 4) packets
      else if sz > 67108864 then some false
      else if off + 4 + sz > len then some false
      else scan_nowrap e buf len fuel (off + 4 + sz) (packets + 1)
    else some (decide (off = len) && decide (packets > 0))

/-- Number of records with a non-zero size. -/
def nonzero_count : List Nat → Nat
  | [] => 0
  | s :: ss => (if s = 0 then 0 else 1) + nonzero_count ss

/-! ## Sample input: a buffer on which the 32-bit offset wraps around -/

/-- A buffer for a little-endian host: the header value `2 ^ 26` at every
offset congruent to 0 or to 256 modulo `2 ^ 26 + 4`, zero bytes elsewhere. -/
def wrap_buf : Nat → Nat :=
  fun i => if i % 67108868 = 3 ∨ i % 67108868 = 259 then 4 else 0

/-- The length `256 + 63 * (2 ^ 26 + 4)` of the wrapping buffer, below `2 ^ 32`. -/
def wrap_len : Nat := 4227858940

/-- The byte list `l` ends in a truncated record: records of at most 64 MiB,
then a header whose non-zero size `n` exceeds the bytes left after it. -/
def EndsInTruncatedRecord (e : Endian) (l : List Nat) : Prop :=
  ∃ (recs : List (List Nat)) (n : Nat) (tail : List Nat),
    (∀ r ∈ recs, r.length ≤ 67108864) ∧ 0 < n ∧ n < 2 ^ 32 ∧ tail.length < n ∧
      l = concat_records e recs ++ encode_u32 e n ++ tail

/-! ## Specification: replay of a record stream -/

/-- The regions of the records with a non-zero size among records of sizes
`szs` starting at `off`: offset just after the header, and size. -/
def record_regions : Nat → List Nat → List (Nat × Nat)
  | _, [] => []
  | off, s :: ss => (if s = 0 then [] else [(off + 4, s)]) ++ record_regions (off + 4 + s) ss

/-- The calls expected for records of sizes `szs` starting at `off`: a receive,
the send of the payload and a receive for every non-zero size. -/
def replay_events : Nat → List Nat → List Event
  | _, [] => []
  | off, s :: ss =>
    (if s = 0 then [] else [Event.net_recv, Event.net_send (off + 4) s, Event.net_recv])
      ++ replay_events (off + 4 + s) ss

/-- An environment in which every send writes the whole message, every
connection attempt succeeds and the child is still running when polled. -/
def full_env : Env where
  net_send := fun _ _ sz => to_int32 sz
  waitpid_nohang := fun _ => none
  waitpid_block := fun _ => some (WaitStatus.exited 0)
  connect := fun _ => true
  fork_pid := 1
  socket_ok := true
  inet_pton_ok := true
  stdin := { data := [], chunk := fun _ => 4096, fails := fun _ => false }
  raise_returns := fun _ => false

/-! ## Specification: clamping of extracted regions -/

/-- Specification of the clamping rules, in the words of the specification:
a negative start becomes 0, an end at or beyond `len` becomes `len - 1`, a
region whose span is then empty or negative or whose start is at or beyond
`len` is dropped (`none`); otherwise the start offset and the length
`end - start + 1` of the message. -/
def clamp_region (len : Nat) (r : region_t) : Option (Nat × Nat) :=
  let start1 : Int := if r.start_byte < 0 then 0 else r.start_byte
  let end1 : Int := if r.end_byte ≥ (len : Int) then (len : Int) - 1 else r.end_byte
  if end1 < start1 ∨ r.start_byte ≥ (len : Int) then none
  else some (start1.toNat, (end1 - start1 + 1).toNat)

/-- The calls expected for a list of message regions: a receive, the send of
the region and a receive for each. -/
def regions_events : List (Nat × Nat) → List Event
  | [] => []
  | p :: ps => [Event.net_recv, Event.net_send p.1 p.2, Event.net_recv] ++ regions_events ps

/-- An extractor that returns four regions, two of which are dropped on a
buffer of 4 bytes. -/
def sample_extractor : Extractor :=
  fun _ _ => some [region_t.mk (-2) 1, region_t.mk 3 2, region_t.mk 9 12, region_t.mk 2 7]

/-- An extractor whose only region, (5, 3), has a negative span. -/
def dropped_extractor : Extractor := fun _ _ => some [region_t.mk 5 3]

/-- The values of the type `int`. -/
abbrev is_int32 (x : Int) : Prop := -2147483648 ≤ x ∧ x < 2147483648

/-! ## Sample inputs -/

/-- A standard input of 4096 zero bytes, delivered by `read` in pieces of at
most 1000 bytes. -/
def stdin_4096 : Stdin where
  data := List.replicate 4096 0
  chunk := fun _ => 1000
  fails := fun _ => false

/-- A configuration that passes the checks of `main`: mode auto, no extractor,
forceful termination. -/
def sample_cfg : Config where
  ip := some "127.0.0.1"
  port := 9000
  use_udp := false
  input_mode := input_mode_t.INPUT_AUTO
  extract_requests_fn := none
  server_wait_usecs := 10000
  poll_timeout_ms := 1
  socket_timeout_usecs := 1000
  max_stdin_bytes := 16777216
  graceful_term := false
  rest_args := ["--", "server"]

/-- The end-to-end scenario: the 7-byte input 00 00 00 03 'a' 'b' 'c' on
standard input, every send writing in full, and a child that runs until it is
killed. -/
def abc_env : Env where
  net_send := fun _ _ sz => to_int32 sz
  waitpid_nohang := fun tr =>
    if Event.kill SIGKILL ∈ tr then some (WaitStatus.signaled SIGKILL) else none
  waitpid_block := fun _ => some (WaitStatus.signaled SIGKILL)
  connect := fun _ => true
  fork_pid := 1
  socket_ok := true
  inet_pton_ok := true
  stdin := { data := [0, 0, 0, 3, 97, 98, 99], chunk := fun _ => 4096, fails := fun _ => false }
  raise_returns := fun _ => false

/-- The configuration of the end-to-end scenario: `tcp://127.0.0.1/9000`, mode
`len`, no extractor, forceful termination. -/
def len_cfg : Config where
  ip := some "127.0.0.1"
  port := 9000
  use_udp := false
  input_mode := input_mode_t.INPUT_LEN
  extract_requests_fn := none
  server_wait_usecs := 10000
  poll_timeout_ms := 1
  socket_timeout_usecs := 1000
  max_stdin_bytes := 16777216
  graceful_term := false
  rest_args := ["--", "server"]

/-! ## Parsing the command line -/

/-- The C library function `isspace` in the "C" locale: space, `\t`, `\n`,
`\v`, `\f`, `\r`. -/
def isspace (c : Char) : Bool := c.toNat = 32 || (9 ≤ c.toNat && c.toNat ≤ 13)

/-- The C library function `isdigit`. -/
def isdigit (c : Char) : Bool := 48 ≤ c.toNat && c.toNat ≤ 57

/-- The digit loop of `strtol` in base 10: consumes the longest run of digits
and returns the accumulated value with the text that is left. -/
def strtol_digits : List Char → Nat → Nat × List Char
  | [], acc => (acc, [])
  | c :: cs, acc =>
    if isdigit c then strtol_digits cs (acc * 10 + (c.toNat - 48)) else (acc, c :: cs)

/-- The largest value of a `long` (64 bits). -/
def LONG_MAX : Int := 2 ^ 63 - 1

/-- The smallest value of a `long` (64 bits). -/
def LONG_MIN : Int := -(2 ^ 63)

/-- The C library function `strtol(nptr, &endptr, 10)` as ISO C defines it:
white space is skipped, one sign is accepted, then the longest run of decimal
digits is converted, the value being clamped to the range of `long`; without
any digit nothing is converted, the value is 0 and `endptr` is `nptr`.
Returns the value and the text at `endptr`. -/
def strtol (nptr : List Char) : Int × List Char :=
  let t := nptr.dropWhile isspace
  let neg := t.head? = some '-'
  let u := if t.head? = some '-' ∨ t.head? = some '+' then t.drop 1 else t
  if (u.head?.map isdigit).getD false then
    let r := strtol_digits u 0
    let v : Int := if neg then -(r.1 : Int) else (r.1 : Int)
    (max LONG_MIN (min LONG_MAX v), r.2)
  else (0, nptr)

/-- The C library function `strrchr(p, c)` for `c` other than the terminator:
the index of the last occurrence of `c` in `p`, if any. -/
def strrchr : List Char → Char → Option Nat
  | [], _ => none
  | x :: xs, c =>
    match strrchr xs c with
    | some i => some (i + 1)
    | none => if x = c then some 0 else none

/-- The function `parse_netinfo` once the scheme is recognised (lines 197-215):
`p` is the text after the scheme, `use_udp` the value already stored. -/
def parse_netinfo_rest (use_udp : Bool) (p : List Char) : Option (Bool × String × Int) :=
  match strrchr p '/' with
  | none => none
  | some slash =>
    if slash = 0 ∨ (p.drop (slash + 1)).isEmpty then none
    else
      let ip := p.take slash
      let r := strtol (p.drop (slash + 1))
      if r.2 ≠ [] ∨ r.1 ≤ 0 ∨ r.1 > 65535 then none
      else some (use_udp, String.mk ip, to_int32 (r.1 % 2 ^ 32).toNat)

/-- The function `parse_netinfo(s, &use_udp, &ip_out, &port_out)`: `none` when
it returns -1, else the values stored through the three pointers. -/
def parse_netinfo (s : String) : Option (Bool × String × Int) :=
  if "tcp://".data.isPrefixOf s.data then
    parse_netinfo_rest false (s.data.drop "tcp://".data.length)
  else if "udp://".data.isPrefixOf s.data then
    parse_netinfo_rest true (s.data.drop "udp://".data.length)
  else none

/-- The library functions `main` calls on option arguments, and the extractors
declared in `aflnet.h`, none of which is part of the source file: the value
`strtoul(optarg, NULL, 10)` returns, the value `strtoull(optarg, NULL, 10)`
returns, and the function `extract_requests_<name>` of a protocol name. -/
structure Lib where
  strtoul : String → Nat
  strtoull : String → Nat
  extract_requests : String → Extractor

/-- The protocol names `select_protocol` compares `proto` with. -/
def protocol_names : List String :=
  ["RTSP", "FTP", "MQTT", "DNS", "DTLS12", "DICOM", "SMTP", "SSH", "TLS", "SIP", "HTTP", "IPP",
    "TFTP", "DHCP", "SNTP", "NTP", "SNMP"]

/-- The function `select_protocol(proto)`: `none` when it returns -1, else the
value it stores in `extract_requests_fn`. -/
def select_protocol (lib : Lib) (proto : String) : Option Extractor :=
  if proto ∈ protocol_names then some (lib.extract_requests proto) else none

/-- The function `parse_input_mode(s, &out)`: `none` when it returns -1. -/
def parse_input_mode (s : String) : Option input_mode_t :=
  if s = "auto" then some input_mode_t.INPUT_AUTO
  else if s = "raw" then some input_mode_t.INPUT_RAW
  else if s = "len" then some input_mode_t.INPUT_LEN
  else none

/-- The values of the local variables of `main` and of `extract_requests_fn`
before the `getopt` loop (lines 328-339); `rest_args` is what `getopt` will
leave from `optind` on. -/
def initial_config (rest_args : List String) : Config where
  ip := none
  port := 0
  use_udp := false
  input_mode := input_mode_t.INPUT_AUTO
  extract_requests_fn := none
  server_wait_usecs := 10000
  poll_timeout_ms := 1
  socket_timeout_usecs := 1000
  max_stdin_bytes := 1024 * 1024 * 16
  graceful_term := false
  rest_args := rest_args

/-- The body of the `getopt` loop of `main` (lines 343-387) for one option
`opt` with argument `optarg`: the updated variables, or the return out of
`main` with the calls made. -/
def main_option (lib : Lib) (cfg : Config) (opt : Char) (optarg : String) :
    Except (Exit × List Event) Config :=
  if opt = 'N' then
    match parse_netinfo optarg with
    | none => Except.error (Exit.code 1, [Event.usage])
    | some r => Except.ok { cfg with use_udp := r.1, ip := some r.2.1, port := r.2.2 }
  else if opt = 'P' then
    match select_protocol lib optarg with
    | none => Except.error (Exit.code 1, [Event.diag])
    | some f => Except.ok { cfg with extract_requests_fn := some f }
  else if opt = 'I' then
    match parse_input_mode optarg with
    | none => Except.error (Exit.code 1, [Event.diag])
    | some m => Except.ok { cfg with input_mode := m }
  else if opt = 'D' then Except.ok { cfg with server_wait_usecs := lib.strtoul optarg % 2 ^ 32 }
  else if opt = 'K' then Except.ok { cfg with graceful_term := true }
  else if opt = 'W' then Except.ok { cfg with poll_timeout_ms := lib.strtoul optarg % 2 ^ 32 }
  else if opt = 'w' then
    Except.ok { cfg with socket_timeout_usecs := lib.strtoul optarg % 2 ^ 32 }
  else if opt = 'M' then Except.ok { cfg with max_stdin_bytes := lib.strtoull optarg % 2 ^ 64 }
  else if opt = 'p' then Except.ok { cfg with poll_timeout_ms := lib.strtoul optarg % 2 ^ 32 }
  else if opt = 's' then
    Except.ok { cfg with socket_timeout_usecs := lib.strtoul optarg % 2 ^ 32 }
  else Except.error (Exit.code 1, [Event.usage])

/-- The `getopt` loop of `main` (lines 341-389) over the options `getopt`
returns, in order, each with its `optarg`. -/
def main_options (lib : Lib) : List (Char × String) → Config → Except (Exit × List Event) Config
  | [], cfg => Except.ok cfg
  | o :: os, cfg =>
    match main_option lib cfg o.1 o.2 with
    | Except.error r => Except.error r
    | Except.ok cfg1 => main_options lib os cfg1

/-- The function `main` from its first line: the `getopt` loop over the
options `opts`, then the rest of `main` on the arguments `rest_args` that
`getopt` leaves. -/
def main_argv (fuel : Nat) (env : Env) (e : Endian) (lib : Lib) (opts : List (Char × String))
    (rest_args : List String) : Option (Exit × List Event) :=
  match main_options lib opts (initial_config rest_args) with
  | Except.error r => some r
  | Except.ok cfg => main fuel env e cfg

/-! ## Specification: the accepted address -/

/-- Specification side: the value of a text of decimal digits. -/
def decimal_value (ds : List Char) : Nat :=
  ds.foldl (fun acc c => acc * 10 + (c.toNat - 48)) 0

/-- Specification side: the text `s` is `tcp://IP/PORT` (`use_udp` false) or
`udp://IP/PORT` (`use_udp` true) where `IP` is the non-empty text `ip` and
`PORT`, free of `/`, is optional white space, an optional `+`, and one or more
decimal digits whose value `port` lies in 1..65535. -/
def IsNetinfo (s : List Char) (use_udp : Bool) (ip : List Char) (port : Int) : Prop :=
  ∃ ws sg ds : List Char,
    s = (if use_udp then "udp://".data else "tcp://".data) ++ ip ++ '/' :: (ws ++ sg ++ ds) ∧
    ip ≠ [] ∧ (∀ c ∈ ws, isspace c = true) ∧ (sg = [] ∨ sg = ['+']) ∧
    ds ≠ [] ∧ (∀ c ∈ ds, isdigit c = true) ∧
    port = (decimal_value ds : Int) ∧ 1 ≤ port ∧ port ≤ 65535

/-! ## Specification: replay of a list of regions -/

/-- Specification of the replay engine over a list of message regions
`(offset, size)`: for each region in order, one receive, one send of the
region (the replay stops with -1 at the first send whose result is not the
size), one receive. -/
def send_all (env : Env) : List (Nat × Nat) → List Event → Int × List Event
  | [], tr => (0, tr)
  | m :: ms, tr =>
    if env.net_send (tr ++ [Event.net_recv]) m.1 m.2 ≠ to_int32 m.2 then
      (-1, tr ++ [Event.net_recv] ++ [Event.net_send m.1 m.2])
    else send_all env ms (tr ++ [Event.net_recv] ++ [Event.net_send m.1 m.2] ++ [Event.net_recv])

/-- Every send of the regions `pre`, replayed from trace `tr`, writes the full
message. -/
def sends_full (env : Env) (tr : List Event) (pre : List (Nat × Nat)) : Prop :=
  ∀ a x b, pre = a ++ x :: b →
    env.net_send (tr ++ regions_events a ++ [Event.net_recv]) x.1 x.2 = to_int32 x.2

/-- The send of region `m`, after the regions `pre` were replayed from trace
`tr`, is a short write. -/
def send_short (env : Env) (tr : List Event) (pre : List (Nat × Nat)) (m : Nat × Nat) : Prop :=
  env.net_send (tr ++ regions_events pre ++ [Event.net_recv]) m.1 m.2 ≠ to_int32 m.2

/-! ## The scan of the classifier with the records it visits -/

/-- The loop of `looks_like_len_prefixed` instrumented with what it visits:
the same loop as `looks_like_len_prefixed_loop`, returning with the result the
final value of `packets` and the list of records `(header offset, size)` read,
one per iteration. -/
def scan_visits (e : Endian) (buf : Nat → Nat) (len : Nat) :
    Nat → Nat → Nat → Option (Bool × Nat × List (Nat × Nat))
  | 0, _, _ => none
  | fuel + 1, off, packets =>
    if (off + 4) % 2 ^ 64 ≤ len then
      let sz := load_u32 e buf off
      let off1 := (off + 4) % 2 ^ 32
      if sz = 0 then
        (scan_visits e buf len fuel off1 packets).map (fun r => (r.1, r.2.1, (off, sz) :: r.2.2))
      else if sz > 1024 * 1024 * 64 then some (false, packets, [(off, sz)])
      else if (off1 + sz) % 2 ^ 32 > len then some (false, packets, [(off, sz)])
      else
        (scan_visits e buf len fuel ((off1 + sz) % 2 ^ 32) ((packets + 1) % 2 ^ 32)).map
          (fun r => (r.1, r.2.1, (off, sz) :: r.2.2))
    else some (decide (off = len) && decide (packets > 0), packets, [])

/-- The message regions of the visited records: for every record with a
non-zero size, the offset just after its header (as the 32-bit code computes
it) and the size. -/
def visit_regions : List (Nat × Nat) → List (Nat × Nat)
  | [] => []
  | v :: vs => (if v.2 = 0 then [] else [((v.1 + 4) % 2 ^ 32, v.2)]) ++ visit_regions vs

/-! ## Kinds of calls in a trace -/

/-- The calls of the replay stage: receives, sends and the extractor call. -/
def is_replay_event : Event → Bool
  | Event.net_recv => true
  | Event.net_send _ _ => true
  | Event.extract => true
  | _ => false

/-- The calls of the connect loop and of the supervision of the child; none of
them is a transport send or receive, and none raises a signal on the harness. -/
def is_supervisor_event : Event → Bool
  | Event.connect => true
  | Event.usleep _ => true
  | Event.kill _ => true
  | Event.waitpid _ => true
  | _ => false

/-- The signals a trace raises on the harness itself, in order. -/
def raises : List Event → List Nat
  | [] => []
  | Event.raise s :: tr => s :: raises tr
  | _ :: tr => raises tr

/-- The calls of `k` unsuccessful polling rounds of `kill_and_wait`: a
non-blocking `waitpid` and a sleep of 10 ms for each. -/
def poll_rounds : Nat → List Event
  | 0 => []
  | k + 1 => [Event.waitpid true, Event.usleep 10000] ++ poll_rounds k

/-- The microseconds a trace sleeps in total. -/
def slept : List Event → Nat
  | [] => 0
  | Event.usleep n :: tr => n + slept tr
  | _ :: tr => slept tr

/-! ## Further sample inputs -/

/-- An environment in which the child has died of signal 11 and the send of
the harness writes nothing: standard input holds the 2 bytes "hi". -/
def crash_env : Env where
  net_send := fun _ _ _ => 0
  waitpid_nohang := fun _ => some (WaitStatus.signaled 11)
  waitpid_block := fun _ => some (WaitStatus.signaled 11)
  connect := fun _ => true
  fork_pid := 1
  socket_ok := true
  inet_pton_ok := true
  stdin := { data := [104, 105], chunk := fun _ => 4096, fails := fun _ => false }
  raise_returns := fun _ => false

/-- An environment whose sends all write the full message except the second
one, which writes nothing. -/
def second_short_env : Env where
  net_send := fun tr _ sz => if (sends tr).length = 1 then 0 else to_int32 sz
  waitpid_nohang := fun _ => none
  waitpid_block := fun _ => some (WaitStatus.exited 0)
  connect := fun _ => true
  fork_pid := 1
  socket_ok := true
  inet_pton_ok := true
  stdin := { data := [], chunk := fun _ => 4096, fails := fun _ => false }
  raise_returns := fun _ => false

/-- An extractor that returns the single region (0, 1). -/
def whole_extractor : Extractor := fun _ _ => some [region_t.mk 0 1]

/-- An environment in which the child ignores every signal but `SIGKILL`:
the polls of `kill_and_wait` never reap it, the final blocking wait does. -/
def stubborn_env : Env where
  net_send := fun _ _ sz => to_int32 sz
  waitpid_nohang := fun _ => none
  waitpid_block := fun _ => some (WaitStatus.signaled SIGKILL)
  connect := fun _ => true
  fork_pid := 1
  socket_ok := true
  inet_pton_ok := true
  stdin := { data := [], chunk := fun _ => 4096, fails := fun _ => false }
  raise_returns := fun _ => false

/-- Library functions that read every number as 0 and know one extractor. -/
def sample_lib : Lib where
  strtoul := fun _ => 0
  strtoull := fun _ => 0
  extract_requests := fun _ => whole_extractor

/-- An environment in which the child dies of signal 11 on the first message:
standard input holds two records of one byte each (little-endian sizes), the
first send writes in full, the second send writes nothing, and the poll of
the outcome step finds the child terminated by signal 11. -/
def crash_after_first_env : Env where
  net_send := fun tr _ sz => if (sends tr).length = 1 then 0 else to_int32 sz
  waitpid_nohang := fun _ => some (WaitStatus.signaled 11)
  waitpid_block := fun _ => some (WaitStatus.signaled 11)
  connect := fun _ => true
  fork_pid := 1
  socket_ok := true
  inet_pton_ok := true
  stdin :=
    { data := [1, 0, 0, 0, 7, 1, 0, 0, 0, 8], chunk := fun _ => 4096, fails := fun _ => false }
  raise_returns := fun _ => false

/-- An environment with an empty standard input in which the poll of the
outcome step finds the child terminated by signal 11. -/
def dead_child_env : Env where
  net_send := fun _ _ sz => to_int32 sz
  waitpid_nohang := fun _ => some (WaitStatus.signaled 11)
  waitpid_block := fun _ => some (WaitStatus.signaled 11)
  connect := fun _ => true
  fork_pid := 1
  socket_ok := true
  inet_pton_ok := true
  stdin := { data := [], chunk := fun _ => 4096, fails := fun _ => false }
  raise_returns := fun _ => false

/-- The sample configuration with mode `raw` requested and no extractor. -/
def raw_cfg : Config := { sample_cfg with input_mode := input_mode_t.INPUT_RAW }

/-! ## Buffers and headers -/

theorem length_bytes_at (buf : Nat → Nat) (off n : Nat) : (bytes_at buf off n).length = n := by
  simp [bytes_at]

theorem bytes_at_add (buf : Nat → Nat) (off a b : Nat) :
    bytes_at buf off (a + b) = bytes_at buf off a ++ bytes_at buf (off + a) b := by
  unfold bytes_at
  rw [List.range_add, List.map_append, List.map_map]
  congr 1
  apply List.map_congr_left
  intro i _
  simp [Nat.add_assoc]

theorem bytes_at_lt (buf : Nat → Nat) (off n : Nat) : ∀ b ∈ bytes_at buf off n, b < 256 := by
  intro b hb
  simp only [bytes_at, List.mem_map] at hb
  obtain ⟨i, _, rfl⟩ := hb
  exact Nat.mod_lt _ (by norm_num)

theorem load_u32_lt (e : Endian) (buf : Nat → Nat) (off : Nat) : load_u32 e buf off < 2 ^ 32 := by
  cases e <;> simp only [load_u32] <;> omega

theorem bytes_at_four (buf : Nat → Nat) (off : Nat) :
    bytes_at buf off 4 = [buf off % 256, buf (off + 1) % 256, buf (off + 2) % 256,
      buf (off + 3) % 256] := by
  simp [bytes_at, List.range_succ]

theorem encode_load (e : Endian) (buf : Nat → Nat) (off : Nat) :
    encode_u32 e (load_u32 e buf off) = bytes_at buf off 4 := by
  rw [bytes_at_four]
  cases e <;> simp only [encode_u32, load_u32] <;>
    (congr 1; omega; congr 1; omega; congr 1; omega; congr 1; omega)

theorem load_of_encode (e : Endian) (buf : Nat → Nat) (off n : Nat) (hn : n < 2 ^ 32)
    (h : bytes_at buf off 4 = encode_u32 e n) : load_u32 e buf off = n := by
  rw [bytes_at_four] at h
  cases e <;> simp only [encode_u32, List.cons.injEq, and_true] at h <;>
    simp only [load_u32] <;> omega

theorem length_encode (e : Endian) (n : Nat) : (encode_u32 e n).length = 4 := by
  cases e <;> rfl

theorem encode_lt (e : Endian) (n : Nat) : ∀ b ∈ encode_u32 e n, b < 256 := by
  intro b hb
  cases e <;> simp only [encode_u32, List.mem_cons, List.mem_singleton, List.not_mem_nil,
    or_false] at hb <;> omega

theorem bytes_at_mem (l : List Nat) (hl : ∀ b ∈ l, b < 256) :
    bytes_at (mem l) 0 l.length = l := by
  apply List.ext_getElem
  · simp [length_bytes_at]
  · intro i h1 h2
    have hi : l[i] < 256 := hl _ (List.getElem_mem h2)
    simp [bytes_at, mem, List.getD_eq_getElem?_getD, List.getElem?_eq_getElem h2,
      Nat.mod_eq_of_lt hi]

/-! ## The scan without wrap-around -/

theorem scan_nowrap_of_chain (e : Endian) (buf : Nat → Nat) (len : Nat) :
    ∀ (szs : List Nat) (fuel off packets : Nat), Chain e buf off szs →
      (∀ s ∈ szs, s ≤ 67108864) → off + total_len szs = len → szs.length < fuel →
      scan_nowrap e buf len fuel off packets = some (decide (packets + nonzero_count szs > 0)) := by
  intro szs
  induction szs with
  | nil =>
    intro fuel off packets _ _ hlen hf
    obtain ⟨f, rfl⟩ : ∃ f, fuel = f + 1 := ⟨fuel - 1, by simp at hf; omega⟩
    simp only [total_len] at hlen
    have h1 : ¬ off + 4 ≤ len := by omega
    have h2 : off = len := by omega
    simp [scan_nowrap, h1, nonzero_count, h2]
  | cons s ss ih =>
    intro fuel off packets hc hs hlen hf
    obtain ⟨f, rfl⟩ : ∃ f, fuel = f + 1 := ⟨fuel - 1, by simp at hf; omega⟩
    obtain ⟨hload, hrest⟩ := hc
    simp only [total_len] at hlen
    have h1 : off + 4 ≤ len := by omega
    have hs1 : s ≤ 67108864 := hs s (List.mem_cons_self _ _)
    have hss : ∀ t ∈ ss, t ≤ 67108864 := fun t ht => hs t (List.mem_cons_of_mem _ ht)
    have hf1 : ss.length < f := by simp at hf; omega
    by_cases h0 : s = 0
    · subst h0
      have := ih f (off + 4) packets (by simpa using hrest) hss (by omega) hf1
      simp [scan_nowrap, h1, hload, nonzero_count, this]
    · have h2 : ¬ s > 67108864 := by omega
      have h3 : ¬ off + 4 + s > len := by omega
      have := ih f (off + 4 + s) (packets + 1) hrest hss (by omega) hf1
      simp only [scan_nowrap, h1, hload, h0, h2, h3, if_true, if_false, this, nonzero_count]
      congr 2
      simp only [gt_iff_lt, eq_iff_iff]
      omega

theorem chain_of_scan_nowrap (e : Endian) (buf : Nat → Nat) (len : Nat) :
    ∀ (fuel off packets : Nat), scan_nowrap e buf len fuel off packets = some true →
      ∃ szs, Chain e buf off szs ∧ (∀ s ∈ szs, s ≤ 67108864) ∧ off + total_len szs = len ∧
        packets + nonzero_count szs > 0 := by
  intro fuel
  induction fuel with
  | zero => intro off packets h; simp [scan_nowrap] at h
  | succ f ih =>
    intro off packets h
    simp only [scan_nowrap] at h
    split_ifs at h with h1 h0 h2 h3
    · obtain ⟨szs, hc, hs, hl, hp⟩ := ih _ _ h
      refine ⟨0 :: szs, ⟨h0, by simpa using hc⟩, ?_, ?_, ?_⟩
      · intro s hs1
        rcases List.mem_cons.1 hs1 with rfl | h4
        · omega
        · exact hs s h4
      · simp only [total_len]; omega
      · simpa [nonzero_count] using hp
    · simp at h
    · simp at h
    · obtain ⟨szs, hc, hs, hl, hp⟩ := ih _ _ h
      refine ⟨load_u32 e buf off :: szs, ⟨rfl, hc⟩, ?_, ?_, ?_⟩
      · intro s hs1
        rcases List.mem_cons.1 hs1 with rfl | h4
        · omega
        · exact hs s h4
      · simp only [total_len]; omega
      · simp only [nonzero_count, h0, if_false]; omega
    · simp only [Option.some.injEq, Bool.and_eq_true, decide_eq_true_eq] at h
      exact ⟨[], trivial, by simp, by simpa [total_len] using h.1, by simpa [nonzero_count] using h.2⟩

theorem scan_nowrap_mono (e : Endian) (buf : Nat → Nat) (len : Nat) :
    ∀ (fuel fuel1 off packets : Nat) (b : Bool), fuel ≤ fuel1 →
      scan_nowrap e buf len fuel off packets = some b →
      scan_nowrap e buf len fuel1 off packets = some b := by
  intro fuel
  induction fuel with
  | zero => intro fuel1 off packets b _ h; simp [scan_nowrap] at h
  | succ f ih =>
    intro fuel1 off packets b hle h
    obtain ⟨g, rfl⟩ : ∃ g, fuel1 = g + 1 := ⟨fuel1 - 1, by omega⟩
    have hfg : f ≤ g := by omega
    simp only [scan_nowrap] at h ⊢
    split_ifs at h ⊢ with h1 h0 h2 h3
    · exact ih _ _ _ _ hfg h
    · exact h
    · exact h
    · exact ih _ _ _ _ hfg h
    · exact h

theorem scan_nowrap_terminates (e : Endian) (buf : Nat → Nat) (len : Nat) :
    ∀ (fuel off packets : Nat), off ≤ len → len - off < 4 * fuel →
      ∃ b, scan_nowrap e buf len fuel off packets = some b := by
  intro fuel
  induction fuel with
  | zero => intro off packets _ h; omega
  | succ f ih =>
    intro off packets hle hf
    simp only [scan_nowrap]
    split_ifs with h1 h0 h2 h3
    · exact ih _ _ (by omega) (by omega)
    · exact ⟨_, rfl⟩
    · exact ⟨_, rfl⟩
    · exact ih _ _ (by omega) (by omega)
    · exact ⟨_, rfl⟩

/-- The scan of the code agrees with the scan over the natural numbers when
the buffer is shorter than `2 ^ 32 - 2 ^ 26` bytes, and also whenever the
latter accepts. -/
theorem loop_eq_scan_nowrap (e : Endian) (buf : Nat → Nat) (len : Nat) (hlen : len < 2 ^ 32) :
    ∀ (fuel off packets : Nat) (b : Bool), off ≤ len → packets ≤ off →
      scan_nowrap e buf len fuel off packets = some b →
      (len < 2 ^ 32 - 2 ^ 26 ∨ b = true) →
      looks_like_len_prefixed_loop e buf len fuel off packets = some b := by
  intro fuel
  induction fuel with
  | zero => intro off packets b _ _ h; simp [scan_nowrap] at h
  | succ f ih =>
    intro off packets b hoff hp h hb
    simp only [scan_nowrap] at h
    simp only [looks_like_len_prefixed_loop]
    have e64 : (off + 4) % 2 ^ 64 = off + 4 := Nat.mod_eq_of_lt (by omega)
    rw [e64]
    split_ifs at h with h1 h0 h2 h3
    · have e32 : (off + 4) % 2 ^ 32 = off + 4 := Nat.mod_eq_of_lt (by omega)
      simp only [h1, h0, if_true, e32]
      exact ih _ _ _ (by omega) (by omega) h hb
    · have h2b : load_u32 e buf off > 1024 * 1024 * 64 := by omega
      simp only [h1, h0, h2b, if_true, if_false]
      exact h
    · have e32 : (off + 4) % 2 ^ 32 = off + 4 := Nat.mod_eq_of_lt (by omega)
      have h2b : ¬ load_u32 e buf off > 1024 * 1024 * 64 := by omega
      rcases hb with hb | hb
      · have e32b : (off + 4 + load_u32 e buf off) % 2 ^ 32 = off + 4 + load_u32 e buf off :=
          Nat.mod_eq_of_lt (by omega)
        simp only [h1, h0, h2b, if_true, if_false, e32, e32b, h3]
        exact h
      · subst hb; simp at h
    · have e32 : (off + 4) % 2 ^ 32 = off + 4 := Nat.mod_eq_of_lt (by omega)
      have h2b : ¬ load_u32 e buf off > 1024 * 1024 * 64 := by omega
      have e32b : (off + 4 + load_u32 e buf off) % 2 ^ 32 = off + 4 + load_u32 e buf off :=
        Nat.mod_eq_of_lt (by omega)
      have e32c : (packets + 1) % 2 ^ 32 = packets + 1 := Nat.mod_eq_of_lt (by omega)
      simp only [h1, h0, h2b, if_true, if_false, e32, e32b, e32c, h3]
      exact ih _ _ _ (by omega) (by omega) h hb
    · simp only [h1, if_false]
      exact h

/-! ## Record streams and chains of headers -/

theorem length_concat_records (e : Endian) (recs : List (List Nat)) :
    (concat_records e recs).length = total_len (recs.map List.length) := by
  induction recs with
  | nil => rfl
  | cons r rs ih => simp [concat_records, record, length_encode, total_len, ih]; omega

theorem chain_of_bytes (e : Endian) (buf : Nat → Nat) :
    ∀ (recs : List (List Nat)) (off : Nat), (∀ r ∈ recs, r.length < 2 ^ 32) →
      bytes_at buf off (total_len (recs.map List.length)) = concat_records e recs →
      Chain e buf off (recs.map List.length) := by
  intro recs
  induction recs with
  | nil => intro off _ _; trivial
  | cons r rs ih =>
    intro off hr h
    simp only [List.map_cons, total_len, concat_records, record] at h
    rw [bytes_at_add, bytes_at_add, List.append_assoc, List.append_assoc] at h
    obtain ⟨h1, h2⟩ := List.append_inj h (by simp [length_bytes_at, length_encode])
    obtain ⟨_, h4⟩ := List.append_inj h2 (by simp [length_bytes_at])
    refine ⟨load_of_encode e buf off _ (hr r (List.mem_cons_self _ _)) h1, ?_⟩
    rw [← Nat.add_assoc] at h4
    exact ih _ (fun t ht => hr t (List.mem_cons_of_mem _ ht)) h4

theorem length_payloads_at (buf : Nat → Nat) :
    ∀ (szs : List Nat) (off : Nat), (payloads_at buf off szs).map List.length = szs := by
  intro szs
  induction szs with
  | nil => intro off; rfl
  | cons s ss ih => intro off; simp [payloads_at, length_bytes_at, ih]

theorem bytes_of_chain (e : Endian) (buf : Nat → Nat) :
    ∀ (szs : List Nat) (off : Nat), Chain e buf off szs →
      bytes_at buf off (total_len szs) = concat_records e (payloads_at buf off szs) := by
  intro szs
  induction szs with
  | nil => intro off _; simp [total_len, concat_records, payloads_at, bytes_at]
  | cons s ss ih =>
    intro off hc
    obtain ⟨h1, h2⟩ := hc
    simp only [total_len, payloads_at, concat_records, record, length_bytes_at]
    rw [bytes_at_add, bytes_at_add, ← ih _ h2, ← h1, encode_load, Nat.add_assoc]

theorem nonzero_count_pos (recs : List (List Nat)) :
    nonzero_count (recs.map List.length) > 0 ↔ ∃ r ∈ recs, r ≠ [] := by
  induction recs with
  | nil => simp [nonzero_count]
  | cons r rs ih =>
    simp only [List.map_cons, nonzero_count, List.mem_cons, exists_eq_or_imp]
    by_cases h : r = []
    · subst h
      simpa using ih
    · have : r.length ≠ 0 := by simpa using h
      simp [this, h]

theorem looks_like_len_prefixed_loop_mono (e : Endian) (buf : Nat → Nat) (len : Nat) :
    ∀ (fuel fuel1 off packets : Nat) (b : Bool), fuel ≤ fuel1 →
      looks_like_len_prefixed_loop e buf len fuel off packets = some b →
      looks_like_len_prefixed_loop e buf len fuel1 off packets = some b := by
  intro fuel
  induction fuel with
  | zero => intro fuel1 off packets b _ h; simp [looks_like_len_prefixed_loop] at h
  | succ f ih =>
    intro fuel1 off packets b hle h
    obtain ⟨g, rfl⟩ : ∃ g, fuel1 = g + 1 := ⟨fuel1 - 1, by omega⟩
    have hfg : f ≤ g := by omega
    simp only [looks_like_len_prefixed_loop] at h ⊢
    split_ifs at h ⊢ with h1 h0 h2 h3
    · exact ih _ _ _ _ hfg h
    · exact h
    · exact h
    · exact ih _ _ _ _ hfg h
    · exact h

/-- On a buffer that is a record stream shorter than `2 ^ 32` bytes the
classifier returns true. -/
theorem looks_like_of_stream (e : Endian) (buf : Nat → Nat) (len fuel : Nat)
    (recs : List (List Nat)) (hlen : len < 2 ^ 32)
    (hbuf : bytes_at buf 0 len = concat_records e recs)
    (hsz : ∀ r ∈ recs, r.length ≤ 67108864) (hne : ∃ r ∈ recs, r ≠ [])
    (hf : recs.length < fuel) :
    looks_like_len_prefixed fuel e buf len = some true := by
  have hl : len = total_len (recs.map List.length) := by
    rw [← length_concat_records e, ← hbuf, length_bytes_at]
  have hc : Chain e buf 0 (recs.map List.length) := by
    apply chain_of_bytes e buf recs 0 (fun r hr => by have := hsz r hr; omega)
    rw [← hl]; exact hbuf
  have hs : ∀ s ∈ recs.map List.length, s ≤ 67108864 := by
    intro s hs
    obtain ⟨r, hr, rfl⟩ := List.mem_map.1 hs
    exact hsz r hr
  have hscan := scan_nowrap_of_chain e buf len _ fuel 0 0 hc hs (by omega) (by simpa using hf)
  have hpos : nonzero_count (recs.map List.length) > 0 := (nonzero_count_pos recs).2 hne
  have hdec : decide (0 + nonzero_count (recs.map List.length) > 0) = true := by
    simpa using hpos
  rw [hdec] at hscan
  have hloop := loop_eq_scan_nowrap e buf len hlen fuel 0 0 true (by omega) (by omega) hscan
    (Or.inr rfl)
  have h4 : ¬ len < 4 := by
    obtain ⟨r, hr, hr0⟩ := hne
    obtain ⟨a, b, rfl⟩ := List.append_of_mem hr
    rw [hl]
    clear hl hbuf hc hs hscan hpos hdec hloop hsz hf hr
    induction a with
    | nil => simp only [List.nil_append, List.map_cons, total_len]; omega
    | cons x xs ih => simp only [List.cons_append, List.map_cons, total_len]; omega
  simp only [looks_like_len_prefixed, h4, if_false]
  exact hloop

/-- On a buffer shorter than `2 ^ 32 - 2 ^ 26` bytes the classifier returns,
and it returns true exactly on record streams. -/
theorem looks_like_iff_stream (e : Endian) (buf : Nat → Nat) (len fuel : Nat)
    (hlen : len < 2 ^ 32 - 2 ^ 26) (hf : len < 4 * fuel) :
    ∃ b, looks_like_len_prefixed fuel e buf len = some b ∧
      (b = true ↔ IsRecordStream e (bytes_at buf 0 len)) := by
  obtain ⟨b, hb⟩ := scan_nowrap_terminates e buf len fuel 0 0 (by omega) (by omega)
  have hloop := loop_eq_scan_nowrap e buf len (by omega) fuel 0 0 b (by omega) (by omega) hb
    (Or.inl hlen)
  have hspec : b = true ↔ IsRecordStream e (bytes_at buf 0 len) := by
    constructor
    · rintro rfl
      obtain ⟨szs, hc, hs, hl, hp⟩ := chain_of_scan_nowrap e buf len _ _ _ hb
      refine ⟨payloads_at buf 0 szs, ?_, ?_, ?_⟩
      · intro r hr
        have : r.length ∈ (payloads_at buf 0 szs).map List.length := List.mem_map_of_mem _ hr
        rw [length_payloads_at] at this
        exact hs _ this
      · rw [← nonzero_count_pos, length_payloads_at]; omega
      · rw [← bytes_of_chain e buf szs 0 hc]; congr 1; omega
    · rintro ⟨recs, hsz, hne, hbuf⟩
      have hl : len = total_len (recs.map List.length) := by
        rw [← length_concat_records e, ← hbuf, length_bytes_at]
      have hc : Chain e buf 0 (recs.map List.length) := by
        apply chain_of_bytes e buf recs 0 (fun r hr => by have := hsz r hr; omega)
        rw [← hl]; exact hbuf
      have hs : ∀ s ∈ recs.map List.length, s ≤ 67108864 := by
        intro s hs
        obtain ⟨r, hr, rfl⟩ := List.mem_map.1 hs
        exact hsz r hr
      have hscan := scan_nowrap_of_chain e buf len _ (recs.length + 1) 0 0 hc hs (by omega)
        (by simp)
      have hpos : nonzero_count (recs.map List.length) > 0 := (nonzero_count_pos recs).2 hne
      have hdec : decide (0 + nonzero_count (recs.map List.length) > 0) = true := by
        simpa using hpos
      rw [hdec] at hscan
      rcases Nat.le_total fuel (recs.length + 1) with h | h
      · have := scan_nowrap_mono e buf len _ _ _ _ _ h hb
        rw [hscan] at this
        exact (Option.some.inj this).symm
      · have := scan_nowrap_mono e buf len _ _ _ _ _ h hscan
        rw [hb] at this
        exact Option.some.inj this
  by_cases h4 : len < 4
  · refine ⟨false, by simp [looks_like_len_prefixed, h4], ?_⟩
    rw [← hspec]
    obtain ⟨g, rfl⟩ : ∃ g, fuel = g + 1 := ⟨fuel - 1, by omega⟩
    have h1 : ¬ 0 + 4 ≤ len := by omega
    simp only [scan_nowrap, h1, if_false] at hb
    simp at hb
    simp [← hb]
  · exact ⟨b, by simp only [looks_like_len_prefixed, h4, if_false]; exact hloop, hspec⟩

theorem encode_inj (e : Endian) (a b : Nat) (ha : a < 2 ^ 32) (hb : b < 2 ^ 32)
    (h : encode_u32 e a = encode_u32 e b) : a = b := by
  cases e <;> simp only [encode_u32, List.cons.injEq, and_true] at h <;> omega

theorem truncated_not_stream (e : Endian) (n : Nat) (tail : List Nat)
    (hn : n < 2 ^ 32) (ht : tail.length < n) :
    ∀ (recs recs1 : List (List Nat)), (∀ r ∈ recs, r.length ≤ 67108864) →
      (∀ r ∈ recs1, r.length ≤ 67108864) →
      concat_records e recs ++ encode_u32 e n ++ tail ≠ concat_records e recs1 := by
  intro recs
  induction recs with
  | nil =>
    intro recs1 _ h1 h
    cases recs1 with
    | nil =>
      have := congrArg List.length h
      simp [concat_records, length_encode] at this
    | cons r1 rs1 =>
      simp only [concat_records, record, List.nil_append, List.append_assoc] at h
      obtain ⟨h2, h3⟩ := List.append_inj h (by simp [length_encode])
      have h4 := encode_inj e _ _ hn (by have := h1 r1 (List.mem_cons_self _ _); omega) h2
      have := congrArg List.length h3
      simp only [List.length_append] at this
      omega
  | cons r rs ih =>
    intro recs1 h0 h1 h
    cases recs1 with
    | nil =>
      have := congrArg List.length h
      simp [concat_records, record, length_encode] at this
    | cons r1 rs1 =>
      simp only [concat_records, record, List.append_assoc] at h
      obtain ⟨h2, h3⟩ := List.append_inj h (by simp [length_encode])
      have h4 := encode_inj e _ _ (by have := h0 r (List.mem_cons_self _ _); omega)
        (by have := h1 r1 (List.mem_cons_self _ _); omega) h2
      obtain ⟨_, h6⟩ := List.append_inj h3 h4
      refine ih rs1 (fun t ht => h0 t (List.mem_cons_of_mem _ ht))
        (fun t ht => h1 t (List.mem_cons_of_mem _ ht)) ?_
      rw [List.append_assoc]
      exact h6

/-- On a buffer shorter than `2 ^ 32 - 2 ^ 26` bytes that ends in a truncated
trailing record the classifier returns false. -/
theorem looks_like_rejects_truncated (e : Endian) (buf : Nat → Nat) (len fuel : Nat)
    (hlen : len < 2 ^ 32 - 2 ^ 26) (hf : len < 4 * fuel)
    (h : EndsInTruncatedRecord e (bytes_at buf 0 len)) :
    looks_like_len_prefixed fuel e buf len = some false := by
  obtain ⟨b, hb, hiff⟩ := looks_like_iff_stream e buf len fuel hlen hf
  obtain ⟨recs, n, tail, hsz, hn0, hn, ht, hl⟩ := h
  cases b with
  | false => exact hb
  | true =>
    obtain ⟨recs1, hsz1, _, hl1⟩ := hiff.1 rfl
    exact absurd (hl.symm.trans hl1) (truncated_not_stream e n tail hn ht recs recs1 hsz hsz1)

/-! ## A buffer on which the 32-bit offset wraps around -/

set_option maxRecDepth 100000 in
theorem wrap_buf_accepted :
    looks_like_len_prefixed 200 Endian.little wrap_buf wrap_len = some true := by
  decide

set_option maxRecDepth 100000 in
theorem wrap_buf_nowrap :
    scan_nowrap Endian.little wrap_buf wrap_len 200 0 0 = some false := by
  decide

set_option maxRecDepth 100000 in
theorem wrap_buf_prefix :
    scan_nowrap Endian.little wrap_buf 4227858684 200 0 0 = some true := by
  decide

/-- C1: on a little-endian host the classifier returns true on the buffer
`wrap_buf` of `wrap_len` bytes (less than `2 ^ 32`), although these bytes are
not a concatenation of records: the 64th header, at offset 4227858684, declares
`2 ^ 26` bytes where 252 are left, the 32-bit sum `off + sz` wraps around to
256 and the scan goes on from there. -/
theorem looks_like_len_prefixed_accepts_wrapped_scan :
    looks_like_len_prefixed 200 Endian.little wrap_buf wrap_len = some true ∧
      ¬ IsRecordStream Endian.little (bytes_at wrap_buf 0 wrap_len) := by
  refine ⟨wrap_buf_accepted, ?_⟩
  rintro ⟨recs, hsz, hne, hbuf⟩
  have hl : wrap_len = total_len (recs.map List.length) := by
    rw [← length_concat_records Endian.little, ← hbuf, length_bytes_at]
  have hc : Chain Endian.little wrap_buf 0 (recs.map List.length) := by
    apply chain_of_bytes Endian.little wrap_buf recs 0 (fun r hr => by have := hsz r hr; omega)
    rw [← hl]; exact hbuf
  have hs : ∀ s ∈ recs.map List.length, s ≤ 67108864 := by
    intro s hs
    obtain ⟨r, hr, rfl⟩ := List.mem_map.1 hs
    exact hsz r hr
  have hscan := scan_nowrap_of_chain Endian.little wrap_buf wrap_len _ (recs.length + 1) 0 0 hc hs
    (by omega) (by simp)
  have hpos : nonzero_count (recs.map List.length) > 0 := (nonzero_count_pos recs).2 hne
  have hdec : decide (0 + nonzero_count (recs.map List.length) > 0) = true := by
    simpa using hpos
  rw [hdec] at hscan
  rcases Nat.le_total 200 (recs.length + 1) with h | h
  · have := scan_nowrap_mono _ _ _ _ _ _ _ _ h wrap_buf_nowrap
    rw [hscan] at this
    exact absurd this (by simp)
  · have := scan_nowrap_mono _ _ _ _ _ _ _ _ h hscan
    rw [wrap_buf_nowrap] at this
    exact absurd this (by simp)

/-- C3: the `wrap_len` bytes of `wrap_buf` end in a truncated trailing record
(records of `2 ^ 26` bytes each, then a header declaring `2 ^ 26` bytes with 252
bytes left), and the classifier on a little-endian host still returns true. -/
theorem looks_like_len_prefixed_accepts_truncated :
    EndsInTruncatedRecord Endian.little (bytes_at wrap_buf 0 wrap_len) ∧
      looks_like_len_prefixed 200 Endian.little wrap_buf wrap_len = some true := by
  refine ⟨?_, wrap_buf_accepted⟩
  obtain ⟨szs, hc, hs, hl, _⟩ := chain_of_scan_nowrap _ _ _ _ _ _ wrap_buf_prefix
  refine ⟨payloads_at wrap_buf 0 szs, 67108864, bytes_at wrap_buf (4227858684 + 4) 252, ?_,
    by norm_num, by norm_num, by simp [length_bytes_at], ?_⟩
  · intro r hr
    have : r.length ∈ (payloads_at wrap_buf 0 szs).map List.length := List.mem_map_of_mem _ hr
    rw [length_payloads_at] at this
    exact hs _ this
  · have h1 : load_u32 Endian.little wrap_buf 4227858684 = 67108864 := by decide
    rw [← bytes_of_chain Endian.little wrap_buf szs 0 hc, ← h1, encode_load,
      show wrap_len = 4227858684 + 4 + 252 from rfl, bytes_at_add, bytes_at_add]
    simp only [Nat.zero_add] at hl ⊢
    rw [hl]

/-! ## Replay of a record stream -/

theorem sends_append (a b : List Event) : sends (a ++ b) = sends a ++ sends b := by
  induction a with
  | nil => rfl
  | cons x xs ih => cases x <;> simp [sends, ih]

theorem sends_replay_events :
    ∀ (szs : List Nat) (off : Nat), sends (replay_events off szs) = record_regions off szs := by
  intro szs
  induction szs with
  | nil => intro off; rfl
  | cons s ss ih =>
    intro off
    by_cases h : s = 0
    · simp [replay_events, record_regions, h, ih]
    · simp [replay_events, record_regions, h, ih, sends_append, sends]

theorem to_int32_of_lt (n : Nat) (h : n < 2 ^ 31) : to_int32 n = (n : Int) := by
  have h1 : n % 2 ^ 32 = n := Nat.mod_eq_of_lt (by omega)
  simp only [to_int32, h1, h, if_true]

theorem replay_loop_of_chain (env : Env) (e : Endian) (buf : Nat → Nat) (len : Nat)
    (hlen : len < 2 ^ 32) (hsend : ∀ tr off sz, env.net_send tr off sz = to_int32 sz) :
    ∀ (szs : List Nat) (fuel off : Nat) (tr : List Event), Chain e buf off szs →
      off + total_len szs = len → szs.length < fuel →
      replay_len_prefixed_loop env e buf len fuel off tr
        = some (0, tr ++ replay_events off szs) := by
  intro szs
  induction szs with
  | nil =>
    intro fuel off tr _ hl hf
    obtain ⟨f, rfl⟩ : ∃ f, fuel = f + 1 := ⟨fuel - 1, by simp at hf; omega⟩
    simp only [total_len] at hl
    have e64 : (off + 4) % 2 ^ 64 = off + 4 := Nat.mod_eq_of_lt (by omega)
    have h1 : ¬ off + 4 ≤ len := by omega
    simp only [replay_len_prefixed_loop, e64, h1, if_false, replay_events, List.append_nil]
  | cons s ss ih =>
    intro fuel off tr hc hl hf
    obtain ⟨f, rfl⟩ : ∃ f, fuel = f + 1 := ⟨fuel - 1, by simp at hf; omega⟩
    obtain ⟨hload, hrest⟩ := hc
    simp only [total_len] at hl
    have e64 : (off + 4) % 2 ^ 64 = off + 4 := Nat.mod_eq_of_lt (by omega)
    have e32 : (off + 4) % 2 ^ 32 = off + 4 := Nat.mod_eq_of_lt (by omega)
    have e32b : (off + 4 + s) % 2 ^ 32 = off + 4 + s := Nat.mod_eq_of_lt (by omega)
    have h1 : off + 4 ≤ len := by omega
    have hf1 : ss.length < f := by simp at hf; omega
    by_cases h0 : s = 0
    · subst h0
      have := ih f (off + 4) tr (by simpa using hrest) (by omega) hf1
      simp only [replay_len_prefixed_loop, e64, e32, h1, hload, if_true, replay_events, this,
        List.nil_append]
    · have h3 : ¬ off + 4 + s > len := by omega
      have := ih f (off + 4 + s) (tr ++ [Event.net_recv] ++ [Event.net_send (off + 4) s]
        ++ [Event.net_recv]) hrest (by omega) hf1
      simp only [replay_len_prefixed_loop, e64, e32, e32b, h1, hload, h0, h3, hsend,
        if_true, if_false, ne_eq, not_true_eq_false, this, replay_events]
      simp [List.append_assoc]

theorem bytes_at_mem_eq (l : List Nat) (off n : Nat) (hl : ∀ b ∈ l, b < 256)
    (h : off + n ≤ l.length) : bytes_at (mem l) off n = (l.drop off).take n := by
  apply List.ext_getElem
  · simp [length_bytes_at]; omega
  · intro i h1 h2
    rw [length_bytes_at] at h1
    have h3 : off + i < l.length := by omega
    have hi : l[off + i] < 256 := hl _ (List.getElem_mem h3)
    simp [bytes_at, mem, List.getD_eq_getElem?_getD, List.getElem?_eq_getElem h3,
      Nat.mod_eq_of_lt hi]

theorem payloads_of_bytes (e : Endian) (buf : Nat → Nat) :
    ∀ (recs : List (List Nat)) (off : Nat),
      bytes_at buf off (total_len (recs.map List.length)) = concat_records e recs →
      payloads_at buf off (recs.map List.length) = recs := by
  intro recs
  induction recs with
  | nil => intro off _; rfl
  | cons r rs ih =>
    intro off h
    simp only [List.map_cons, total_len, concat_records, record] at h
    rw [bytes_at_add, bytes_at_add, List.append_assoc, List.append_assoc] at h
    obtain ⟨_, h2⟩ := List.append_inj h (by simp [length_bytes_at, length_encode])
    obtain ⟨h3, h4⟩ := List.append_inj h2 (by simp [length_bytes_at])
    rw [← Nat.add_assoc] at h4
    simp only [List.map_cons, payloads_at, h3, ih _ h4]

theorem regions_payloads (buf : Nat → Nat) :
    ∀ (szs : List Nat) (off : Nat), (∀ s ∈ szs, s ≠ 0) →
      (record_regions off szs).map (fun p => bytes_at buf p.1 p.2) = payloads_at buf off szs := by
  intro szs
  induction szs with
  | nil => intro off _; rfl
  | cons s ss ih =>
    intro off hs
    have h0 : s ≠ 0 := hs s (List.mem_cons_self _ _)
    simp [record_regions, payloads_at, h0, ih _ (fun t ht => hs t (List.mem_cons_of_mem _ ht))]

theorem concat_records_lt (e : Endian) (recs : List (List Nat))
    (hb : ∀ r ∈ recs, ∀ b ∈ r, b < 256) : ∀ b ∈ concat_records e recs, b < 256 := by
  induction recs with
  | nil => intro b hb; simp [concat_records] at hb
  | cons r rs ih =>
    intro b hb1
    simp only [concat_records, record, List.mem_append] at hb1
    rcases hb1 with (h | h) | h
    · exact encode_lt e _ b h
    · exact hb r (List.mem_cons_self _ _) b h
    · exact ih (fun t ht => hb t (List.mem_cons_of_mem _ ht)) b h

/-- C2 (amended): for a buffer that is the concatenation of one or more records
whose sizes are all between 1 and 64 MiB, and that is shorter than `2 ^ 32`
bytes, the classifier returns true, and `replay_len_prefixed`, when every send
writes the full message (its `int` result is the size), returns 0 after sending exactly the payloads of the
records, in order, each from the offset just after its header. -/
theorem replay_len_prefixed_of_records (e : Endian) (env : Env) (recs : List (List Nat))
    (fuel : Nat) (tr0 : List Event) (hne : recs ≠ [])
    (hsz : ∀ r ∈ recs, 0 < r.length ∧ r.length ≤ 67108864)
    (hb : ∀ r ∈ recs, ∀ b ∈ r, b < 256)
    (hlen : (concat_records e recs).length < 2 ^ 32)
    (hsend : ∀ tr off sz, env.net_send tr off sz = to_int32 sz)
    (hf : recs.length < fuel) :
    looks_like_len_prefixed fuel e (mem (concat_records e recs)) (concat_records e recs).length
        = some true ∧
      ∃ tr, replay_len_prefixed fuel env e (mem (concat_records e recs))
            (concat_records e recs).length tr0 = some (0, tr0 ++ tr) ∧
        sends tr = record_regions 0 (recs.map List.length) ∧
        sent_messages (mem (concat_records e recs)) tr = recs := by
  have hbuf : bytes_at (mem (concat_records e recs)) 0 (concat_records e recs).length
      = concat_records e recs := bytes_at_mem _ (concat_records_lt e recs hb)
  have hl := length_concat_records e recs
  have hbuf2 := hbuf
  rw [hl] at hbuf2
  have hc : Chain e (mem (concat_records e recs)) 0 (recs.map List.length) :=
    chain_of_bytes e _ recs 0 (fun r hr => by have := (hsz r hr).2; omega) hbuf2
  obtain ⟨r0, hr0⟩ := List.exists_mem_of_ne_nil recs hne
  refine ⟨looks_like_of_stream e _ _ fuel recs hlen hbuf (fun r hr => (hsz r hr).2)
    ⟨r0, hr0, by have := (hsz r0 hr0).1; intro h; simp [h] at this⟩ hf, ?_⟩
  have hs0 : ∀ s ∈ recs.map List.length, s ≠ 0 := by
    intro s hs
    obtain ⟨r, hr, rfl⟩ := List.mem_map.1 hs
    have := (hsz r hr).1
    omega
  refine ⟨replay_events 0 (recs.map List.length), ?_, sends_replay_events _ _, ?_⟩
  · exact replay_loop_of_chain env e _ _ hlen hsend _ fuel 0 tr0 hc (by omega)
      (by simpa using hf)
  · rw [sent_messages, sends_replay_events, regions_payloads _ _ _ hs0]
    exact payloads_of_bytes e _ recs 0 hbuf2

/-- An instance of the theorem for C2 on a concrete input. -/
theorem replay_len_prefixed_of_records_witness :
    looks_like_len_prefixed 2 Endian.big (mem (concat_records Endian.big [[97, 98, 99]]))
        (concat_records Endian.big [[97, 98, 99]]).length = some true ∧
      ∃ tr, replay_len_prefixed 2 full_env Endian.big (mem (concat_records Endian.big [[97, 98, 99]]))
            (concat_records Endian.big [[97, 98, 99]]).length [] = some (0, [] ++ tr) ∧
        sends tr = record_regions 0 ([[97, 98, 99]].map List.length) ∧
        sent_messages (mem (concat_records Endian.big [[97, 98, 99]])) tr = [[97, 98, 99]] :=
  replay_len_prefixed_of_records Endian.big full_env [[97, 98, 99]] 2 [] (by decide) (by decide)
    (by decide) (by decide) (fun _ _ _ => rfl) (by decide)

theorem looks_like_rejects_large_header (e : Endian) (buf : Nat → Nat) (len n fuel : Nat)
    (h4 : 4 ≤ len) (hn : 67108864 < n) (hn2 : n < 2 ^ 32)
    (hbuf : bytes_at buf 0 4 = encode_u32 e n) :
    looks_like_len_prefixed (fuel + 1) e buf len = some false := by
  have hload := load_of_encode e buf 0 n hn2 hbuf
  have h1 : ¬ len < 4 := by omega
  have h2 : (0 + 4) % 2 ^ 64 ≤ len := by norm_num; omega
  have h3 : ¬ n = 0 := by omega
  have h5 : n > 1024 * 1024 * 64 := by omega
  simp only [looks_like_len_prefixed, h1, if_false, looks_like_len_prefixed_loop, h2, if_true,
    hload, h3, h5]

/-- C2 (counterexample): the buffer made of the single record whose payload is
67108865 zero bytes (one more than 64 MiB) is a concatenation of records with
every size positive, and the classifier returns false on it. -/
theorem looks_like_len_prefixed_rejects_large_record :
    (∀ r ∈ [List.replicate 67108865 0], 0 < r.length) ∧
      looks_like_len_prefixed 2 Endian.little
        (mem (concat_records Endian.little [List.replicate 67108865 0]))
        (concat_records Endian.little [List.replicate 67108865 0]).length = some false := by
  constructor
  · intro r hr
    rw [List.mem_singleton] at hr
    subst hr
    rw [List.length_replicate]
    norm_num
  · have hlt : ∀ b ∈ concat_records Endian.little [List.replicate 67108865 0], b < 256 := by
      apply concat_records_lt
      intro r hr b hb
      rw [List.mem_singleton] at hr
      subst hr
      rw [List.eq_of_mem_replicate hb]
      norm_num
    have hlen : (concat_records Endian.little [List.replicate 67108865 0]).length = 67108869 := by
      rw [length_concat_records, List.map_cons, List.map_nil, List.length_replicate]
      simp only [total_len]
    apply looks_like_rejects_large_header Endian.little _ _ 67108865 1 (by omega) (by norm_num)
      (by norm_num)
    rw [bytes_at_mem_eq _ 0 4 hlt (by omega)]
    simp only [concat_records, record, List.length_replicate, List.drop_zero, List.append_nil]
    rw [List.take_append_of_le_length (by rw [length_encode])]
    rw [List.take_of_length_le (by rw [length_encode])]

/-! ## The replay stage of `main` -/

/-- C4 (counterexample): on a little-endian host, with mode `len` and the input
00 00 00 03 'a' 'b' 'c', the header reads as 50331648, the classifier returns
false, and the replay stage sends the whole 7-byte buffer as one message, not
the 3 bytes "abc". -/
theorem main_replay_len_little_endian :
    looks_like_len_prefixed 10 Endian.little (mem [0, 0, 0, 3, 97, 98, 99]) 7 = some false ∧
    main_replay 10 full_env Endian.little input_mode_t.INPUT_LEN none
        (mem [0, 0, 0, 3, 97, 98, 99]) 7 []
      = some (0, [Event.net_recv, Event.net_send 0 7]) ∧
    sent_messages (mem [0, 0, 0, 3, 97, 98, 99]) [Event.net_recv, Event.net_send 0 7]
      = [[0, 0, 0, 3, 97, 98, 99]] ∧
    sent_messages (mem [0, 0, 0, 3, 97, 98, 99]) [Event.net_recv, Event.net_send 0 7]
      ≠ [[97, 98, 99]] := by
  decide

/-- C4 (amended): with mode `len` and every send writing the full message, on
a big-endian host the input 00 00 00 03 'a' 'b' 'c' (and on a little-endian
host the input 03 00 00 00 'a' 'b' 'c') makes the replay stage send exactly one
message, the 3 bytes "abc" at offset 4, and end with replay result 0. -/
theorem main_replay_len_abc (fuel : Nat) (env : Env) (fn : Option Extractor) (tr0 : List Event)
    (hsend : ∀ tr off sz, env.net_send tr off sz = to_int32 sz) (hf : 2 ≤ fuel) :
    (main_replay fuel env Endian.big input_mode_t.INPUT_LEN fn (mem [0, 0, 0, 3, 97, 98, 99]) 7 tr0
        = some (0, tr0 ++ [Event.net_recv, Event.net_send 4 3, Event.net_recv]) ∧
      bytes_at (mem [0, 0, 0, 3, 97, 98, 99]) 4 3 = [97, 98, 99]) ∧
    (main_replay fuel env Endian.little input_mode_t.INPUT_LEN fn (mem [3, 0, 0, 0, 97, 98, 99]) 7
        tr0 = some (0, tr0 ++ [Event.net_recv, Event.net_send 4 3, Event.net_recv]) ∧
      bytes_at (mem [3, 0, 0, 0, 97, 98, 99]) 4 3 = [97, 98, 99]) := by
  have key : ∀ (e : Endian) (l : List Nat), l.length = 7 →
      bytes_at (mem l) 0 7 = concat_records e [[97, 98, 99]] →
      main_replay fuel env e input_mode_t.INPUT_LEN fn (mem l) 7 tr0
        = some (0, tr0 ++ [Event.net_recv, Event.net_send 4 3, Event.net_recv]) := by
    intro e l hl hb
    have hcls : looks_like_len_prefixed fuel e (mem l) 7 = some true :=
      looks_like_of_stream e (mem l) 7 fuel [[97, 98, 99]] (by norm_num) hb (by decide)
        (by decide) (by simpa using hf)
    have hc : Chain e (mem l) 0 [3] :=
      chain_of_bytes e (mem l) [[97, 98, 99]] 0 (by decide) hb
    have hrep := replay_loop_of_chain env e (mem l) 7 (by norm_num) hsend [3] fuel 0 tr0 hc rfl
      (by simpa using hf)
    simp only [main_replay, effective_mode, hcls, replay_len_prefixed, hrep]
    simp [replay_events]
  exact ⟨⟨key _ _ rfl (by decide), by decide⟩, ⟨key _ _ rfl (by decide), by decide⟩⟩

/-- An instance of the theorem for C4 on a concrete input. -/
theorem main_replay_len_abc_witness :
    (main_replay 2 full_env Endian.big input_mode_t.INPUT_LEN none (mem [0, 0, 0, 3, 97, 98, 99]) 7 []
        = some (0, [] ++ [Event.net_recv, Event.net_send 4 3, Event.net_recv]) ∧
      bytes_at (mem [0, 0, 0, 3, 97, 98, 99]) 4 3 = [97, 98, 99]) ∧
    (main_replay 2 full_env Endian.little input_mode_t.INPUT_LEN none (mem [3, 0, 0, 0, 97, 98, 99]) 7
        [] = some (0, [] ++ [Event.net_recv, Event.net_send 4 3, Event.net_recv]) ∧
      bytes_at (mem [3, 0, 0, 0, 97, 98, 99]) 4 3 = [97, 98, 99]) :=
  main_replay_len_abc 2 full_env none [] (fun _ _ _ => rfl) (by decide)

/-- The end-to-end scenario on a big-endian host: `main` sends the single
message of 3 bytes at offset 4 and returns 0. -/
theorem main_len_abc_big_endian :
    main 3 abc_env Endian.big len_cfg = some (Exit.code 0,
      [Event.read_all_stdin, Event.fork, Event.usleep 10000, Event.socket, Event.connect,
        Event.net_recv, Event.net_send 4 3, Event.net_recv, Event.close, Event.waitpid true,
        Event.kill_and_wait false, Event.kill 9, Event.waitpid true]) := by
  decide

/-- The end-to-end scenario on a little-endian host: `main` sends the whole
buffer of 7 bytes as one message and returns 0. -/
theorem main_len_abc_little_endian :
    main 3 abc_env Endian.little len_cfg = some (Exit.code 0,
      [Event.read_all_stdin, Event.fork, Event.usleep 10000, Event.socket, Event.connect,
        Event.net_recv, Event.net_send 0 7, Event.close, Event.waitpid true,
        Event.kill_and_wait false, Event.kill 9, Event.waitpid true]) := by
  decide

/-! ## Replay through an extractor -/

theorem raw_split_step_drop (env : Env) (len : Nat) (r : region_t) (rs : List region_t)
    (tr : List Event) (hlen1 : 1 ≤ len) (hlen2 : len < 2 ^ 32)
    (hs : is_int32 r.start_byte) (he : is_int32 r.end_byte)
    (h : clamp_region len r = none) :
    replay_raw_split_loop env len (r :: rs) tr = replay_raw_split_loop env len rs tr := by
  obtain ⟨hs1, hs2⟩ := hs
  obtain ⟨he1, he2⟩ := he
  simp only [clamp_region] at h
  simp only [replay_raw_split_loop]
  split_ifs at h ⊢ <;> first | rfl | (exfalso; omega)

theorem raw_split_step_keep (env : Env) (len : Nat) (r : region_t) (rs : List region_t)
    (tr : List Event) (st ml : Nat) (hlen1 : 1 ≤ len) (hlen2 : len < 2 ^ 32)
    (hs : is_int32 r.start_byte) (he : is_int32 r.end_byte)
    (h : clamp_region len r = some (st, ml)) :
    replay_raw_split_loop env len (r :: rs) tr =
      if env.net_send (tr ++ [Event.net_recv]) st ml ≠ to_int32 ml then
        (-1, tr ++ [Event.net_recv] ++ [Event.net_send st ml])
      else replay_raw_split_loop env len rs
        (tr ++ [Event.net_recv] ++ [Event.net_send st ml] ++ [Event.net_recv]) := by
  obtain ⟨hs1, hs2⟩ := hs
  obtain ⟨he1, he2⟩ := he
  by_cases c1 : r.start_byte < 0 <;> by_cases c2 : r.end_byte ≥ (len : Int)
  all_goals simp only [clamp_region, c1, c2, if_true, if_false] at h
  all_goals split_ifs at h with c3
  all_goals simp only [Option.some.injEq, Prod.mk.injEq] at h
  all_goals obtain ⟨hst, hml⟩ := h
  all_goals subst hst hml
  all_goals simp only [replay_raw_split_loop, c1, if_true, if_false]
  · have a2 : ¬ ((0 : Int) % 2 ^ 32).toNat ≥ len := by omega
    have a3 : ¬ r.end_byte < 0 := by omega
    have a4 : (r.end_byte % 2 ^ 32).toNat ≥ len := by omega
    have a5 : to_int32 len = (len : Int) := to_int32_of_lt len (by omega)
    have a6 : ¬ ((len : Int) - 1 - 0 + 1).toNat = 0 := by omega
    have a7 : (((len : Int) - 1 - 0 + 1) % 2 ^ 32).toNat = ((len : Int) - 1 - 0 + 1).toNat := by
      omega
    simp only [a2, a3, a4, a5, a6, a7, if_false, if_true]
  · have a2 : ¬ ((0 : Int) % 2 ^ 32).toNat ≥ len := by omega
    have a3 : ¬ r.end_byte < 0 := by omega
    have a4 : ¬ (r.end_byte % 2 ^ 32).toNat ≥ len := by omega
    have a6 : ¬ (r.end_byte - 0 + 1).toNat = 0 := by omega
    have a7 : ((r.end_byte - 0 + 1) % 2 ^ 32).toNat = (r.end_byte - 0 + 1).toNat := by omega
    simp only [a2, a3, a4, a6, a7, if_false]
  · have a2 : ¬ (r.start_byte % 2 ^ 32).toNat ≥ len := by omega
    have a3 : ¬ r.end_byte < r.start_byte := by omega
    have a4 : (r.end_byte % 2 ^ 32).toNat ≥ len := by omega
    have a5 : to_int32 len = (len : Int) := to_int32_of_lt len (by omega)
    have a6 : ¬ ((len : Int) - 1 - r.start_byte + 1).toNat = 0 := by omega
    have a7 : (((len : Int) - 1 - r.start_byte + 1) % 2 ^ 32).toNat
        = ((len : Int) - 1 - r.start_byte + 1).toNat := by omega
    simp only [a2, a3, a4, a5, a6, a7, if_false, if_true]
  · have a2 : ¬ (r.start_byte % 2 ^ 32).toNat ≥ len := by omega
    have a3 : ¬ r.end_byte < r.start_byte := by omega
    have a4 : ¬ (r.end_byte % 2 ^ 32).toNat ≥ len := by omega
    have a6 : ¬ (r.end_byte - r.start_byte + 1).toNat = 0 := by omega
    have a7 : ((r.end_byte - r.start_byte + 1) % 2 ^ 32).toNat
        = (r.end_byte - r.start_byte + 1).toNat := by omega
    simp only [a2, a3, a4, a6, a7, if_false]

theorem raw_split_loop_spec (env : Env) (len : Nat) (hlen1 : 1 ≤ len) (hlen2 : len < 2 ^ 32) :
    ∀ (rs : List region_t) (tr : List Event),
      (∀ r ∈ rs, is_int32 r.start_byte ∧ is_int32 r.end_byte) →
      (∃ tr1 rest, (replay_raw_split_loop env len rs tr).2 = tr ++ tr1 ∧
          sends tr1 ++ rest = rs.filterMap (clamp_region len)) ∧
        ((∀ t off sz, env.net_send t off sz = to_int32 sz) →
          replay_raw_split_loop env len rs tr
            = (0, tr ++ regions_events (rs.filterMap (clamp_region len)))) := by
  intro rs
  induction rs with
  | nil =>
    intro tr _
    exact ⟨⟨[], [], by simp [replay_raw_split_loop], rfl⟩,
      fun _ => by simp [replay_raw_split_loop, regions_events]⟩
  | cons r rs ih =>
    intro tr hr
    have hr1 := hr r (List.mem_cons_self _ _)
    have hrs : ∀ t ∈ rs, is_int32 t.start_byte ∧ is_int32 t.end_byte :=
      fun t ht => hr t (List.mem_cons_of_mem _ ht)
    cases hc : clamp_region len r with
    | none =>
      rw [raw_split_step_drop env len r rs tr hlen1 hlen2 hr1.1 hr1.2 hc]
      simpa [List.filterMap_cons, hc] using ih tr hrs
    | some p =>
      obtain ⟨st, ml⟩ := p
      rw [raw_split_step_keep env len r rs tr st ml hlen1 hlen2 hr1.1 hr1.2 hc]
      obtain ⟨⟨tr1, rest, h1, h2⟩, h3⟩ :=
        ih (tr ++ [Event.net_recv] ++ [Event.net_send st ml] ++ [Event.net_recv]) hrs
      constructor
      · by_cases hn : env.net_send (tr ++ [Event.net_recv]) st ml ≠ to_int32 ml
        · refine ⟨[Event.net_recv, Event.net_send st ml], rs.filterMap (clamp_region len), ?_, ?_⟩
          · simp [hn]
          · simp [List.filterMap_cons, hc, sends]
        · refine ⟨[Event.net_recv, Event.net_send st ml, Event.net_recv] ++ tr1, rest, ?_, ?_⟩
          · simp only [hn, if_false, h1]
            simp [List.append_assoc]
          · simp [List.filterMap_cons, hc, sends, h2]
      · intro hsend
        simp only [hsend, ne_eq, not_true_eq_false, if_false, h3 hsend, List.filterMap_cons, hc,
          regions_events]
        simp [List.append_assoc]

/-- C6 (counterexample): the extractor returns the single region (5, 3), which
the clamping rules drop; `replay_raw_split` sends nothing and returns 0. -/
theorem replay_raw_split_all_dropped_returns_zero :
    dropped_extractor (mem [1, 2, 3, 4]) 4 = some [region_t.mk 5 3] ∧
      (∀ r ∈ [region_t.mk 5 3], clamp_region 4 r = none) ∧
      replay_raw_split full_env (some dropped_extractor) (mem [1, 2, 3, 4]) 4 []
        = (0, [Event.extract]) := by
  decide

/-- C6 (amended): when no extractor is configured or the extractor returns no
regions (a null array or a zero count), `replay_raw_split` returns -1 and
sends no message; when it returns at least one region and the clamping rules
drop every region, no message is sent and `replay_raw_split` returns 0. -/
theorem replay_raw_split_no_usable_ranges (env : Env) (fn : Option Extractor) (buf : Nat → Nat)
    (len : Nat) (tr0 : List Event) (hlen1 : 1 ≤ len) (hlen2 : len < 2 ^ 32) :
    ((fn = none ∨ ∃ f, fn = some f ∧ (f buf len = none ∨ f buf len = some [])) →
        (replay_raw_split env fn buf len tr0).1 = -1 ∧
          sends (replay_raw_split env fn buf len tr0).2 = sends tr0) ∧
      (∀ f regions, fn = some f → f buf len = some regions → regions ≠ [] →
        (∀ r ∈ regions, is_int32 r.start_byte ∧ is_int32 r.end_byte ∧
          clamp_region len r = none) →
        replay_raw_split env fn buf len tr0 = (0, tr0 ++ [Event.extract])) := by
  constructor
  · rintro (rfl | ⟨f, rfl, h | h⟩)
    · simp [replay_raw_split]
    · simp [replay_raw_split, h, sends_append, sends]
    · simp [replay_raw_split, h, sends_append, sends]
  · intro f regions hfn hext hne hall
    subst hfn
    have hloop : ∀ (rs : List region_t) (tr : List Event),
        (∀ r ∈ rs, is_int32 r.start_byte ∧ is_int32 r.end_byte ∧ clamp_region len r = none) →
        replay_raw_split_loop env len rs tr = (0, tr) := by
      intro rs
      induction rs with
      | nil => intro tr _; rfl
      | cons r rs ih =>
        intro tr h
        obtain ⟨h1, h2, h3⟩ := h r (List.mem_cons_self _ _)
        rw [raw_split_step_drop env len r rs tr hlen1 hlen2 h1 h2 h3]
        exact ih tr (fun t ht => h t (List.mem_cons_of_mem _ ht))
    cases regions with
    | nil => exact absurd rfl hne
    | cons r rs =>
      simp only [replay_raw_split, hext]
      exact hloop _ _ hall

/-- An instance of the theorem for C6 on a concrete input. -/
theorem replay_raw_split_no_usable_ranges_witness :
    ((some dropped_extractor = none ∨ ∃ f : Extractor, some dropped_extractor = some f ∧
            (f (mem [1, 2, 3, 4]) 4 = none ∨ f (mem [1, 2, 3, 4]) 4 = some [])) →
        (replay_raw_split full_env (some dropped_extractor) (mem [1, 2, 3, 4]) 4 []).1 = -1 ∧
          sends (replay_raw_split full_env (some dropped_extractor) (mem [1, 2, 3, 4]) 4 []).2
            = sends []) ∧
      (∀ f regions, some dropped_extractor = some f →
        f (mem [1, 2, 3, 4]) 4 = some regions → regions ≠ [] →
        (∀ r ∈ regions, is_int32 r.start_byte ∧ is_int32 r.end_byte ∧
          clamp_region 4 r = none) →
        replay_raw_split full_env (some dropped_extractor) (mem [1, 2, 3, 4]) 4 []
          = (0, [] ++ [Event.extract])) :=
  replay_raw_split_no_usable_ranges full_env (some dropped_extractor) (mem [1, 2, 3, 4]) 4 []
    (by decide) (by decide)

/-! ## Mode dispatch -/

/-- C7: for a non-empty input in mode auto, if the classifier returns true the
buffer is replayed by `replay_len_prefixed`; if it returns false and an
extractor is configured, by `replay_raw_split`; if it returns false and no
extractor is configured, the whole buffer is sent as a single message (one
receive, then one send of `len` bytes from offset 0). -/
theorem main_replay_auto (fuel : Nat) (env : Env) (e : Endian) (fn : Option Extractor)
    (buf : Nat → Nat) (len : Nat) (tr : List Event) (hlen : len ≠ 0) :
    (looks_like_len_prefixed fuel e buf len = some true →
        main_replay fuel env e input_mode_t.INPUT_AUTO fn buf len tr
          = replay_len_prefixed fuel env e buf len tr) ∧
      (looks_like_len_prefixed fuel e buf len = some false → fn.isSome = true →
        main_replay fuel env e input_mode_t.INPUT_AUTO fn buf len tr
          = some (replay_raw_split env fn buf len tr)) ∧
      (looks_like_len_prefixed fuel e buf len = some false → fn = none →
        main_replay fuel env e input_mode_t.INPUT_AUTO fn buf len tr
          = some (if env.net_send (tr ++ [Event.net_recv]) 0 len ≠ to_int32 len then 1 else 0,
              tr ++ [Event.net_recv] ++ [Event.net_send 0 len])) := by
  refine ⟨fun h => ?_, fun h hfn => ?_, fun h hfn => ?_⟩
  · simp [main_replay, effective_mode, hlen, h]
  · simp [main_replay, effective_mode, hlen, h, hfn]
  · subst hfn
    simp [main_replay, effective_mode, hlen, h]

/-- An instance of the theorem for C7 on a concrete input. -/
theorem main_replay_auto_witness :
    (looks_like_len_prefixed 3 Endian.big (mem [0, 0, 0, 3, 97, 98, 99]) 7 = some true →
        main_replay 3 full_env Endian.big input_mode_t.INPUT_AUTO none
            (mem [0, 0, 0, 3, 97, 98, 99]) 7 []
          = replay_len_prefixed 3 full_env Endian.big (mem [0, 0, 0, 3, 97, 98, 99]) 7 []) ∧
      (looks_like_len_prefixed 3 Endian.big (mem [0, 0, 0, 3, 97, 98, 99]) 7 = some false →
        (none : Option Extractor).isSome = true →
        main_replay 3 full_env Endian.big input_mode_t.INPUT_AUTO none
            (mem [0, 0, 0, 3, 97, 98, 99]) 7 []
          = some (replay_raw_split full_env none (mem [0, 0, 0, 3, 97, 98, 99]) 7 [])) ∧
      (looks_like_len_prefixed 3 Endian.big (mem [0, 0, 0, 3, 97, 98, 99]) 7 = some false →
        (none : Option Extractor) = none →
        main_replay 3 full_env Endian.big input_mode_t.INPUT_AUTO none
            (mem [0, 0, 0, 3, 97, 98, 99]) 7 []
          = some (if full_env.net_send ([] ++ [Event.net_recv]) 0 7 ≠ to_int32 7 then 1 else 0,
              [] ++ [Event.net_recv] ++ [Event.net_send 0 7])) :=
  main_replay_auto 3 full_env Endian.big none (mem [0, 0, 0, 3, 97, 98, 99]) 7 [] (by decide)

theorem replay_len_prefixed_loop_trace (env : Env) (e : Endian) (buf : Nat → Nat) (len : Nat) :
    ∀ (fuel off : Nat) (tr : List Event) (res : Int × List Event),
      replay_len_prefixed_loop env e buf len fuel off tr = some res →
      ∃ tr1, res.2 = tr ++ tr1 ∧ Event.extract ∉ tr1 := by
  intro fuel
  induction fuel with
  | zero => intro off tr res h; simp [replay_len_prefixed_loop] at h
  | succ f ih =>
    intro off tr res h
    simp only [replay_len_prefixed_loop] at h
    split_ifs at h with h1 h0 h2 h3
    · exact ih _ _ _ h
    · exact ⟨[], by simp [← Option.some.inj h], by simp⟩
    · exact ⟨[Event.net_recv, Event.net_send ((off + 4) % 2 ^ 32) (load_u32 e buf off)],
        by simp [← Option.some.inj h], by simp⟩
    · obtain ⟨tr1, h4, h5⟩ := ih _ _ _ h
      exact ⟨[Event.net_recv, Event.net_send ((off + 4) % 2 ^ 32) (load_u32 e buf off),
        Event.net_recv] ++ tr1, by simp [h4], by simp [h5]⟩
    · exact ⟨[], by simp [← Option.some.inj h], by simp⟩

theorem replay_raw_split_loop_trace (env : Env) (len : Nat) :
    ∀ (l : List region_t) (t : List Event),
      ∃ t1, (replay_raw_split_loop env len l t).2 = t ++ t1 := by
  intro l
  induction l with
  | nil => intro t; exact ⟨[], by simp [replay_raw_split_loop]⟩
  | cons x xs ih =>
    intro t
    simp only [replay_raw_split_loop]
    generalize (if x.start_byte < 0 then (0 : Int) else x.start_byte) = st
    generalize (if (x.end_byte % 2 ^ 32).toNat ≥ len then to_int32 len - 1 else x.end_byte) = en
    generalize ((en - st + 1) % 2 ^ 32).toNat = ml
    split_ifs
    · exact ih t
    · exact ih t
    · exact ih t
    · exact ⟨_, by rw [List.append_assoc]⟩
    · obtain ⟨t1, h1⟩ := ih (t ++ [Event.net_recv] ++ [Event.net_send st.toNat ml]
        ++ [Event.net_recv])
      exact ⟨[Event.net_recv] ++ [Event.net_send st.toNat ml] ++ [Event.net_recv] ++ t1,
        by rw [h1]; simp only [List.append_assoc]⟩

/-- C8: an explicitly requested mode is not overridden.  With mode `len` the
replay stage does not depend on the extractor and never calls it; when the
classifier returns false the whole buffer is sent as one message, when it
returns true the buffer is replayed by `replay_len_prefixed`.  With mode `raw`
a non-empty buffer is always replayed by `replay_raw_split`, whatever the
classifier would say (an empty buffer is not replayed at all), and a
configured extractor is called.  With mode `raw` and no extractor `main`
returns 1 with a trace that contains neither the read of the input nor the
fork. -/
theorem main_replay_explicit_mode (fuel : Nat) (env : Env) (e : Endian) (fn : Option Extractor)
    (buf : Nat → Nat) (len : Nat) (tr : List Event) (cfg : Config) :
    (main_replay fuel env e input_mode_t.INPUT_LEN fn buf len tr
        = main_replay fuel env e input_mode_t.INPUT_LEN none buf len tr ∧
      (∀ res, main_replay fuel env e input_mode_t.INPUT_LEN fn buf len tr = some res →
        ∃ tr1, res.2 = tr ++ tr1 ∧ Event.extract ∉ tr1) ∧
      (len ≠ 0 → looks_like_len_prefixed fuel e buf len = some false →
        main_replay fuel env e input_mode_t.INPUT_LEN fn buf len tr
          = some (if env.net_send (tr ++ [Event.net_recv]) 0 len ≠ to_int32 len then 1 else 0,
              tr ++ [Event.net_recv] ++ [Event.net_send 0 len])) ∧
      (len ≠ 0 → looks_like_len_prefixed fuel e buf len = some true →
        main_replay fuel env e input_mode_t.INPUT_LEN fn buf len tr
          = replay_len_prefixed fuel env e buf len tr)) ∧
    (main_replay fuel env e input_mode_t.INPUT_RAW fn buf len tr
        = (if len = 0 then some (0, tr) else some (replay_raw_split env fn buf len tr)) ∧
      (∀ f, fn = some f → ∃ tr1,
        (replay_raw_split env fn buf len tr).2 = tr ++ [Event.extract] ++ tr1)) ∧
    (cfg.input_mode = input_mode_t.INPUT_RAW → cfg.extract_requests_fn = none →
      ∃ tr1, main fuel env e cfg = some (Exit.code 1, tr1) ∧
        Event.read_all_stdin ∉ tr1 ∧ Event.fork ∉ tr1) := by
  refine ⟨⟨?_, ?_, ?_, ?_⟩, ⟨?_, ?_⟩, ?_⟩
  · simp [main_replay, effective_mode]
  · intro res h
    by_cases h0 : len = 0
    · simp only [main_replay, h0, if_true, Option.some.injEq] at h
      exact ⟨[], by simp [← h], by simp⟩
    · simp only [main_replay, effective_mode, h0, if_false, if_true] at h
      simp only [show (input_mode_t.INPUT_LEN = input_mode_t.INPUT_AUTO) = False from by simp,
        if_false, if_true] at h
      cases hc : looks_like_len_prefixed fuel e buf len with
      | none => simp [hc] at h
      | some b =>
        cases b with
        | true =>
          simp only [hc] at h
          exact replay_len_prefixed_loop_trace env e buf len _ _ _ _ h
        | false =>
          simp only [hc, Option.some.injEq] at h
          exact ⟨[Event.net_recv, Event.net_send 0 len], by simp [← h], by simp⟩
  · intro h0 hc
    simp [main_replay, effective_mode, h0, hc]
  · intro h0 hc
    simp [main_replay, effective_mode, h0, hc]
  · by_cases h0 : len = 0 <;> simp [main_replay, effective_mode, h0]
  · rintro f rfl
    simp only [replay_raw_split]
    cases hf : f buf len with
    | none => exact ⟨[], by simp⟩
    | some rs =>
      cases rs with
      | nil => exact ⟨[], by simp⟩
      | cons r rs =>
        obtain ⟨t1, h1⟩ := replay_raw_split_loop_trace env len (r :: rs) (tr ++ [Event.extract])
        exact ⟨t1, h1⟩
  · intro hm hfn
    by_cases hip : cfg.ip.isNone ∨ cfg.port = 0
    · exact ⟨[Event.usage], by unfold main; rw [if_pos hip], by simp, by simp⟩
    · exact ⟨[Event.diag], by unfold main; rw [if_neg hip, if_pos ⟨hm, by simp [hfn]⟩],
        by simp, by simp⟩

/-! ## The cap on the input size -/

theorem read_all_stdin_loop_exact_cap (src : Stdin) (max_bytes : Nat) (hmax : max_bytes < 2 ^ 63) :
    ∀ (fuel cap : Nat) (buf rest : List Nat) (i : Nat),
      buf.length + rest.length = max_bytes → buf.length ≤ cap → cap ≤ max_bytes →
      rest.length < fuel →
      read_all_stdin_loop src max_bytes fuel cap buf rest i = some none := by
  intro fuel
  induction fuel with
  | zero => intro cap buf rest i _ _ _ hf; omega
  | succ f ih =>
    intro cap buf rest i hsum hcap hle hf
    simp only [read_all_stdin_loop]
    have e64 : (cap * 2) % 2 ^ 64 = cap * 2 := Nat.mod_eq_of_lt (by omega)
    rw [e64]
    -- the capacity after the growth step
    have key : ∀ cap1 : Nat, buf.length < cap1 → cap1 ≤ max_bytes →
        (match read_call src i rest (cap1 - buf.length) with
          | none => some none
          | some got =>
            if got.length = 0 then some (some (buf, buf.length % 2 ^ 32))
            else if (buf ++ got).length > max_bytes then some none
            else read_all_stdin_loop src max_bytes f cap1 (buf ++ got) (rest.drop got.length)
              (i + 1)) = some none := by
      intro cap1 h1 h2
      simp only [read_call]
      by_cases hfail : src.fails i = true
      · simp [hfail]
      · simp only [hfail, Bool.false_eq_true, if_false]
        have hgot : (rest.take (min (cap1 - buf.length) (max 1 (src.chunk i)))).length
            = min (min (cap1 - buf.length) (max 1 (src.chunk i))) rest.length := by
          simp [List.length_take]
        have hpos : (rest.take (min (cap1 - buf.length) (max 1 (src.chunk i)))).length ≠ 0 := by
          rw [hgot]; omega
        have hle2 : ¬ (buf ++ rest.take (min (cap1 - buf.length) (max 1 (src.chunk i)))).length
            > max_bytes := by
          rw [List.length_append, hgot]; omega
        simp only [hpos, if_false, hle2]
        apply ih
        · rw [List.length_append, List.length_drop, hgot]; omega
        · rw [List.length_append, hgot]; omega
        · exact h2
        · rw [List.length_drop, hgot]; omega
    by_cases hlc : buf.length = cap
    · simp only [hlc, if_true]
      by_cases hgt : cap * 2 > max_bytes
      · simp only [hgt, if_true]
        by_cases hmc : max_bytes ≤ cap
        · simp [hmc]
        · simp only [hmc, if_false]
          have := key max_bytes (by omega) (by omega)
          rw [hlc] at this
          exact this
      · simp only [hgt, if_false]
        by_cases hmc : cap * 2 ≤ cap
        · simp [hmc]
        · simp only [hmc, if_false]
          have := key (cap * 2) (by omega) (by omega)
          rw [hlc] at this
          exact this
    · simp only [hlc, if_false]
      exact key cap (by omega) hle

/-- C9: an input of exactly `max_bytes` bytes, for any `max_bytes` from 4096
on, is never accepted: however the input is split into reads,
`read_all_stdin` returns `NULL`, although the size does not exceed the cap. -/
theorem read_all_stdin_rejects_exact_cap (src : Stdin) (max_bytes fuel : Nat)
    (hsize : src.data.length = max_bytes) (h4096 : 4096 ≤ max_bytes)
    (hmax : max_bytes < 2 ^ 63) (hf : max_bytes < fuel) :
    read_all_stdin fuel max_bytes src = some none := by
  unfold read_all_stdin
  exact read_all_stdin_loop_exact_cap src max_bytes hmax fuel 4096 [] src.data 0
    (by simpa using hsize) (by simp) h4096 (by omega)

/-- An instance of the theorem for C9 on a concrete input. -/
theorem read_all_stdin_rejects_exact_cap_witness :
    read_all_stdin 4097 4096 stdin_4096 = some none :=
  read_all_stdin_rejects_exact_cap stdin_4096 4096 4097 (List.length_replicate 4096 0)
    (by decide) (by decide) (by decide)

theorem take_append_drop_length (rest : List Nat) (k : Nat) :
    rest.take k ++ rest.drop (rest.take k).length = rest := by
  rw [List.length_take]
  rcases Nat.le_total k rest.length with h | h
  · rw [Nat.min_eq_left h, List.take_append_drop]
  · rw [Nat.min_eq_right h, List.take_of_length_le h, List.drop_length, List.append_nil]

theorem read_all_stdin_loop_below_cap (src : Stdin) (max_bytes : Nat) (hmax : max_bytes < 2 ^ 63)
    (hnofail : ∀ i, src.fails i = false) :
    ∀ (fuel cap : Nat) (buf rest : List Nat) (i : Nat),
      buf.length + rest.length < max_bytes → buf.length ≤ cap → 4096 ≤ cap →
      rest.length < fuel →
      read_all_stdin_loop src max_bytes fuel cap buf rest i
        = some (some (buf ++ rest, (buf ++ rest).length % 2 ^ 32)) := by
  intro fuel
  induction fuel with
  | zero => intro cap buf rest i _ _ _ hf; omega
  | succ f ih =>
    intro cap buf rest i hsum hcap h4096 hf
    simp only [read_all_stdin_loop]
    have key : ∀ cap1 : Nat, buf.length < cap1 → 4096 ≤ cap1 →
        (match read_call src i rest (cap1 - buf.length) with
          | none => some none
          | some got =>
            if got.length = 0 then some (some (buf, buf.length % 2 ^ 32))
            else if (buf ++ got).length > max_bytes then some none
            else read_all_stdin_loop src max_bytes f cap1 (buf ++ got) (rest.drop got.length)
              (i + 1)) = some (some (buf ++ rest, (buf ++ rest).length % 2 ^ 32)) := by
      intro cap1 h1 h2
      simp only [read_call, hnofail, Bool.false_eq_true, if_false]
      have hgot : (rest.take (min (cap1 - buf.length) (max 1 (src.chunk i)))).length
          = min (min (cap1 - buf.length) (max 1 (src.chunk i))) rest.length := by
        simp [List.length_take]
      by_cases h0 : (rest.take (min (cap1 - buf.length) (max 1 (src.chunk i)))).length = 0
      · have hr : rest = [] := by
          apply List.eq_nil_of_length_eq_zero
          rw [hgot] at h0; omega
        subst hr
        simp
      · have hle2 : ¬ (buf ++ rest.take (min (cap1 - buf.length) (max 1 (src.chunk i)))).length
            > max_bytes := by
          rw [List.length_append, hgot]; omega
        simp only [h0, if_false, hle2]
        rw [ih cap1 _ _ (i + 1) ?_ ?_ h2 ?_]
        · rw [List.append_assoc, take_append_drop_length]
        · rw [List.length_append, List.length_drop, hgot]; omega
        · rw [List.length_append, hgot]; omega
        · rw [List.length_drop, hgot]; omega
    by_cases hlc : buf.length = cap
    · have e64 : (cap * 2) % 2 ^ 64 = cap * 2 := Nat.mod_eq_of_lt (by omega)
      simp only [hlc, if_true, e64]
      by_cases hgt : cap * 2 > max_bytes
      · have hmc : ¬ max_bytes ≤ cap := by omega
        simp only [hgt, if_true, hmc, if_false]
        have := key max_bytes (by omega) (by omega)
        rw [hlc] at this
        exact this
      · have hmc : ¬ cap * 2 ≤ cap := by omega
        simp only [hgt, if_false, hmc]
        have := key (cap * 2) (by omega) (by omega)
        rw [hlc] at this
        exact this
    · simp only [hlc, if_false]
      exact key cap (by omega) h4096

/-- An input strictly shorter than `max_bytes` is accepted whole when no read
fails, however it is split into reads. -/
theorem read_all_stdin_accepts_below_cap (src : Stdin) (max_bytes fuel : Nat)
    (hsize : src.data.length < max_bytes) (hmax : max_bytes < 2 ^ 63)
    (hnofail : ∀ i, src.fails i = false) (hf : src.data.length < fuel) :
    read_all_stdin fuel max_bytes src = some (some (src.data, src.data.length % 2 ^ 32)) := by
  unfold read_all_stdin
  have := read_all_stdin_loop_below_cap src max_bytes hmax hnofail fuel 4096 [] src.data 0
    (by simpa using hsize) (by simp) (by omega) hf
  simpa using this

theorem read_all_stdin_loop_above_cap (src : Stdin) (max_bytes : Nat) :
    ∀ (fuel cap : Nat) (buf rest : List Nat) (i : Nat),
      max_bytes < buf.length + rest.length → buf.length ≤ max_bytes → buf.length ≤ cap →
      rest.length < fuel →
      read_all_stdin_loop src max_bytes fuel cap buf rest i = some none := by
  intro fuel
  induction fuel with
  | zero => intro cap buf rest i _ _ _ hf; omega
  | succ f ih =>
    intro cap buf rest i hsum hlen hcap hf
    simp only [read_all_stdin_loop]
    have key : ∀ cap1 : Nat, buf.length < cap1 →
        (match read_call src i rest (cap1 - buf.length) with
          | none => some none
          | some got =>
            if got.length = 0 then some (some (buf, buf.length % 2 ^ 32))
            else if (buf ++ got).length > max_bytes then some none
            else read_all_stdin_loop src max_bytes f cap1 (buf ++ got) (rest.drop got.length)
              (i + 1)) = some none := by
      intro cap1 h1
      simp only [read_call]
      by_cases hfail : src.fails i = true
      · simp [hfail]
      · simp only [hfail, Bool.false_eq_true, if_false]
        have hgot : (rest.take (min (cap1 - buf.length) (max 1 (src.chunk i)))).length
            = min (min (cap1 - buf.length) (max 1 (src.chunk i))) rest.length := by
          simp [List.length_take]
        have hpos : (rest.take (min (cap1 - buf.length) (max 1 (src.chunk i)))).length ≠ 0 := by
          rw [hgot]; omega
        simp only [hpos, if_false]
        by_cases hgt : (buf ++ rest.take (min (cap1 - buf.length) (max 1 (src.chunk i)))).length
            > max_bytes
        · rw [if_pos hgt]
        · simp only [hgt, if_false]
          rw [List.length_append, hgot] at hgt
          apply ih
          · rw [List.length_append, List.length_drop, hgot]; omega
          · rw [List.length_append, hgot]; omega
          · rw [List.length_append, hgot]; omega
          · rw [List.length_drop, hgot]; omega
    by_cases hlc : buf.length = cap
    · simp only [hlc, if_true]
      split_ifs with h1 h2 h3
      · rfl
      · have := key max_bytes (by omega)
        rw [hlc] at this
        exact this
      · rfl
      · have := key (cap * 2 % 2 ^ 64) (by omega)
        rw [hlc] at this
        exact this
    · simp only [hlc, if_false]
      exact key cap (by omega)

/-- An input longer than `max_bytes` is rejected, however it is split into
reads. -/
theorem read_all_stdin_rejects_above_cap (src : Stdin) (max_bytes fuel : Nat)
    (hsize : max_bytes < src.data.length) (hf : src.data.length < fuel) :
    read_all_stdin fuel max_bytes src = some none := by
  unfold read_all_stdin
  exact read_all_stdin_loop_above_cap src max_bytes fuel 4096 [] src.data 0
    (by simpa using hsize) (by simp) (by simp) hf

/-! ## The outcome step -/

theorem kill_and_wait_poll_trace (env : Env) :
    ∀ (n : Nat) (tr : List Event),
      ∃ tr1, (kill_and_wait_poll env n tr).2 = tr ++ tr1 ∧ ∀ s, Event.raise s ∉ tr1 := by
  intro n
  induction n with
  | zero => intro tr; exact ⟨[], by simp [kill_and_wait_poll], by simp⟩
  | succ n ih =>
    intro tr
    simp only [kill_and_wait_poll]
    cases h : env.waitpid_nohang tr with
    | some st => exact ⟨[Event.waitpid true], by simp, by simp⟩
    | none =>
      obtain ⟨tr1, h1, h2⟩ := ih (tr ++ [Event.waitpid true, Event.usleep 10000])
      exact ⟨[Event.waitpid true, Event.usleep 10000] ++ tr1, by simp [h1], by simp [h2]⟩

theorem kill_and_wait_trace (env : Env) (pid : Int) (graceful : Bool) (tr : List Event) :
    ∃ tr1, (kill_and_wait env pid graceful tr).2 = tr ++ tr1 ∧ ∀ s, Event.raise s ∉ tr1 := by
  unfold kill_and_wait
  by_cases hp : pid ≤ 0
  · exact ⟨[], by simp [hp], by simp⟩
  · simp only [hp, if_false]
    obtain ⟨tr1, h1, h2⟩ := kill_and_wait_poll_trace env 100
      (tr ++ [Event.kill (if graceful = true then SIGTERM else SIGKILL)])
    rcases hres : kill_and_wait_poll env 100
      (tr ++ [Event.kill (if graceful = true then SIGTERM else SIGKILL)]) with ⟨st, tr2⟩
    rw [hres] at h1
    simp only at h1
    cases st with
    | some st =>
      exact ⟨[Event.kill (if graceful = true then SIGTERM else SIGKILL)] ++ tr1,
        by simp [h1], by simp [h2]⟩
    | none =>
      exact ⟨[Event.kill (if graceful = true then SIGTERM else SIGKILL)] ++ tr1
          ++ [Event.kill SIGKILL, Event.waitpid false], by simp [h1], by simp [h2]⟩

theorem main_exit_signaled (env : Env) (rc : Int) (tr : List Event) (s : Nat)
    (h : env.waitpid_nohang tr = some (WaitStatus.signaled s)) :
    main_exit env rc tr
      = if env.raise_returns s then Exit.code (if rc ≠ 0 then 1 else 0) else Exit.signaled s := by
  unfold main_exit
  rw [h]
  cases hr : env.raise_returns s <;> simp [WIFSIGNALED, WTERMSIG, hr]

theorem main_exit_not_signaled (env : Env) (rc : Int) (tr : List Event)
    (h : ∀ s, env.waitpid_nohang tr ≠ some (WaitStatus.signaled s)) :
    main_exit env rc tr = Exit.code (if rc ≠ 0 then 1 else 0) := by
  unfold main_exit
  cases hw : env.waitpid_nohang tr with
  | none => rfl
  | some st =>
    cases st with
    | exited c => simp [WIFSIGNALED]
    | signaled s => exact absurd hw (h s)
    | stopped => simp [WIFSIGNALED]

theorem main_connected_path (fuel : Nat) (env : Env) (e : Endian) (cfg : Config)
    (server : String) (args : List String) (res : Option (List Nat × Nat))
    (tr3 tr4 : List Event) (rc : Int)
    (hip : ¬ (cfg.ip.isNone ∨ cfg.port = 0))
    (hmode : ¬ (cfg.input_mode = input_mode_t.INPUT_RAW ∧ cfg.extract_requests_fn.isNone))
    (hargs : cfg.rest_args = "--" :: server :: args)
    (hread : read_all_stdin fuel cfg.max_stdin_bytes env.stdin = some res)
    (hres : ¬ (res.isNone ∧ cfg.max_stdin_bytes ≠ 0))
    (hfork : 0 < env.fork_pid) (hsock : env.socket_ok = true) (hpton : env.inet_pton_ok = true)
    (hconn : main_connect env 1000 [Event.read_all_stdin, Event.fork,
      Event.usleep cfg.server_wait_usecs, Event.socket] = (true, tr3))
    (hreplay : main_replay fuel env e cfg.input_mode cfg.extract_requests_fn
      (mem ((res.map Prod.fst).getD [])) ((res.map Prod.snd).getD 0) tr3 = some (rc, tr4)) :
    main fuel env e cfg = some (main_exit env rc (tr4 ++ [Event.close]),
      main_outcome env env.fork_pid cfg.graceful_term (tr4 ++ [Event.close])) := by
  have hf1 : ¬ env.fork_pid < 0 := by omega
  have hf2 : ¬ env.fork_pid = 0 := by omega
  unfold main
  rw [if_neg hip, if_neg hmode, hargs]
  simp only [ne_eq, not_true_eq_false, if_false, List.isEmpty_cons, Bool.false_eq_true, hread,
    hres, hf1, hf2, hsock, hpton, List.cons_append, List.nil_append, hconn, hreplay]

/-- C10: on every run of `main` that reaches the replay stage, whatever the
replay result `rc` is, the trace of `main` is the trace of the replay, then
`close`, then the outcome step.  The outcome step begins with exactly one
non-blocking `waitpid`.  If that poll reports the child terminated by signal
`s`, the only further call is raising `s` on the harness, which ends the
harness (if the call returns, `main` returns 1 for a non-zero `rc` and 0
otherwise); if it reports a normal exit, there is no further call (no signal,
no `kill_and_wait`); if the child was not reaped, `kill_and_wait` is called
with the configured graceful flag and no signal is raised on the harness.
Whenever the poll does not report a death by signal, `main` returns 1 for a
non-zero `rc` and 0 otherwise. -/
theorem main_outcome_after_replay (fuel : Nat) (env : Env) (e : Endian) (cfg : Config)
    (server : String) (args : List String) (res : Option (List Nat × Nat))
    (tr3 tr4 : List Event) (rc : Int)
    (hip : ¬ (cfg.ip.isNone ∨ cfg.port = 0))
    (hmode : ¬ (cfg.input_mode = input_mode_t.INPUT_RAW ∧ cfg.extract_requests_fn.isNone))
    (hargs : cfg.rest_args = "--" :: server :: args)
    (hread : read_all_stdin fuel cfg.max_stdin_bytes env.stdin = some res)
    (hres : ¬ (res.isNone ∧ cfg.max_stdin_bytes ≠ 0))
    (hfork : 0 < env.fork_pid) (hsock : env.socket_ok = true) (hpton : env.inet_pton_ok = true)
    (hconn : main_connect env 1000 [Event.read_all_stdin, Event.fork,
      Event.usleep cfg.server_wait_usecs, Event.socket] = (true, tr3))
    (hreplay : main_replay fuel env e cfg.input_mode cfg.extract_requests_fn
      (mem ((res.map Prod.fst).getD [])) ((res.map Prod.snd).getD 0) tr3 = some (rc, tr4)) :
    main fuel env e cfg = some (main_exit env rc (tr4 ++ [Event.close]),
        main_outcome env env.fork_pid cfg.graceful_term (tr4 ++ [Event.close])) ∧
      ((∀ s, env.waitpid_nohang (tr4 ++ [Event.close]) ≠ some (WaitStatus.signaled s)) →
        main_exit env rc (tr4 ++ [Event.close]) = Exit.code (if rc ≠ 0 then 1 else 0)) ∧
      (∀ s, env.waitpid_nohang (tr4 ++ [Event.close]) = some (WaitStatus.signaled s) →
        main_outcome env env.fork_pid cfg.graceful_term (tr4 ++ [Event.close])
            = tr4 ++ [Event.close] ++ [Event.waitpid true, Event.raise s] ∧
          main_exit env rc (tr4 ++ [Event.close])
            = if env.raise_returns s then Exit.code (if rc ≠ 0 then 1 else 0)
              else Exit.signaled s) ∧
      (∀ c, env.waitpid_nohang (tr4 ++ [Event.close]) = some (WaitStatus.exited c) →
        main_outcome env env.fork_pid cfg.graceful_term (tr4 ++ [Event.close])
          = tr4 ++ [Event.close] ++ [Event.waitpid true]) ∧
      (env.waitpid_nohang (tr4 ++ [Event.close]) = none →
        main_outcome env env.fork_pid cfg.graceful_term (tr4 ++ [Event.close])
            = (kill_and_wait env env.fork_pid cfg.graceful_term (tr4 ++ [Event.close]
                ++ [Event.waitpid true, Event.kill_and_wait cfg.graceful_term])).2 ∧
          ∃ tr1, main_outcome env env.fork_pid cfg.graceful_term (tr4 ++ [Event.close])
              = tr4 ++ [Event.close]
                ++ [Event.waitpid true, Event.kill_and_wait cfg.graceful_term] ++ tr1 ∧
            ∀ s, Event.raise s ∉ tr1) := by
  refine ⟨main_connected_path fuel env e cfg server args res tr3 tr4 rc hip hmode hargs hread
    hres hfork hsock hpton hconn hreplay, ?_, ?_, ?_, ?_⟩
  · intro h
    exact main_exit_not_signaled env rc _ h
  · intro s h
    exact ⟨by simp [main_outcome, h, WIFSIGNALED, WTERMSIG], main_exit_signaled env rc _ s h⟩
  · intro c h
    simp [main_outcome, h, WIFSIGNALED]
  · intro h
    simp only [main_outcome, h, true_and]
    obtain ⟨tr1, h1, h2⟩ := kill_and_wait_trace env env.fork_pid cfg.graceful_term
      (tr4 ++ [Event.close] ++ [Event.waitpid true, Event.kill_and_wait cfg.graceful_term])
    exact ⟨tr1, h1, h2⟩

/-- An instance of the theorem for C10 on a concrete input. -/
theorem main_outcome_after_replay_witness :
    main 1 full_env Endian.little sample_cfg = some (main_exit full_env 0
        ([Event.read_all_stdin, Event.fork, Event.usleep 10000, Event.socket, Event.connect]
          ++ [Event.close]),
      main_outcome full_env full_env.fork_pid sample_cfg.graceful_term
        ([Event.read_all_stdin, Event.fork, Event.usleep 10000, Event.socket, Event.connect]
          ++ [Event.close])) :=
  (main_outcome_after_replay 1 full_env Endian.little sample_cfg "server" [] (some ([], 0))
    [Event.read_all_stdin, Event.fork, Event.usleep 10000, Event.socket, Event.connect]
    [Event.read_all_stdin, Event.fork, Event.usleep 10000, Event.socket, Event.connect] 0
    (by decide) (by decide) rfl (by decide) (by decide) (by decide) rfl rfl (by decide)
    (by decide)).1

/-! ## Replay of a list of regions -/

theorem send_all_short (env : Env) :
    ∀ (pre : List (Nat × Nat)) (m : Nat × Nat) (post : List (Nat × Nat)) (tr : List Event),
      sends_full env tr pre → send_short env tr pre m →
      send_all env (pre ++ m :: post) tr
        = (-1, tr ++ regions_events pre ++ [Event.net_recv, Event.net_send m.1 m.2]) := by
  intro pre
  induction pre with
  | nil =>
    intro m post tr _ hs
    simp only [send_short, regions_events, List.append_nil] at hs
    simp only [List.nil_append, send_all, regions_events, List.append_nil]
    rw [if_pos hs, List.append_assoc]
    rfl
  | cons x pre ih =>
    intro m post tr hf hs
    have hx := hf [] x pre rfl
    simp only [regions_events, List.append_nil] at hx
    have hf1 : sends_full env
        (tr ++ [Event.net_recv] ++ [Event.net_send x.1 x.2] ++ [Event.net_recv]) pre := by
      intro a y b hab
      have := hf (x :: a) y b (by rw [hab]; rfl)
      simpa [regions_events, List.append_assoc] using this
    have hs1 : send_short env
        (tr ++ [Event.net_recv] ++ [Event.net_send x.1 x.2] ++ [Event.net_recv]) pre m := by
      simpa [send_short, regions_events, List.append_assoc] using hs
    have step : send_all env (x :: (pre ++ m :: post)) tr
        = send_all env (pre ++ m :: post)
            (tr ++ [Event.net_recv] ++ [Event.net_send x.1 x.2] ++ [Event.net_recv]) := by
      simp only [send_all]
      rw [if_neg (by simpa using hx)]
    rw [List.cons_append, step, ih m post _ hf1 hs1]
    simp [regions_events, List.append_assoc]

theorem raw_split_loop_eq_send_all (env : Env) (len : Nat) (hlen1 : 1 ≤ len)
    (hlen2 : len < 2 ^ 32) :
    ∀ (rs : List region_t) (tr : List Event),
      (∀ r ∈ rs, is_int32 r.start_byte ∧ is_int32 r.end_byte) →
      replay_raw_split_loop env len rs tr
        = send_all env (rs.filterMap (clamp_region len)) tr := by
  intro rs
  induction rs with
  | nil => intro tr _; rfl
  | cons r rs ih =>
    intro tr hr
    have hr1 := hr r (List.mem_cons_self _ _)
    have hrs : ∀ t ∈ rs, is_int32 t.start_byte ∧ is_int32 t.end_byte :=
      fun t ht => hr t (List.mem_cons_of_mem _ ht)
    cases hc : clamp_region len r with
    | none =>
      rw [raw_split_step_drop env len r rs tr hlen1 hlen2 hr1.1 hr1.2 hc, ih tr hrs]
      simp [List.filterMap_cons, hc]
    | some p =>
      obtain ⟨st, ml⟩ := p
      rw [raw_split_step_keep env len r rs tr st ml hlen1 hlen2 hr1.1 hr1.2 hc]
      simp only [List.filterMap_cons, hc, send_all, ih _ hrs]

theorem regions_events_record_regions :
    ∀ (szs : List Nat) (off : Nat),
      regions_events (record_regions off szs) = replay_events off szs := by
  intro szs
  induction szs with
  | nil => intro off; rfl
  | cons s ss ih =>
    intro off
    by_cases h : s = 0
    · simp [record_regions, replay_events, h, ih]
    · simp [record_regions, replay_events, h, ih, regions_events]

theorem replay_loop_eq_send_all (env : Env) (e : Endian) (buf : Nat → Nat) (len : Nat)
    (hlen : len < 2 ^ 32) :
    ∀ (szs : List Nat) (fuel off : Nat) (tr : List Event), Chain e buf off szs →
      off + total_len szs = len → szs.length < fuel →
      replay_len_prefixed_loop env e buf len fuel off tr
        = some (send_all env (record_regions off szs) tr) := by
  intro szs
  induction szs with
  | nil =>
    intro fuel off tr _ hl hf
    obtain ⟨f, rfl⟩ : ∃ f, fuel = f + 1 := ⟨fuel - 1, by simp at hf; omega⟩
    simp only [total_len] at hl
    have e64 : (off + 4) % 2 ^ 64 = off + 4 := Nat.mod_eq_of_lt (by omega)
    have h1 : ¬ off + 4 ≤ len := by omega
    simp only [replay_len_prefixed_loop, e64, h1, if_false, record_regions, send_all]
  | cons s ss ih =>
    intro fuel off tr hc hl hf
    obtain ⟨f, rfl⟩ : ∃ f, fuel = f + 1 := ⟨fuel - 1, by simp at hf; omega⟩
    obtain ⟨hload, hrest⟩ := hc
    simp only [total_len] at hl
    have e64 : (off + 4) % 2 ^ 64 = off + 4 := Nat.mod_eq_of_lt (by omega)
    have e32 : (off + 4) % 2 ^ 32 = off + 4 := Nat.mod_eq_of_lt (by omega)
    have e32b : (off + 4 + s) % 2 ^ 32 = off + 4 + s := Nat.mod_eq_of_lt (by omega)
    have h1 : off + 4 ≤ len := by omega
    have hf1 : ss.length < f := by simp at hf; omega
    by_cases h0 : s = 0
    · subst h0
      have := ih f (off + 4) tr (by simpa using hrest) (by omega) hf1
      simp only [replay_len_prefixed_loop, e64, e32, h1, hload, if_true, this, record_regions,
        List.nil_append, Nat.add_zero]
    · have h3 : ¬ off + 4 + s > len := by omega
      have := ih f (off + 4 + s) (tr ++ [Event.net_recv] ++ [Event.net_send (off + 4) s]
        ++ [Event.net_recv]) hrest (by omega) hf1
      simp only [replay_len_prefixed_loop, e64, e32, e32b, h1, hload, h0, h3, if_true, if_false,
        this, record_regions, List.singleton_append, send_all]
      split_ifs <;> rfl

theorem scan_visits_erase (e : Endian) (buf : Nat → Nat) (len : Nat) :
    ∀ (fuel off packets : Nat),
      (scan_visits e buf len fuel off packets).map (fun r => r.1)
        = looks_like_len_prefixed_loop e buf len fuel off packets := by
  intro fuel
  induction fuel with
  | zero => intro off packets; rfl
  | succ f ih =>
    intro off packets
    simp only [scan_visits, looks_like_len_prefixed_loop]
    split_ifs with h1 h0 h2 h3
    · rw [← ih, Option.map_map]; rfl
    · rfl
    · rfl
    · rw [← ih, Option.map_map]; rfl
    · rfl

/-- On every buffer that the scan of the classifier accepts, the loop of
`replay_len_prefixed` is the replay of the regions of the visited records. -/
theorem replay_loop_of_scan (env : Env) (e : Endian) (buf : Nat → Nat) (len : Nat) :
    ∀ (fuel off packets pk : Nat) (vs : List (Nat × Nat)) (tr : List Event),
      scan_visits e buf len fuel off packets = some (true, pk, vs) →
      replay_len_prefixed_loop env e buf len fuel off tr
        = some (send_all env (visit_regions vs) tr) := by
  intro fuel
  induction fuel with
  | zero => intro off packets pk vs tr h; simp [scan_visits] at h
  | succ f ih =>
    intro off packets pk vs tr h
    simp only [scan_visits] at h
    simp only [replay_len_prefixed_loop]
    split_ifs at h with h1 h0 h2 h3
    · cases hr : scan_visits e buf len f ((off + 4) % 2 ^ 32) packets with
      | none => rw [hr] at h; simp at h
      | some r =>
        obtain ⟨b1, pk1, vs1⟩ := r
        rw [hr] at h
        simp only [Option.map_some', Option.some.injEq, Prod.mk.injEq] at h
        obtain ⟨hb, _, hv⟩ := h
        subst hb hv
        simp only [h1, h0, if_true, visit_regions, List.nil_append]
        exact ih _ _ _ _ tr hr
    · simp at h
    · simp at h
    · cases hr : scan_visits e buf len f (((off + 4) % 2 ^ 32 + load_u32 e buf off) % 2 ^ 32)
          ((packets + 1) % 2 ^ 32) with
      | none => rw [hr] at h; simp at h
      | some r =>
        obtain ⟨b1, pk1, vs1⟩ := r
        rw [hr] at h
        simp only [Option.map_some', Option.some.injEq, Prod.mk.injEq] at h
        obtain ⟨hb, _, hv⟩ := h
        subst hb hv
        simp only [h1, h0, h3, if_true, if_false, visit_regions, List.singleton_append, send_all]
        split_ifs with hn
        · rfl
        · exact ih _ _ _ _ _ hr
    · simp only [Option.some.injEq, Prod.mk.injEq] at h
      obtain ⟨_, _, hv⟩ := h
      subst hv
      simp only [h1, if_false, visit_regions, send_all]

/-- What `send_all` returns: 0 with the full trace when every send writes in
full, and otherwise -1 with the trace cut after the first short write. -/
theorem send_all_cases (env : Env) :
    ∀ (ms : List (Nat × Nat)) (tr : List Event),
      (sends_full env tr ms ∧ send_all env ms tr = (0, tr ++ regions_events ms)) ∨
      (∃ pre m post, ms = pre ++ m :: post ∧ sends_full env tr pre ∧ send_short env tr pre m ∧
        send_all env ms tr
          = (-1, tr ++ regions_events pre ++ [Event.net_recv, Event.net_send m.1 m.2])) := by
  intro ms
  induction ms with
  | nil =>
    intro tr
    left
    refine ⟨?_, by simp [send_all, regions_events]⟩
    intro a x b h
    simp at h
  | cons m ms ih =>
    intro tr
    by_cases hn : env.net_send (tr ++ [Event.net_recv]) m.1 m.2 ≠ to_int32 m.2
    · right
      refine ⟨[], m, ms, rfl, ?_, ?_, ?_⟩
      · intro a x b h; simp at h
      · simpa [send_short, regions_events] using hn
      · exact send_all_short env [] m ms tr (by intro a x b h; simp at h)
          (by simpa [send_short, regions_events] using hn)
    · have hx : env.net_send (tr ++ [Event.net_recv]) m.1 m.2 = to_int32 m.2 := by
        simpa using hn
      have step : send_all env (m :: ms) tr = send_all env ms
          (tr ++ [Event.net_recv] ++ [Event.net_send m.1 m.2] ++ [Event.net_recv]) := by
        simp only [send_all]
        rw [if_neg hn]
      have lift : ∀ pre : List (Nat × Nat), sends_full env
          (tr ++ [Event.net_recv] ++ [Event.net_send m.1 m.2] ++ [Event.net_recv]) pre →
          sends_full env tr (m :: pre) := by
        intro pre hp a x b hab
        cases a with
        | nil =>
          simp only [List.nil_append, List.cons.injEq] at hab
          obtain ⟨rfl, _⟩ := hab
          simpa [regions_events] using hx
        | cons y a =>
          simp only [List.cons_append, List.cons.injEq] at hab
          obtain ⟨rfl, hab⟩ := hab
          have := hp a x b hab
          simpa [regions_events, List.append_assoc] using this
      rcases ih (tr ++ [Event.net_recv] ++ [Event.net_send m.1 m.2] ++ [Event.net_recv]) with
        ⟨hf, hres⟩ | ⟨pre, x, post, hms, hf, hs, hres⟩
      · left
        refine ⟨lift ms hf, ?_⟩
        rw [step, hres]
        simp [regions_events, List.append_assoc]
      · right
        refine ⟨m :: pre, x, post, by rw [hms]; rfl, lift pre hf, ?_, ?_⟩
        · simpa [send_short, regions_events, List.append_assoc] using hs
        · rw [step, hres]
          simp [regions_events, List.append_assoc]

/-! ## The records the classifier visits -/

theorem raises_append (a b : List Event) : raises (a ++ b) = raises a ++ raises b := by
  induction a with
  | nil => rfl
  | cons x xs ih => cases x <;> simp [raises, ih]

theorem raises_of_replay_events : ∀ t : List Event, (∀ ev ∈ t, is_replay_event ev = true) →
    raises t = [] := by
  intro t
  induction t with
  | nil => intro _; rfl
  | cons x xs ih =>
    intro h
    have hx := h x (List.mem_cons_self _ _)
    have hxs := ih (fun ev hev => h ev (List.mem_cons_of_mem _ hev))
    cases x <;> simp [is_replay_event] at hx <;> simp [raises, hxs]

theorem raises_of_supervisor_events : ∀ t : List Event,
    (∀ ev ∈ t, is_supervisor_event ev = true) → raises t = [] := by
  intro t
  induction t with
  | nil => intro _; rfl
  | cons x xs ih =>
    intro h
    have hx := h x (List.mem_cons_self _ _)
    have hxs := ih (fun ev hev => h ev (List.mem_cons_of_mem _ hev))
    cases x <;> simp [is_supervisor_event] at hx <;> simp [raises, hxs]

theorem main_connect_events (env : Env) :
    ∀ (n : Nat) (tr : List Event), ∃ t, (main_connect env n tr).2 = tr ++ t ∧
      ∀ ev ∈ t, is_supervisor_event ev = true := by
  intro n
  induction n with
  | zero => intro tr; exact ⟨[], by simp [main_connect], by simp⟩
  | succ n ih =>
    intro tr
    simp only [main_connect]
    split_ifs with h
    · exact ⟨[Event.connect], rfl, by simp [is_supervisor_event]⟩
    · obtain ⟨t, h1, h2⟩ := ih (tr ++ [Event.connect, Event.usleep 1000])
      refine ⟨[Event.connect, Event.usleep 1000] ++ t, by rw [h1, List.append_assoc], ?_⟩
      intro ev hev
      rcases List.mem_append.1 hev with h3 | h3
      · simp at h3
        rcases h3 with rfl | rfl <;> rfl
      · exact h2 ev h3

theorem kill_and_wait_poll_events (env : Env) :
    ∀ (n : Nat) (tr : List Event), ∃ t, (kill_and_wait_poll env n tr).2 = tr ++ t ∧
      ∀ ev ∈ t, is_supervisor_event ev = true := by
  intro n
  induction n with
  | zero => intro tr; exact ⟨[], by simp [kill_and_wait_poll], by simp⟩
  | succ n ih =>
    intro tr
    simp only [kill_and_wait_poll]
    cases h : env.waitpid_nohang tr with
    | some st => exact ⟨[Event.waitpid true], rfl, by simp [is_supervisor_event]⟩
    | none =>
      obtain ⟨t, h1, h2⟩ := ih (tr ++ [Event.waitpid true, Event.usleep 10000])
      refine ⟨[Event.waitpid true, Event.usleep 10000] ++ t, by simp [h1], ?_⟩
      intro ev hev
      rcases List.mem_append.1 hev with h3 | h3
      · simp at h3
        rcases h3 with rfl | rfl <;> rfl
      · exact h2 ev h3

theorem kill_and_wait_events (env : Env) (pid : Int) (graceful : Bool) (tr : List Event) :
    ∃ t, (kill_and_wait env pid graceful tr).2 = tr ++ t ∧
      ∀ ev ∈ t, is_supervisor_event ev = true := by
  unfold kill_and_wait
  by_cases hp : pid ≤ 0
  · exact ⟨[], by simp [hp], by simp⟩
  · simp only [hp, if_false]
    obtain ⟨t, h1, h2⟩ := kill_and_wait_poll_events env 100
      (tr ++ [Event.kill (if graceful = true then SIGTERM else SIGKILL)])
    rcases hres : kill_and_wait_poll env 100
      (tr ++ [Event.kill (if graceful = true then SIGTERM else SIGKILL)]) with ⟨st, tr2⟩
    rw [hres] at h1
    simp only at h1
    cases st with
    | some st =>
      refine ⟨[Event.kill (if graceful = true then SIGTERM else SIGKILL)] ++ t,
        by simp [h1], ?_⟩
      intro ev hev
      rcases List.mem_append.1 hev with h3 | h3
      · rw [List.mem_singleton] at h3; subst h3; rfl
      · exact h2 ev h3
    | none =>
      refine ⟨[Event.kill (if graceful = true then SIGTERM else SIGKILL)] ++ t
          ++ [Event.kill SIGKILL, Event.waitpid false], by simp [h1], ?_⟩
      intro ev hev
      rcases List.mem_append.1 hev with h3 | h3
      · rcases List.mem_append.1 h3 with h4 | h4
        · rw [List.mem_singleton] at h4; subst h4; rfl
        · exact h2 ev h4
      · simp at h3
        rcases h3 with rfl | rfl <;> rfl

theorem regions_events_replay : ∀ (ps : List (Nat × Nat)) (ev : Event),
    ev ∈ regions_events ps → is_replay_event ev = true := by
  intro ps
  induction ps with
  | nil => intro ev hev; simp [regions_events] at hev
  | cons p ps ih =>
    intro ev hev
    simp only [regions_events, List.mem_append, List.mem_cons, List.mem_singleton,
      List.not_mem_nil, or_false] at hev
    rcases hev with (rfl | rfl | rfl) | h3
    · rfl
    · rfl
    · rfl
    · exact ih ev h3

theorem send_all_events (env : Env) :
    ∀ (ms : List (Nat × Nat)) (tr : List Event), ∃ t, (send_all env ms tr).2 = tr ++ t ∧
      ∀ ev ∈ t, is_replay_event ev = true := by
  intro ms tr
  rcases send_all_cases env ms tr with ⟨_, h⟩ | ⟨pre, m, post, _, _, _, h⟩
  · exact ⟨regions_events ms, by rw [h], regions_events_replay ms⟩
  · refine ⟨regions_events pre ++ [Event.net_recv, Event.net_send m.1 m.2],
      by rw [h, List.append_assoc], ?_⟩
    intro ev hev
    rcases List.mem_append.1 hev with h3 | h3
    · exact regions_events_replay pre ev h3
    · simp at h3
      rcases h3 with rfl | rfl <;> rfl

theorem replay_len_prefixed_loop_events (env : Env) (e : Endian) (buf : Nat → Nat) (len : Nat) :
    ∀ (fuel off : Nat) (tr : List Event) (res : Int × List Event),
      replay_len_prefixed_loop env e buf len fuel off tr = some res →
      ∃ t, res.2 = tr ++ t ∧ ∀ ev ∈ t, is_replay_event ev = true := by
  intro fuel
  induction fuel with
  | zero => intro off tr res h; simp [replay_len_prefixed_loop] at h
  | succ f ih =>
    intro off tr res h
    simp only [replay_len_prefixed_loop] at h
    split_ifs at h with h1 h0 h2 h3
    · exact ih _ _ _ h
    · exact ⟨[], by simp [← Option.some.inj h], by simp⟩
    · refine ⟨[Event.net_recv, Event.net_send ((off + 4) % 2 ^ 32) (load_u32 e buf off)],
        by simp [← Option.some.inj h], ?_⟩
      intro ev hev
      simp at hev
      rcases hev with rfl | rfl <;> rfl
    · obtain ⟨t, h4, h5⟩ := ih _ _ _ h
      refine ⟨[Event.net_recv, Event.net_send ((off + 4) % 2 ^ 32) (load_u32 e buf off),
        Event.net_recv] ++ t, by simp [h4], ?_⟩
      intro ev hev
      rcases List.mem_append.1 hev with h6 | h6
      · simp at h6
        rcases h6 with rfl | rfl | rfl <;> rfl
      · exact h5 ev h6
    · exact ⟨[], by simp [← Option.some.inj h], by simp⟩

theorem replay_raw_split_loop_events (env : Env) (len : Nat) :
    ∀ (l : List region_t) (tr : List Event),
      ∃ t, (replay_raw_split_loop env len l tr).2 = tr ++ t ∧
        ∀ ev ∈ t, is_replay_event ev = true := by
  intro l
  induction l with
  | nil => intro tr; exact ⟨[], by simp [replay_raw_split_loop], by simp⟩
  | cons x xs ih =>
    intro tr
    simp only [replay_raw_split_loop]
    generalize (if x.start_byte < 0 then (0 : Int) else x.start_byte) = st
    generalize (if (x.end_byte % 2 ^ 32).toNat ≥ len then to_int32 len - 1 else x.end_byte) = en
    generalize ((en - st + 1) % 2 ^ 32).toNat = ml
    split_ifs
    · exact ih tr
    · exact ih tr
    · exact ih tr
    · refine ⟨[Event.net_recv] ++ [Event.net_send st.toNat ml], by rw [List.append_assoc], ?_⟩
      intro ev hev
      simp at hev
      rcases hev with rfl | rfl <;> rfl
    · obtain ⟨t, h1, h2⟩ := ih (tr ++ [Event.net_recv] ++ [Event.net_send st.toNat ml]
        ++ [Event.net_recv])
      refine ⟨[Event.net_recv] ++ [Event.net_send st.toNat ml] ++ [Event.net_recv] ++ t,
        by rw [h1]; simp only [List.append_assoc], ?_⟩
      intro ev hev
      rcases List.mem_append.1 hev with h6 | h6
      · simp at h6
        rcases h6 with rfl | rfl | rfl <;> rfl
      · exact h2 ev h6

theorem replay_raw_split_events (env : Env) (fn : Option Extractor) (buf : Nat → Nat) (len : Nat)
    (tr : List Event) :
    ∃ t, (replay_raw_split env fn buf len tr).2 = tr ++ t ∧
      ∀ ev ∈ t, is_replay_event ev = true := by
  unfold replay_raw_split
  cases fn with
  | none => exact ⟨[], by simp, by simp⟩
  | some f =>
    simp only
    cases hf : f buf len with
    | none => exact ⟨[Event.extract], rfl, by simp [is_replay_event]⟩
    | some rs =>
      cases rs with
      | nil => exact ⟨[Event.extract], rfl, by simp [is_replay_event]⟩
      | cons r rs =>
        obtain ⟨t, h1, h2⟩ := replay_raw_split_loop_events env len (r :: rs)
          (tr ++ [Event.extract])
        refine ⟨[Event.extract] ++ t, by simp only; rw [h1, List.append_assoc], ?_⟩
        intro ev hev
        rcases List.mem_append.1 hev with h6 | h6
        · rw [List.mem_singleton] at h6; subst h6; rfl
        · exact h2 ev h6

theorem main_replay_events (fuel : Nat) (env : Env) (e : Endian) (mode : input_mode_t)
    (fn : Option Extractor) (buf : Nat → Nat) (len : Nat) (tr : List Event)
    (res : Int × List Event) (h : main_replay fuel env e mode fn buf len tr = some res) :
    ∃ t, res.2 = tr ++ t ∧ ∀ ev ∈ t, is_replay_event ev = true := by
  unfold main_replay at h
  by_cases h0 : len = 0
  · rw [if_pos h0] at h
    exact ⟨[], by simp [← Option.some.inj h], by simp⟩
  · rw [if_neg h0] at h
    cases hm : effective_mode fuel e mode fn buf len with
    | none => rw [hm] at h; simp at h
    | some md =>
      rw [hm] at h
      simp only at h
      by_cases h1 : md = input_mode_t.INPUT_LEN
      · rw [if_pos h1] at h
        cases hc : looks_like_len_prefixed fuel e buf len with
        | none => rw [hc] at h; simp at h
        | some b =>
          rw [hc] at h
          cases b with
          | true => exact replay_len_prefixed_loop_events env e buf len _ _ _ _ h
          | false =>
            simp only [Option.some.injEq] at h
            refine ⟨[Event.net_recv, Event.net_send 0 len], by simp [← h], ?_⟩
            intro ev hev
            simp at hev
            rcases hev with rfl | rfl <;> rfl
      · rw [if_neg h1] at h
        rw [← Option.some.inj h]
        exact replay_raw_split_events env fn buf len tr

/-! ## Transport errors -/

theorem supervisor_not_replay (ev : Event) (h : is_supervisor_event ev = true) :
    is_replay_event ev = false := by
  cases ev <;> simp [is_supervisor_event] at h <;> rfl

theorem main_outcome_events (env : Env) (pid : Int) (g : Bool) (tr : List Event) :
    ∃ t, main_outcome env pid g tr = tr ++ t ∧ ∀ ev ∈ t, is_replay_event ev = false := by
  unfold main_outcome
  cases h : env.waitpid_nohang tr with
  | some st =>
    simp only
    split_ifs
    · refine ⟨[Event.waitpid true, Event.raise (WTERMSIG st)], rfl, ?_⟩
      intro ev hev
      simp at hev
      rcases hev with rfl | rfl <;> rfl
    · refine ⟨[Event.waitpid true], rfl, ?_⟩
      intro ev hev
      simp at hev
      subst hev
      rfl
  | none =>
    simp only
    obtain ⟨t, h1, h2⟩ := kill_and_wait_events env pid g
      (tr ++ [Event.waitpid true, Event.kill_and_wait g])
    refine ⟨[Event.waitpid true, Event.kill_and_wait g] ++ t, by rw [h1, List.append_assoc], ?_⟩
    intro ev hev
    rcases List.mem_append.1 hev with h3 | h3
    · simp at h3
      rcases h3 with rfl | rfl <;> rfl
    · exact supervisor_not_replay ev (h2 ev h3)

theorem main_outcome_raises (env : Env) (pid : Int) (g : Bool) (tr : List Event) :
    raises (main_outcome env pid g tr) = raises tr ++
      (match env.waitpid_nohang tr with
        | some st => if WIFSIGNALED st then [WTERMSIG st] else []
        | none => []) := by
  unfold main_outcome
  cases h : env.waitpid_nohang tr with
  | some st =>
    simp only
    split_ifs <;> simp [raises_append, raises]
  | none =>
    simp only
    obtain ⟨t, h1, h2⟩ := kill_and_wait_events env pid g
      (tr ++ [Event.waitpid true, Event.kill_and_wait g])
    rw [h1, raises_append, raises_append, raises_of_supervisor_events t h2]
    simp [raises]

theorem main_not_connected_path (fuel : Nat) (env : Env) (e : Endian) (cfg : Config)
    (server : String) (args : List String) (res : Option (List Nat × Nat)) (tr3 : List Event)
    (hip : ¬ (cfg.ip.isNone ∨ cfg.port = 0))
    (hmode : ¬ (cfg.input_mode = input_mode_t.INPUT_RAW ∧ cfg.extract_requests_fn.isNone))
    (hargs : cfg.rest_args = "--" :: server :: args)
    (hread : read_all_stdin fuel cfg.max_stdin_bytes env.stdin = some res)
    (hres : ¬ (res.isNone ∧ cfg.max_stdin_bytes ≠ 0))
    (hfork : 0 < env.fork_pid) (hsock : env.socket_ok = true) (hpton : env.inet_pton_ok = true)
    (hconn : main_connect env 1000 [Event.read_all_stdin, Event.fork,
      Event.usleep cfg.server_wait_usecs, Event.socket] = (false, tr3)) :
    main fuel env e cfg = some (Exit.code 1,
      (kill_and_wait env env.fork_pid cfg.graceful_term
        (tr3 ++ [Event.close, Event.kill_and_wait cfg.graceful_term])).2) := by
  have hf1 : ¬ env.fork_pid < 0 := by omega
  have hf2 : ¬ env.fork_pid = 0 := by omega
  unfold main
  rw [if_neg hip, if_neg hmode, hargs]
  simp only [ne_eq, not_true_eq_false, if_false, List.isEmpty_cons, Bool.false_eq_true, hread,
    hres, hf1, hf2, hsock, hpton, List.cons_append, List.nil_append, hconn]

/-- C11 (counterexample): the child has died of signal 11 and the only send is
a short write (0 of 2 bytes); `main` aborts the replay and still raises signal
11 on the harness, which ends it: the run has no exit code 1. -/
theorem main_short_write_raises_signal :
    crash_env.net_send [Event.read_all_stdin, Event.fork, Event.usleep 10000, Event.socket,
        Event.connect, Event.net_recv] 0 2 ≠ to_int32 2 ∧
      main 3 crash_env Endian.little len_cfg = some (Exit.signaled 11,
        [Event.read_all_stdin, Event.fork, Event.usleep 10000, Event.socket, Event.connect,
          Event.net_recv, Event.net_send 0 2, Event.close, Event.waitpid true,
          Event.raise 11]) := by
  decide

/-- C11 (amended): on a run that gets as far as the connect loop, if no
connection is established `main` returns 1 and raises no signal on the
harness, whatever the status of the child; if the replay fails (a short write
or any other non-zero replay result) the outcome step still runs: when its one
non-blocking poll reports the child terminated by signal `s`, the harness
raises `s` on itself and is ended by it, with no exit code (it returns 1 only
if that call returns, the signal being ignored or blocked); whenever the poll
does not report a death by signal, the harness raises no signal and returns
1. -/
theorem main_transport_error (fuel : Nat) (env : Env) (e : Endian) (cfg : Config)
    (server : String) (args : List String) (res : Option (List Nat × Nat))
    (hip : ¬ (cfg.ip.isNone ∨ cfg.port = 0))
    (hmode : ¬ (cfg.input_mode = input_mode_t.INPUT_RAW ∧ cfg.extract_requests_fn.isNone))
    (hargs : cfg.rest_args = "--" :: server :: args)
    (hread : read_all_stdin fuel cfg.max_stdin_bytes env.stdin = some res)
    (hres : ¬ (res.isNone ∧ cfg.max_stdin_bytes ≠ 0))
    (hfork : 0 < env.fork_pid) (hsock : env.socket_ok = true)
    (hpton : env.inet_pton_ok = true) :
    (∀ tr3, main_connect env 1000 [Event.read_all_stdin, Event.fork,
          Event.usleep cfg.server_wait_usecs, Event.socket] = (false, tr3) →
        ∃ out, main fuel env e cfg = some (Exit.code 1, out) ∧ raises out = []) ∧
      (∀ tr3 tr4 rc, main_connect env 1000 [Event.read_all_stdin, Event.fork,
          Event.usleep cfg.server_wait_usecs, Event.socket] = (true, tr3) →
        main_replay fuel env e cfg.input_mode cfg.extract_requests_fn
          (mem ((res.map Prod.fst).getD [])) ((res.map Prod.snd).getD 0) tr3 = some (rc, tr4) →
        rc ≠ 0 →
        ∃ ex out, main fuel env e cfg = some (ex, out) ∧
          (∀ s, env.waitpid_nohang (tr4 ++ [Event.close]) = some (WaitStatus.signaled s) →
            raises out = [s] ∧
              ex = if env.raise_returns s then Exit.code 1 else Exit.signaled s) ∧
          ((∀ s, env.waitpid_nohang (tr4 ++ [Event.close]) ≠ some (WaitStatus.signaled s)) →
            raises out = [] ∧ ex = Exit.code 1)) := by
  constructor
  · intro tr3 hconn
    refine ⟨_, main_not_connected_path fuel env e cfg server args res tr3 hip hmode hargs hread
      hres hfork hsock hpton hconn, ?_⟩
    obtain ⟨t, h1, h2⟩ := kill_and_wait_events env env.fork_pid cfg.graceful_term
      (tr3 ++ [Event.close, Event.kill_and_wait cfg.graceful_term])
    obtain ⟨t3, h3, h4⟩ := main_connect_events env 1000 [Event.read_all_stdin, Event.fork,
      Event.usleep cfg.server_wait_usecs, Event.socket]
    rw [hconn] at h3
    simp only at h3
    rw [h1, h3]
    simp only [raises_append, raises_of_supervisor_events t h2,
      raises_of_supervisor_events t3 h4]
    simp [raises]
  · intro tr3 tr4 rc hconn hreplay hrc
    have hmain := main_connected_path fuel env e cfg server args res tr3 tr4 rc hip hmode hargs
      hread hres hfork hsock hpton hconn hreplay
    refine ⟨_, _, hmain, ?_, ?_⟩
    all_goals
      obtain ⟨t3, h3, h4⟩ := main_connect_events env 1000 [Event.read_all_stdin, Event.fork,
        Event.usleep cfg.server_wait_usecs, Event.socket]
      rw [hconn] at h3
      simp only at h3
      obtain ⟨t4, h5, h6⟩ := main_replay_events fuel env e _ _ _ _ tr3 (rc, tr4) hreplay
      simp only at h5
      have hr0 : raises (tr4 ++ [Event.close]) = [] := by
        rw [h5, h3]
        simp only [raises_append, raises_of_supervisor_events t3 h4,
          raises_of_replay_events t4 h6]
        simp [raises]
    · intro s hs
      refine ⟨?_, ?_⟩
      · rw [main_outcome_raises, hr0, List.nil_append, hs]
        simp [WIFSIGNALED, WTERMSIG]
      · rw [main_exit_signaled env rc _ s hs, if_pos hrc]
    · intro hns
      refine ⟨?_, ?_⟩
      · rw [main_outcome_raises, hr0, List.nil_append]
        cases hw : env.waitpid_nohang (tr4 ++ [Event.close]) with
        | none => rfl
        | some st =>
          cases st with
          | exited c => simp [WIFSIGNALED]
          | signaled s => exact absurd hw (hns s)
          | stopped => simp [WIFSIGNALED]
      · rw [main_exit_not_signaled env rc _ hns, if_pos hrc]

/-- An instance of the theorem for C11 on a concrete input. -/
theorem main_transport_error_witness :
    (∀ tr3, main_connect crash_env 1000 [Event.read_all_stdin, Event.fork,
          Event.usleep len_cfg.server_wait_usecs, Event.socket] = (false, tr3) →
        ∃ out, main 3 crash_env Endian.little len_cfg = some (Exit.code 1, out) ∧
          raises out = []) ∧
      (∀ tr3 tr4 rc, main_connect crash_env 1000 [Event.read_all_stdin, Event.fork,
          Event.usleep len_cfg.server_wait_usecs, Event.socket] = (true, tr3) →
        main_replay 3 crash_env Endian.little len_cfg.input_mode len_cfg.extract_requests_fn
          (mem (((some ([104, 105], 2) : Option (List Nat × Nat)).map Prod.fst).getD []))
          (((some ([104, 105], 2) : Option (List Nat × Nat)).map Prod.snd).getD 0) tr3
            = some (rc, tr4) →
        rc ≠ 0 →
        ∃ ex out, main 3 crash_env Endian.little len_cfg = some (ex, out) ∧
          (∀ s, crash_env.waitpid_nohang (tr4 ++ [Event.close])
              = some (WaitStatus.signaled s) →
            raises out = [s] ∧
              ex = if crash_env.raise_returns s then Exit.code 1 else Exit.signaled s) ∧
          ((∀ s, crash_env.waitpid_nohang (tr4 ++ [Event.close])
              ≠ some (WaitStatus.signaled s)) →
            raises out = [] ∧ ex = Exit.code 1)) :=
  main_transport_error 3 crash_env Endian.little len_cfg "server" [] (some ([104, 105], 2))
    (by decide) (by decide) rfl (by decide) (by decide) (by decide) rfl rfl

/-! ## Short writes and empty inputs -/

/-- C12 (counterexample): the input is two records of one byte, the first send
writes in full, the second is a short write, and the child has died of signal
11.  The replay stops at the second message, but the harness does not exit
with code 1: it raises signal 11 on itself and is ended by it. -/
theorem main_short_write_ends_by_signal :
    crash_after_first_env.net_send [Event.read_all_stdin, Event.fork, Event.usleep 10000,
        Event.socket, Event.connect, Event.net_recv, Event.net_send 4 1, Event.net_recv,
        Event.net_recv] 9 1 ≠ to_int32 1 ∧
      main 4 crash_after_first_env Endian.little len_cfg = some (Exit.signaled 11,
        [Event.read_all_stdin, Event.fork, Event.usleep 10000, Event.socket, Event.connect,
          Event.net_recv, Event.net_send 4 1, Event.net_recv, Event.net_recv,
          Event.net_send 9 1, Event.close, Event.waitpid true, Event.raise 11]) := by
  decide

/-- C12 (amended): a short write stops the replay at the first failing message.  With
`pre` the message regions before the failing one `m` and `post` those after
it, if the sends of `pre` write in full and the send of `m` is short, then
the trace is: for each region of `pre` in order a receive, its send and a
receive, then a receive and the one send of `m`, and nothing more (no second
send of `m`, none of `post`); the result is -1 for `replay_len_prefixed` (on
every buffer the classifier accepts) and for `replay_raw_split`, 1 for the
single-message fallback.  After a non-zero replay result `main` closes the
socket and runs the outcome step; it returns 1 whenever the poll of that step
does not report the child terminated by a signal, and when the poll reports a
death by signal `s` the harness is ended by `s`, which it raises on itself
(it returns 1 only if that call returns). -/
theorem replay_stops_at_short_write (fuel : Nat) (env : Env) (e : Endian) (buf : Nat → Nat)
    (len : Nat) (tr : List Event) (pre : List (Nat × Nat)) (m : Nat × Nat)
    (post : List (Nat × Nat)) (hlen1 : 1 ≤ len) (hlen2 : len < 2 ^ 32) :
    (∀ pk vs, scan_visits e buf len fuel 0 0 = some (true, pk, vs) →
        visit_regions vs = pre ++ m :: post → sends_full env tr pre → send_short env tr pre m →
        replay_len_prefixed fuel env e buf len tr
          = some (-1, tr ++ regions_events pre ++ [Event.net_recv, Event.net_send m.1 m.2])) ∧
      (∀ f regions, f buf len = some regions →
        (∀ r ∈ regions, is_int32 r.start_byte ∧ is_int32 r.end_byte) →
        regions.filterMap (clamp_region len) = pre ++ m :: post →
        sends_full env (tr ++ [Event.extract]) pre →
        send_short env (tr ++ [Event.extract]) pre m →
        replay_raw_split env (some f) buf len tr
          = (-1, tr ++ [Event.extract] ++ regions_events pre
              ++ [Event.net_recv, Event.net_send m.1 m.2])) ∧
      (∀ mode fn, (mode = input_mode_t.INPUT_LEN ∨
          (mode = input_mode_t.INPUT_AUTO ∧ fn = none)) →
        looks_like_len_prefixed fuel e buf len = some false →
        env.net_send (tr ++ [Event.net_recv]) 0 len ≠ to_int32 len →
        main_replay fuel env e mode fn buf len tr
          = some (1, tr ++ [Event.net_recv, Event.net_send 0 len])) ∧
      (∀ cfg server args res tr3 tr4 rc,
        ¬ (cfg.ip.isNone ∨ cfg.port = 0) →
        ¬ (cfg.input_mode = input_mode_t.INPUT_RAW ∧ cfg.extract_requests_fn.isNone) →
        cfg.rest_args = "--" :: server :: args →
        read_all_stdin fuel cfg.max_stdin_bytes env.stdin = some res →
        ¬ (res.isNone ∧ cfg.max_stdin_bytes ≠ 0) →
        0 < env.fork_pid → env.socket_ok = true → env.inet_pton_ok = true →
        main_connect env 1000 [Event.read_all_stdin, Event.fork,
          Event.usleep cfg.server_wait_usecs, Event.socket] = (true, tr3) →
        main_replay fuel env e cfg.input_mode cfg.extract_requests_fn
          (mem ((res.map Prod.fst).getD [])) ((res.map Prod.snd).getD 0) tr3 = some (rc, tr4) →
        rc ≠ 0 →
        main fuel env e cfg = some (main_exit env rc (tr4 ++ [Event.close]),
            main_outcome env env.fork_pid cfg.graceful_term (tr4 ++ [Event.close])) ∧
          ((∀ s, env.waitpid_nohang (tr4 ++ [Event.close]) ≠ some (WaitStatus.signaled s)) →
            main_exit env rc (tr4 ++ [Event.close]) = Exit.code 1) ∧
          (∀ s, env.waitpid_nohang (tr4 ++ [Event.close]) = some (WaitStatus.signaled s) →
            main_exit env rc (tr4 ++ [Event.close])
              = if env.raise_returns s then Exit.code 1 else Exit.signaled s)) := by
  refine ⟨?_, ?_, ?_, ?_⟩
  · intro pk vs hscan hreg hfull hshort
    unfold replay_len_prefixed
    rw [replay_loop_of_scan env e buf len fuel 0 0 pk vs tr hscan, hreg,
      send_all_short env pre m post tr hfull hshort]
  · intro f regions hext hr hreg hfull hshort
    have hne : regions ≠ [] := by
      intro h
      rw [h] at hreg
      simp at hreg
    obtain ⟨r, rs, rfl⟩ := List.exists_cons_of_ne_nil hne
    simp only [replay_raw_split, hext]
    rw [raw_split_loop_eq_send_all env len hlen1 hlen2 _ _ hr, hreg,
      send_all_short env pre m post _ hfull hshort]
  · intro mode fn hmode hcls hshort
    have h0 : len ≠ 0 := by omega
    rcases hmode with rfl | ⟨rfl, rfl⟩
    · simp [main_replay, effective_mode, h0, hcls, hshort]
    · simp [main_replay, effective_mode, h0, hcls, hshort]
  · intro cfg server args res tr3 tr4 rc hip hmode hargs hread hres hfork hsock hpton hconn
      hreplay hrc
    refine ⟨main_connected_path fuel env e cfg server args res tr3 tr4 rc hip hmode hargs
      hread hres hfork hsock hpton hconn hreplay, ?_, ?_⟩
    · intro hns
      rw [main_exit_not_signaled env rc _ hns, if_pos hrc]
    · intro s hs
      rw [main_exit_signaled env rc _ s hs, if_pos hrc]

/-- An instance of the theorem for C12 on a concrete input: a stream of three
records of one byte each, the second send short. -/
theorem replay_stops_at_short_write_witness :
    replay_len_prefixed 10 second_short_env Endian.little
        (mem [1, 0, 0, 0, 7, 1, 0, 0, 0, 8, 1, 0, 0, 0, 9]) 15 []
      = some (-1, [] ++ regions_events [(4, 1)] ++ [Event.net_recv, Event.net_send (9, 1).1
          (9, 1).2]) :=
  (replay_stops_at_short_write 10 second_short_env Endian.little
    (mem [1, 0, 0, 0, 7, 1, 0, 0, 0, 8, 1, 0, 0, 0, 9]) 15 [] [(4, 1)] (9, 1) [(14, 1)]
    (by decide) (by decide)).1 3 [(0, 1), (5, 1), (10, 1)] (by decide) (by decide)
    (by
      intro a x b h
      rcases a with _ | ⟨y, a⟩
      · simp only [List.nil_append, List.cons.injEq] at h
        rw [← h.1]
        decide
      · simp at h)
    (by unfold send_short; decide)

/-- C13 (counterexample): with an empty input the harness does not always exit
with code 0.  When the poll of the outcome step finds the child terminated by
signal 11, the replay makes no call, and the harness raises signal 11 on
itself and is ended by it; and with mode `raw` and no extractor `main` returns
1 before the input is read. -/
theorem main_empty_input_not_exit_zero :
    main 1 dead_child_env Endian.little sample_cfg = some (Exit.signaled 11,
        [Event.read_all_stdin, Event.fork, Event.usleep 10000, Event.socket, Event.connect,
          Event.close, Event.waitpid true, Event.raise 11]) ∧
      main 1 full_env Endian.little raw_cfg = some (Exit.code 1, [Event.diag]) := by
  decide

/-- C13 (amended): with `stdin_len = 0` the replay stage returns 0 and leaves
the trace as it is, in every mode, with or without an extractor and even
without fuel (no send, no receive, no call of the classifier, of a framer or
of the extractor).  For a run of `main` with an empty input: with mode `raw`
and no extractor it returns 1 before the input is read; otherwise, once the
child is forked, if no connection is established it returns 1, and if the
connection is established the whole trace holds no send, no receive and no
extractor call, and `main` returns 0 whenever the poll of the outcome step
does not report the child terminated by a signal; when the poll reports a
death by signal `s` the harness raises `s` on itself and is ended by it (it
returns 0 only if that call returns). -/
theorem main_replay_empty_input (fuel : Nat) (env : Env) (e : Endian) (cfg : Config)
    (server : String) (args : List String) (res : Option (List Nat × Nat))
    (hip : ¬ (cfg.ip.isNone ∨ cfg.port = 0))
    (hargs : cfg.rest_args = "--" :: server :: args)
    (hread : read_all_stdin fuel cfg.max_stdin_bytes env.stdin = some res)
    (hres : ¬ (res.isNone ∧ cfg.max_stdin_bytes ≠ 0))
    (hfork : 0 < env.fork_pid) (hsock : env.socket_ok = true) (hpton : env.inet_pton_ok = true)
    (hempty : (res.map Prod.snd).getD 0 = 0) :
    (∀ (fuel1 : Nat) (env1 : Env) (e1 : Endian) (mode : input_mode_t) (fn : Option Extractor)
        (buf : Nat → Nat) (tr : List Event),
        main_replay fuel1 env1 e1 mode fn buf 0 tr = some (0, tr)) ∧
      (cfg.input_mode = input_mode_t.INPUT_RAW ∧ cfg.extract_requests_fn.isNone →
        main fuel env e cfg = some (Exit.code 1, [Event.diag])) ∧
      (¬ (cfg.input_mode = input_mode_t.INPUT_RAW ∧ cfg.extract_requests_fn.isNone) →
        ∀ tr3, main_connect env 1000 [Event.read_all_stdin, Event.fork,
          Event.usleep cfg.server_wait_usecs, Event.socket] = (false, tr3) →
        ∃ out, main fuel env e cfg = some (Exit.code 1, out) ∧
          ∀ ev ∈ out, is_replay_event ev = false) ∧
      (¬ (cfg.input_mode = input_mode_t.INPUT_RAW ∧ cfg.extract_requests_fn.isNone) →
        ∀ tr3, main_connect env 1000 [Event.read_all_stdin, Event.fork,
          Event.usleep cfg.server_wait_usecs, Event.socket] = (true, tr3) →
        ∃ ex out, main fuel env e cfg = some (ex, out) ∧
          (∀ ev ∈ out, is_replay_event ev = false) ∧
          ((∀ s, env.waitpid_nohang (tr3 ++ [Event.close]) ≠ some (WaitStatus.signaled s)) →
            raises out = [] ∧ ex = Exit.code 0) ∧
          (∀ s, env.waitpid_nohang (tr3 ++ [Event.close]) = some (WaitStatus.signaled s) →
            raises out = [s] ∧
              ex = if env.raise_returns s then Exit.code 0 else Exit.signaled s)) := by
  have hrep : ∀ (fuel1 : Nat) (env1 : Env) (e1 : Endian) (mode : input_mode_t)
      (fn : Option Extractor) (buf : Nat → Nat) (tr : List Event),
      main_replay fuel1 env1 e1 mode fn buf 0 tr = some (0, tr) := by
    intro fuel1 env1 e1 mode fn buf tr
    simp [main_replay]
  refine ⟨hrep, ?_, ?_, ?_⟩
  · intro hmode
    unfold main
    rw [if_neg hip, if_pos hmode]
  · intro hmode tr3 hconn
    refine ⟨_, main_not_connected_path fuel env e cfg server args res tr3 hip hmode hargs hread
      hres hfork hsock hpton hconn, ?_⟩
    obtain ⟨t, h1, h2⟩ := kill_and_wait_events env env.fork_pid cfg.graceful_term
      (tr3 ++ [Event.close, Event.kill_and_wait cfg.graceful_term])
    obtain ⟨t3, h3, h4⟩ := main_connect_events env 1000 [Event.read_all_stdin, Event.fork,
      Event.usleep cfg.server_wait_usecs, Event.socket]
    rw [hconn] at h3
    simp only at h3
    rw [h1, h3]
    intro ev hev
    simp only [List.mem_append, List.mem_cons, List.mem_singleton, List.not_mem_nil,
      or_false] at hev
    rcases hev with (((rfl | rfl | rfl | rfl) | h7) | (rfl | rfl)) | h7
    · rfl
    · rfl
    · rfl
    · rfl
    · exact supervisor_not_replay ev (h4 ev h7)
    · rfl
    · rfl
    · exact supervisor_not_replay ev (h2 ev h7)
  · intro hmode tr3 hconn
    have hmain := main_connected_path fuel env e cfg server args res tr3 tr3 0 hip hmode hargs
      hread hres hfork hsock hpton hconn (by rw [hempty]; exact hrep _ _ _ _ _ _ _)
    obtain ⟨t3, h3, h4⟩ := main_connect_events env 1000 [Event.read_all_stdin, Event.fork,
      Event.usleep cfg.server_wait_usecs, Event.socket]
    rw [hconn] at h3
    simp only at h3
    have hr0 : raises (tr3 ++ [Event.close]) = [] := by
      rw [h3]
      simp only [raises_append, raises_of_supervisor_events t3 h4]
      simp [raises]
    refine ⟨_, _, hmain, ?_, ?_, ?_⟩
    · obtain ⟨t, h5, h6⟩ := main_outcome_events env env.fork_pid cfg.graceful_term
        (tr3 ++ [Event.close])
      rw [h5, h3]
      intro ev hev
      simp only [List.mem_append, List.mem_cons, List.mem_singleton, List.not_mem_nil,
        or_false] at hev
      rcases hev with ((((rfl | rfl | rfl | rfl) | h7) | rfl) | h7)
      · rfl
      · rfl
      · rfl
      · rfl
      · exact supervisor_not_replay ev (h4 ev h7)
      · rfl
      · exact h6 ev h7
    · intro hns
      refine ⟨?_, ?_⟩
      · rw [main_outcome_raises, hr0, List.nil_append]
        cases hw : env.waitpid_nohang (tr3 ++ [Event.close]) with
        | none => rfl
        | some st =>
          cases st with
          | exited c => simp [WIFSIGNALED]
          | signaled s => exact absurd hw (hns s)
          | stopped => simp [WIFSIGNALED]
      · rw [main_exit_not_signaled env 0 _ hns]
        simp
    · intro s hs
      refine ⟨?_, ?_⟩
      · rw [main_outcome_raises, hr0, List.nil_append, hs]
        simp [WIFSIGNALED, WTERMSIG]
      · rw [main_exit_signaled env 0 _ s hs]
        simp

/-- An instance of the theorem for C13 on a concrete input: a child that is
still running when polled, so that the harness returns 0. -/
theorem main_replay_empty_input_witness :
    ∃ ex out, main 1 full_env Endian.little sample_cfg = some (ex, out) ∧
      (∀ ev ∈ out, is_replay_event ev = false) ∧
      ((∀ s, full_env.waitpid_nohang ([Event.read_all_stdin, Event.fork, Event.usleep 10000,
          Event.socket, Event.connect] ++ [Event.close]) ≠ some (WaitStatus.signaled s)) →
        raises out = [] ∧ ex = Exit.code 0) ∧
      (∀ s, full_env.waitpid_nohang ([Event.read_all_stdin, Event.fork, Event.usleep 10000,
          Event.socket, Event.connect] ++ [Event.close]) = some (WaitStatus.signaled s) →
        raises out = [s] ∧
          ex = if full_env.raise_returns s then Exit.code 0 else Exit.signaled s) :=
  (main_replay_empty_input 1 full_env Endian.little sample_cfg "server" [] (some ([], 0))
    (by decide) rfl (by decide) (by decide) (by decide) rfl rfl rfl).2.2.2 (by decide)
    [Event.read_all_stdin, Event.fork, Event.usleep 10000, Event.socket, Event.connect]
    (by decide)

/-! ## Escalation in `kill_and_wait` -/

theorem slept_poll_rounds (k : Nat) : slept (poll_rounds k) = 10000 * k := by
  induction k with
  | zero => rfl
  | succ k ih =>
    have h : poll_rounds (k + 1)
        = Event.waitpid true :: Event.usleep 10000 :: poll_rounds k := rfl
    rw [h]
    simp only [slept, ih]
    omega

theorem kill_and_wait_poll_reaps (env : Env) (st : WaitStatus) :
    ∀ (n k : Nat) (tr : List Event), k < n →
      (∀ j, j < k → env.waitpid_nohang (tr ++ poll_rounds j) = none) →
      env.waitpid_nohang (tr ++ poll_rounds k) = some st →
      kill_and_wait_poll env n tr = (some st, tr ++ poll_rounds k ++ [Event.waitpid true]) := by
  intro n
  induction n with
  | zero => intro k tr hk; omega
  | succ n ih =>
    intro k tr hk hnone hsome
    cases k with
    | zero =>
      simp only [poll_rounds, List.append_nil] at hsome
      simp [kill_and_wait_poll, hsome, poll_rounds]
    | succ k =>
      have h0 := hnone 0 (by omega)
      simp only [poll_rounds, List.append_nil] at h0
      simp only [kill_and_wait_poll, h0]
      rw [ih k (tr ++ [Event.waitpid true, Event.usleep 10000]) (by omega)]
      · simp [poll_rounds, List.append_assoc]
      · intro j hj
        have := hnone (j + 1) (by omega)
        simpa [poll_rounds, List.append_assoc] using this
      · simpa [poll_rounds, List.append_assoc] using hsome

theorem kill_and_wait_poll_none (env : Env) :
    ∀ (n : Nat) (tr : List Event),
      (∀ j, j < n → env.waitpid_nohang (tr ++ poll_rounds j) = none) →
      kill_and_wait_poll env n tr = (none, tr ++ poll_rounds n) := by
  intro n
  induction n with
  | zero => intro tr _; simp [kill_and_wait_poll, poll_rounds]
  | succ n ih =>
    intro tr hnone
    have h0 := hnone 0 (by omega)
    simp only [poll_rounds, List.append_nil] at h0
    simp only [kill_and_wait_poll, h0]
    rw [ih (tr ++ [Event.waitpid true, Event.usleep 10000])]
    · simp [poll_rounds, List.append_assoc]
    · intro j hj
      have := hnone (j + 1) (by omega)
      simpa [poll_rounds, List.append_assoc] using this

/-- C15: `kill_and_wait(pid, graceful)` with `pid <= 0` makes no call and
returns 0.  With `pid > 0` it first sends `SIGTERM` when `graceful` is set
and `SIGKILL` otherwise; if the poll number `k < 100` is the first to reap
the child, it has made `k` rounds of a non-blocking `waitpid` and a sleep of
10 ms, then that poll, and returns its status with no further call; if none
of the 100 polls reaps the child it sends `SIGKILL`, makes one blocking
`waitpid` and returns its status.  So on every path the child was reaped by a
poll or `SIGKILL` was sent. -/
theorem kill_and_wait_escalates (env : Env) (pid : Int) (graceful : Bool) (tr : List Event) :
    (pid ≤ 0 → kill_and_wait env pid graceful tr = (WaitStatus.exited 0, tr)) ∧
      (0 < pid → ∀ k st, k < 100 →
        (∀ j, j < k → env.waitpid_nohang
          (tr ++ [Event.kill (if graceful then SIGTERM else SIGKILL)] ++ poll_rounds j) = none) →
        env.waitpid_nohang
          (tr ++ [Event.kill (if graceful then SIGTERM else SIGKILL)] ++ poll_rounds k)
            = some st →
        kill_and_wait env pid graceful tr = (st,
          tr ++ [Event.kill (if graceful then SIGTERM else SIGKILL)] ++ poll_rounds k
            ++ [Event.waitpid true])) ∧
      (0 < pid →
        (∀ j, j < 100 → env.waitpid_nohang
          (tr ++ [Event.kill (if graceful then SIGTERM else SIGKILL)] ++ poll_rounds j) = none) →
        kill_and_wait env pid graceful tr =
          ((env.waitpid_block (tr ++ [Event.kill (if graceful then SIGTERM else SIGKILL)]
              ++ poll_rounds 100 ++ [Event.kill SIGKILL])).getD (WaitStatus.exited 0),
            tr ++ [Event.kill (if graceful then SIGTERM else SIGKILL)] ++ poll_rounds 100
              ++ [Event.kill SIGKILL] ++ [Event.waitpid false])) ∧
      (0 < pid → ∃ t, (kill_and_wait env pid graceful tr).2
          = tr ++ [Event.kill (if graceful then SIGTERM else SIGKILL)] ++ t ∧
        (Event.kill SIGKILL ∈ [Event.kill (if graceful then SIGTERM else SIGKILL)] ++ t ∨
          ∃ k st, k < 100 ∧ t = poll_rounds k ++ [Event.waitpid true] ∧
            env.waitpid_nohang
              (tr ++ [Event.kill (if graceful then SIGTERM else SIGKILL)] ++ poll_rounds k)
                = some st ∧ (kill_and_wait env pid graceful tr).1 = st)) ∧
      slept (poll_rounds 100) = 1000000 := by
  have reap : 0 < pid → ∀ k st, k < 100 →
      (∀ j, j < k → env.waitpid_nohang
        (tr ++ [Event.kill (if graceful then SIGTERM else SIGKILL)] ++ poll_rounds j) = none) →
      env.waitpid_nohang
        (tr ++ [Event.kill (if graceful then SIGTERM else SIGKILL)] ++ poll_rounds k)
          = some st →
      kill_and_wait env pid graceful tr = (st,
        tr ++ [Event.kill (if graceful then SIGTERM else SIGKILL)] ++ poll_rounds k
          ++ [Event.waitpid true]) := by
    intro hp k st hk hnone hsome
    have hp1 : ¬ pid ≤ 0 := by omega
    simp only [kill_and_wait, hp1, if_false]
    rw [kill_and_wait_poll_reaps env st 100 k _ hk hnone hsome]
  have none100 : 0 < pid →
      (∀ j, j < 100 → env.waitpid_nohang
        (tr ++ [Event.kill (if graceful then SIGTERM else SIGKILL)] ++ poll_rounds j) = none) →
      kill_and_wait env pid graceful tr =
        ((env.waitpid_block (tr ++ [Event.kill (if graceful then SIGTERM else SIGKILL)]
            ++ poll_rounds 100 ++ [Event.kill SIGKILL])).getD (WaitStatus.exited 0),
          tr ++ [Event.kill (if graceful then SIGTERM else SIGKILL)] ++ poll_rounds 100
            ++ [Event.kill SIGKILL] ++ [Event.waitpid false]) := by
    intro hp hnone
    have hp1 : ¬ pid ≤ 0 := by omega
    simp only [kill_and_wait, hp1, if_false]
    rw [kill_and_wait_poll_none env 100 _ hnone]
  refine ⟨fun hp => by simp [kill_and_wait, hp], reap, none100, fun hp => ?_, slept_poll_rounds 100⟩
  by_cases hall : ∀ j, j < 100 → env.waitpid_nohang
      (tr ++ [Event.kill (if graceful then SIGTERM else SIGKILL)] ++ poll_rounds j) = none
  · refine ⟨poll_rounds 100 ++ [Event.kill SIGKILL] ++ [Event.waitpid false], ?_, Or.inl ?_⟩
    · rw [none100 hp hall]
      simp only [List.append_assoc]
    · simp
  · have hex : ∃ j, j < 100 ∧ env.waitpid_nohang
        (tr ++ [Event.kill (if graceful then SIGTERM else SIGKILL)] ++ poll_rounds j) ≠ none := by
      by_contra hcon
      apply hall
      intro j hj
      by_contra hne
      exact hcon ⟨j, hj, hne⟩
    classical
    let k := Nat.find hex
    have hk : k < 100 ∧ env.waitpid_nohang
        (tr ++ [Event.kill (if graceful then SIGTERM else SIGKILL)] ++ poll_rounds k) ≠ none :=
      Nat.find_spec hex
    have hmin : ∀ j, j < k → env.waitpid_nohang
        (tr ++ [Event.kill (if graceful then SIGTERM else SIGKILL)] ++ poll_rounds j) = none := by
      intro j hj
      by_contra hne
      exact Nat.find_min hex hj ⟨by omega, hne⟩
    obtain ⟨st, hst⟩ := Option.ne_none_iff_exists'.1 hk.2
    have hres := reap hp k st hk.1 hmin hst
    refine ⟨poll_rounds k ++ [Event.waitpid true], ?_, Or.inr ⟨k, st, hk.1, rfl, hst, ?_⟩⟩
    · rw [hres]
      simp only [List.append_assoc]
    · rw [hres]

/-- An instance of C15 for a child that only `SIGKILL` ends: a graceful
`kill_and_wait` sends `SIGTERM`, polls 100 times, then sends `SIGKILL` and
waits. -/
theorem kill_and_wait_stubborn_child :
    kill_and_wait stubborn_env 1 true [] = (WaitStatus.signaled SIGKILL,
      [Event.kill SIGTERM] ++ poll_rounds 100 ++ [Event.kill SIGKILL] ++ [Event.waitpid false]) := by
  have := (kill_and_wait_escalates stubborn_env 1 true []).2.2.1 (by decide) (fun _ _ => rfl)
  simpa using this

/-! ## Receives around a send, and bounds of the sends -/

/-- C16: in mode `len`, on the 2-byte buffer "hi" (not length-prefixed), with
the send writing in full, the single-message fallback of `main` makes one
receive and the send, and no receive after the send; the same message sent
through `replay_raw_split` is followed by a receive. -/
theorem main_replay_fallback_single_receive :
    main_replay 3 full_env Endian.little input_mode_t.INPUT_LEN none (mem [104, 105]) 2 []
        = some (0, [Event.net_recv, Event.net_send 0 2]) ∧
      replay_raw_split full_env (some whole_extractor) (mem [104, 105]) 2 []
        = (0, [Event.extract, Event.net_recv, Event.net_send 0 2, Event.net_recv]) := by
  decide

theorem clamp_region_bounds (len : Nat) (r : region_t) (p : Nat × Nat)
    (h : clamp_region len r = some p) : p.1 < len ∧ 1 ≤ p.2 ∧ p.1 + p.2 ≤ len := by
  simp only [clamp_region] at h
  split_ifs at h <;> simp only [Option.some.injEq] at h <;> subst h <;> simp only <;> omega

/-- C19: for `1 <= len <= 2^31 - 1` and regions with arbitrary `int` fields,
every send of `replay_raw_split` lies inside the buffer (`start < len`,
`1 <= msg_len`, `start + msg_len <= len`), and for every region that reaches
the computation of `msg_len` the values `(int)len - 1`, `end - start` and
`end - start + 1` are computed without overflow and `end - start + 1` is
between 1 and `len`, so `msg_len` is not 0. -/
theorem replay_raw_split_sends_in_bounds (env : Env) (f : Extractor) (buf : Nat → Nat)
    (len : Nat) (tr : List Event) (regions : List region_t) (hlen1 : 1 ≤ len)
    (hlen2 : len ≤ 2 ^ 31 - 1) (hext : f buf len = some regions)
    (hr : ∀ r ∈ regions, is_int32 r.start_byte ∧ is_int32 r.end_byte) :
    (∃ t, (replay_raw_split env (some f) buf len tr).2 = tr ++ [Event.extract] ++ t ∧
        ∀ p ∈ sends t, p.1 < len ∧ 1 ≤ p.2 ∧ p.1 + p.2 ≤ len) ∧
      (∀ r ∈ regions, ∀ start end1 : Int,
        start = (if r.start_byte < 0 then 0 else r.start_byte) →
        ¬ r.end_byte < start → ¬ (start % 2 ^ 32).toNat ≥ len →
        end1 = (if (r.end_byte % 2 ^ 32).toNat ≥ len then to_int32 len - 1 else r.end_byte) →
        is_int32 (to_int32 len - 1) ∧ is_int32 (end1 - start) ∧ is_int32 (end1 - start + 1) ∧
          1 ≤ end1 - start + 1 ∧ end1 - start + 1 ≤ (len : Int) ∧
          ((end1 - start + 1) % 2 ^ 32).toNat ≠ 0 ∧
          (((end1 - start + 1) % 2 ^ 32).toNat : Int) = end1 - start + 1) := by
  constructor
  · cases regions with
    | nil =>
      simp only [replay_raw_split, hext]
      exact ⟨[], by simp, by simp [sends]⟩
    | cons r rs =>
      obtain ⟨⟨t, rest, h1, h2⟩, _⟩ := raw_split_loop_spec env len hlen1 (by omega) (r :: rs)
        (tr ++ [Event.extract]) hr
      simp only [replay_raw_split, hext]
      refine ⟨t, h1, ?_⟩
      intro p hp
      have hp2 : p ∈ (r :: rs).filterMap (clamp_region len) := by
        rw [← h2]
        exact List.mem_append_left _ hp
      obtain ⟨r1, _, hrp⟩ := List.mem_filterMap.1 hp2
      exact clamp_region_bounds len r1 p hrp
  · intro r hrm start end1 hstart h1 h2 hend
    obtain ⟨⟨hs1, hs2⟩, ⟨he1, he2⟩⟩ := hr r hrm
    have a5 : to_int32 len = (len : Int) := to_int32_of_lt len (by omega)
    rw [a5] at hend ⊢
    subst hstart hend
    unfold is_int32
    split_ifs at h1 h2 ⊢ <;> omega

/-- An instance of the theorem for C19 on a concrete input. -/
theorem replay_raw_split_sends_in_bounds_witness :
    ∃ t, (replay_raw_split full_env (some sample_extractor) (mem [10, 11, 12, 13]) 4 []).2
        = [] ++ [Event.extract] ++ t ∧
      ∀ p ∈ sends t, p.1 < 4 ∧ 1 ≤ p.2 ∧ p.1 + p.2 ≤ 4 :=
  (replay_raw_split_sends_in_bounds full_env sample_extractor (mem [10, 11, 12, 13]) 4 [] _
    (by decide) (by decide) rfl (by decide)).1

/-! ## The framer walks as the classifier does -/

theorem scan_visits_nowrap (e : Endian) (buf : Nat → Nat) (len : Nat)
    (hlen : len < 2 ^ 32 - 2 ^ 26) :
    ∀ (fuel off packets : Nat), off ≤ len → len - off < 4 * fuel →
      ∃ b pk vs, scan_visits e buf len fuel off packets = some (b, pk, vs) ∧
        4 * vs.length ≤ len - off ∧
        (∀ x ∈ vs, off ≤ x.1 ∧ x.1 + 4 ≤ len ∧ (x.2 ≤ 67108864 → x.1 + 4 + x.2 < 2 ^ 32)) ∧
        List.Chain' (fun x y : Nat × Nat => x.1 < y.1 ∧ y.1 = x.1 + 4 + x.2 ∧ y.1 ≤ len) vs ∧
        (∀ x ∈ vs.head?, x.1 = off) := by
  intro fuel
  induction fuel with
  | zero => intro off packets _ h; omega
  | succ f ih =>
    intro off packets hoff hf
    simp only [scan_visits]
    have e64 : (off + 4) % 2 ^ 64 = off + 4 := Nat.mod_eq_of_lt (by omega)
    rw [e64]
    by_cases h1 : off + 4 ≤ len
    · have e32 : (off + 4) % 2 ^ 32 = off + 4 := Nat.mod_eq_of_lt (by omega)
      simp only [h1, if_true, e32]
      by_cases h0 : load_u32 e buf off = 0
      · obtain ⟨b, pk, vs, hs, hl, hm, hc, hh⟩ := ih (off + 4) packets (by omega) (by omega)
        refine ⟨b, pk, (off, load_u32 e buf off) :: vs, by simp [h0, hs], ?_, ?_, ?_, ?_⟩
        · simp only [List.length_cons]; omega
        · intro x hx
          rcases List.mem_cons.1 hx with rfl | hx
          · simp only; omega
          · have := hm x hx; omega
        · rw [List.chain'_cons']
          refine ⟨?_, hc⟩
          intro y hy
          have := hh y hy
          have := hm y (List.mem_of_mem_head? hy)
          simp only
          omega
        · simp
      · simp only [h0, if_false]
        by_cases h2 : load_u32 e buf off > 1024 * 1024 * 64
        · refine ⟨false, packets, [(off, load_u32 e buf off)], by simp [h2], ?_, ?_, ?_, ?_⟩
          · simp only [List.length_singleton]; omega
          · intro x hx
            rw [List.mem_singleton] at hx
            subst hx
            simp only
            omega
          · simp
          · simp
        · simp only [h2, if_false]
          have e32b : (off + 4 + load_u32 e buf off) % 2 ^ 32 = off + 4 + load_u32 e buf off :=
            Nat.mod_eq_of_lt (by omega)
          rw [e32b]
          by_cases h3 : off + 4 + load_u32 e buf off > len
          · refine ⟨false, packets, [(off, load_u32 e buf off)], by simp [h3], ?_, ?_, ?_, ?_⟩
            · simp only [List.length_singleton]; omega
            · intro x hx
              rw [List.mem_singleton] at hx
              subst hx
              simp only
              omega
            · simp
            · simp
          · obtain ⟨b, pk, vs, hs, hl, hm, hc, hh⟩ := ih (off + 4 + load_u32 e buf off)
              ((packets + 1) % 2 ^ 32) (by omega) (by omega)
            refine ⟨b, pk, (off, load_u32 e buf off) :: vs, by rw [if_neg h3, hs]; rfl, ?_, ?_, ?_, ?_⟩
            · simp only [List.length_cons]; omega
            · intro x hx
              rcases List.mem_cons.1 hx with rfl | hx
              · simp only; omega
              · have := hm x hx; omega
            · rw [List.chain'_cons']
              refine ⟨?_, hc⟩
              intro y hy
              have := hh y hy
              have := hm y (List.mem_of_mem_head? hy)
              simp only
              omega
            · simp
    · exact ⟨decide (off = len) && decide (packets > 0), packets, [], by rw [if_neg h1],
        by simp, by simp, by simp, by simp⟩

/-- C18: on a buffer shorter than `2 ^ 32 - 2 ^ 26` bytes the scan of the
classifier returns within `len / 4 + 1` evaluations of the loop condition,
after at most `len / 4` iterations; every header it reads lies inside the
buffer (`off + 4 <= len`), the sums `off + 4` and `off + 4 + sz` it computes
are below `2 ^ 32` (no wrap-around), and from one iteration to the next the
offset grows, to `off + 4 + sz`, and stays at most `len`. -/
theorem looks_like_scan_no_wrap (e : Endian) (buf : Nat → Nat) (len fuel : Nat)
    (hlen : len < 2 ^ 32 - 2 ^ 26) (hf : len / 4 < fuel) :
    ∃ b pk vs, scan_visits e buf len fuel 0 0 = some (b, pk, vs) ∧
      looks_like_len_prefixed_loop e buf len fuel 0 0 = some b ∧
      vs.length ≤ len / 4 ∧
      (∀ x ∈ vs, x.1 + 4 ≤ len ∧ x.1 + 4 < 2 ^ 32 ∧
        (x.2 ≤ 67108864 → x.1 + 4 + x.2 < 2 ^ 32)) ∧
      List.Chain' (fun x y : Nat × Nat => x.1 < y.1 ∧ y.1 = x.1 + 4 + x.2 ∧ y.1 ≤ len) vs := by
  obtain ⟨b, pk, vs, hs, hl, hm, hc, _⟩ := scan_visits_nowrap e buf len hlen fuel 0 0
    (by omega) (by omega)
  refine ⟨b, pk, vs, hs, ?_, ?_, ?_, hc⟩
  · rw [← scan_visits_erase, hs]
    rfl
  · omega
  · intro x hx
    have := hm x hx
    omega

/-- An instance of the theorem for C18 on a concrete input. -/
theorem looks_like_scan_no_wrap_witness :
    ∃ b pk vs, scan_visits Endian.little (mem [1, 0, 0, 0, 7, 1, 0, 0, 0, 8, 1, 0, 0, 0, 9]) 15
        4 0 0 = some (b, pk, vs) ∧
      looks_like_len_prefixed_loop Endian.little
        (mem [1, 0, 0, 0, 7, 1, 0, 0, 0, 8, 1, 0, 0, 0, 9]) 15 4 0 0 = some b ∧
      vs.length ≤ 15 / 4 ∧
      (∀ x ∈ vs, x.1 + 4 ≤ 15 ∧ x.1 + 4 < 2 ^ 32 ∧
        (x.2 ≤ 67108864 → x.1 + 4 + x.2 < 2 ^ 32)) ∧
      List.Chain' (fun x y : Nat × Nat => x.1 < y.1 ∧ y.1 = x.1 + 4 + x.2 ∧ y.1 ≤ 15) vs :=
  looks_like_scan_no_wrap Endian.little (mem [1, 0, 0, 0, 7, 1, 0, 0, 0, 8, 1, 0, 0, 0, 9]) 15 4
    (by decide) (by decide)

/-! ## Concatenation of record streams -/

theorem concat_records_append (e : Endian) (ra rb : List (List Nat)) :
    concat_records e (ra ++ rb) = concat_records e ra ++ concat_records e rb := by
  induction ra with
  | nil => rfl
  | cons r rs ih => simp [concat_records, ih, List.append_assoc]

theorem length_le_total_len (szs : List Nat) : 4 * szs.length ≤ total_len szs := by
  induction szs with
  | nil => simp [total_len]
  | cons s ss ih => simp only [List.length_cons, total_len]; omega

theorem regions_payloads_filter (buf : Nat → Nat) :
    ∀ (szs : List Nat) (off : Nat),
      (record_regions off szs).map (fun p => bytes_at buf p.1 p.2)
        = (payloads_at buf off szs).filter (fun r => decide (r ≠ [])) := by
  intro szs
  induction szs with
  | nil => intro off; rfl
  | cons s ss ih =>
    intro off
    by_cases h0 : s = 0
    · subst h0
      have hnil : bytes_at buf (off + 4) 0 = [] := rfl
      simp only [record_regions, payloads_at, if_true, List.nil_append, hnil, Nat.add_zero]
      rw [ih, List.filter_cons_of_neg (by simp)]
    · have hne : bytes_at buf (off + 4) s ≠ [] := by
        intro h
        have := length_bytes_at buf (off + 4) s
        rw [h] at this
        exact h0 this.symm
      simp [record_regions, payloads_at, h0, ih, hne]

/-- On a list of bytes that is a concatenation of records and shorter than
`2 ^ 32` bytes, `replay_len_prefixed` with every send writing in full returns 0
and sends the non-empty payloads in order. -/
theorem replay_of_stream (env : Env) (e : Endian) (l : List Nat) (recs : List (List Nat))
    (fuel : Nat) (tr : List Event) (hl : ∀ x ∈ l, x < 256) (h : l = concat_records e recs)
    (hsz : ∀ r ∈ recs, r.length ≤ 67108864) (hlen : l.length < 2 ^ 32)
    (hsend : ∀ t off sz, env.net_send t off sz = to_int32 sz) (hf : recs.length < fuel) :
    replay_len_prefixed fuel env e (mem l) l.length tr
        = some (0, tr ++ replay_events 0 (recs.map List.length)) ∧
      sent_messages (mem l) (replay_events 0 (recs.map List.length))
        = recs.filter (fun r => decide (r ≠ [])) := by
  have hbuf : bytes_at (mem l) 0 l.length = concat_records e recs := by
    rw [bytes_at_mem l hl]; exact h
  have hlen2 : l.length = total_len (recs.map List.length) := by
    rw [h, length_concat_records]
  rw [hlen2] at hbuf
  have hc : Chain e (mem l) 0 (recs.map List.length) :=
    chain_of_bytes e _ recs 0 (fun r hr => by have := hsz r hr; omega) hbuf
  constructor
  · exact replay_loop_of_chain env e _ _ hlen hsend _ fuel 0 tr hc (by omega) (by simpa using hf)
  · rw [sent_messages, sends_replay_events, regions_payloads_filter,
      payloads_of_bytes e _ recs 0 hbuf]

/-- C20: for all byte lists `a` and `b` of total length below `2 ^ 32 - 2 ^ 26`
on which the classifier returns true, the classifier returns true on `a ++ b`,
and with every send writing in full `replay_len_prefixed` returns 0 on `a`, on
`b` and on `a ++ b`, the messages sent for `a ++ b` being the messages sent
for `a` followed by the messages sent for `b`. -/
theorem replay_len_prefixed_concat (e : Endian) (env : Env) (a b : List Nat) (fuel : Nat)
    (tr : List Event) (ha : ∀ x ∈ a, x < 256) (hb : ∀ x ∈ b, x < 256)
    (hlen : a.length + b.length < 2 ^ 32 - 2 ^ 26) (hf : a.length + b.length < 4 * fuel)
    (hsend : ∀ t off sz, env.net_send t off sz = to_int32 sz)
    (hca : looks_like_len_prefixed fuel e (mem a) a.length = some true)
    (hcb : looks_like_len_prefixed fuel e (mem b) b.length = some true) :
    looks_like_len_prefixed fuel e (mem (a ++ b)) (a ++ b).length = some true ∧
      ∃ ta tb tab,
        replay_len_prefixed fuel env e (mem a) a.length tr = some (0, tr ++ ta) ∧
        replay_len_prefixed fuel env e (mem b) b.length tr = some (0, tr ++ tb) ∧
        replay_len_prefixed fuel env e (mem (a ++ b)) (a ++ b).length tr = some (0, tr ++ tab) ∧
        sent_messages (mem (a ++ b)) tab
          = sent_messages (mem a) ta ++ sent_messages (mem b) tb := by
  obtain ⟨ba, hba, hia⟩ := looks_like_iff_stream e (mem a) a.length fuel (by omega) (by omega)
  obtain ⟨bb, hbb, hib⟩ := looks_like_iff_stream e (mem b) b.length fuel (by omega) (by omega)
  rw [hca] at hba
  rw [hcb] at hbb
  simp only [Option.some.injEq] at hba hbb
  rw [bytes_at_mem a ha] at hia
  rw [bytes_at_mem b hb] at hib
  obtain ⟨ra, hra1, hra2, hra3⟩ := hia.1 hba.symm
  obtain ⟨rb, hrb1, hrb2, hrb3⟩ := hib.1 hbb.symm
  have hab : a ++ b = concat_records e (ra ++ rb) := by
    rw [concat_records_append, ← hra3, ← hrb3]
  have hlab : ∀ x ∈ a ++ b, x < 256 := by
    intro x hx
    rcases List.mem_append.1 hx with h | h
    · exact ha x h
    · exact hb x h
  have hszab : ∀ r ∈ ra ++ rb, r.length ≤ 67108864 := by
    intro r hr
    rcases List.mem_append.1 hr with h | h
    · exact hra1 r h
    · exact hrb1 r h
  have hlenab : (a ++ b).length = a.length + b.length := List.length_append a b
  have hfa : ra.length < fuel := by
    have h1 := length_le_total_len (ra.map List.length)
    have h2 := length_concat_records e ra
    rw [← hra3] at h2
    rw [List.length_map] at h1
    omega
  have hfb : rb.length < fuel := by
    have h1 := length_le_total_len (rb.map List.length)
    have h2 := length_concat_records e rb
    rw [← hrb3] at h2
    rw [List.length_map] at h1
    omega
  have hfab : (ra ++ rb).length < fuel := by
    have h1 := length_le_total_len ((ra ++ rb).map List.length)
    have h2 := length_concat_records e (ra ++ rb)
    rw [← hab] at h2
    rw [List.length_map] at h1
    omega
  obtain ⟨r0, hr0, hr0ne⟩ := hra2
  have hcls : looks_like_len_prefixed fuel e (mem (a ++ b)) (a ++ b).length = some true :=
    looks_like_of_stream e _ _ fuel (ra ++ rb) (by omega)
      (by rw [bytes_at_mem _ hlab]; exact hab) hszab
      ⟨r0, List.mem_append_left _ hr0, hr0ne⟩ hfab
  obtain ⟨ea, sa⟩ := replay_of_stream env e a ra fuel tr ha hra3 hra1 (by omega) hsend hfa
  obtain ⟨eb, sb⟩ := replay_of_stream env e b rb fuel tr hb hrb3 hrb1 (by omega) hsend hfb
  obtain ⟨eab, sab⟩ := replay_of_stream env e (a ++ b) (ra ++ rb) fuel tr hlab hab hszab
    (by omega) hsend hfab
  refine ⟨hcls, _, _, _, ea, eb, eab, ?_⟩
  rw [sa, sb, sab, List.filter_append]

/-- An instance of the theorem for C20 on a concrete input. -/
theorem replay_len_prefixed_concat_witness :
    looks_like_len_prefixed 4 Endian.little (mem ([1, 0, 0, 0, 7] ++ [2, 0, 0, 0, 8, 9]))
        ([1, 0, 0, 0, 7] ++ [2, 0, 0, 0, 8, 9]).length = some true ∧
      ∃ ta tb tab,
        replay_len_prefixed 4 full_env Endian.little (mem [1, 0, 0, 0, 7])
          [1, 0, 0, 0, 7].length [] = some (0, [] ++ ta) ∧
        replay_len_prefixed 4 full_env Endian.little (mem [2, 0, 0, 0, 8, 9])
          [2, 0, 0, 0, 8, 9].length [] = some (0, [] ++ tb) ∧
        replay_len_prefixed 4 full_env Endian.little (mem ([1, 0, 0, 0, 7] ++ [2, 0, 0, 0, 8, 9]))
          ([1, 0, 0, 0, 7] ++ [2, 0, 0, 0, 8, 9]).length [] = some (0, [] ++ tab) ∧
        sent_messages (mem ([1, 0, 0, 0, 7] ++ [2, 0, 0, 0, 8, 9])) tab
          = sent_messages (mem [1, 0, 0, 0, 7]) ta ++ sent_messages (mem [2, 0, 0, 0, 8, 9]) tb :=
  replay_len_prefixed_concat Endian.little full_env [1, 0, 0, 0, 7] [2, 0, 0, 0, 8, 9] 4 []
    (by decide) (by decide) (by decide) (by decide) (fun _ _ _ => rfl) (by decide) (by decide)

/-! ## The address given with `-N` -/

theorem strtol_digits_all : ∀ (ds : List Char) (acc : Nat), (∀ c ∈ ds, isdigit c = true) →
    strtol_digits ds acc = (ds.foldl (fun a c => a * 10 + (c.toNat - 48)) acc, []) := by
  intro ds
  induction ds with
  | nil => intro acc _; rfl
  | cons d ds ih =>
    intro acc h
    have hd : isdigit d = true := h d (List.mem_cons_self _ _)
    simp only [strtol_digits, hd, if_true, List.foldl_cons]
    exact ih _ (fun c hc => h c (List.mem_cons_of_mem _ hc))

theorem strtol_digits_nil : ∀ (cs : List Char) (acc : Nat), (strtol_digits cs acc).2 = [] →
    (∀ c ∈ cs, isdigit c = true) := by
  intro cs
  induction cs with
  | nil => intro acc _ c hc; simp at hc
  | cons d ds ih =>
    intro acc h c hc
    by_cases hd : isdigit d = true
    · simp only [strtol_digits, hd, if_true] at h
      rcases List.mem_cons.1 hc with rfl | hc
      · exact hd
      · exact ih _ h c hc
    · simp [strtol_digits, hd] at h

theorem strrchr_none : ∀ (p : List Char) (c : Char), strrchr p c = none → c ∉ p := by
  intro p
  induction p with
  | nil => intro c _; simp
  | cons x xs ih =>
    intro c h
    simp only [strrchr] at h
    cases hr : strrchr xs c with
    | some i => rw [hr] at h; simp at h
    | none =>
      rw [hr] at h
      by_cases hx : x = c
      · simp [hx] at h
      · intro hm
        rcases List.mem_cons.1 hm with h1 | h1
        · exact hx h1.symm
        · exact ih c hr h1

theorem strrchr_some : ∀ (p : List Char) (c : Char) (i : Nat), strrchr p c = some i →
    p = p.take i ++ c :: p.drop (i + 1) ∧ c ∉ p.drop (i + 1) := by
  intro p
  induction p with
  | nil => intro c i h; simp [strrchr] at h
  | cons x xs ih =>
    intro c i h
    simp only [strrchr] at h
    cases hr : strrchr xs c with
    | some j =>
      rw [hr] at h
      simp only [Option.some.injEq] at h
      subst h
      obtain ⟨h1, h2⟩ := ih c j hr
      refine ⟨?_, ?_⟩
      · simp only [List.take_succ_cons, List.drop_succ_cons, List.cons_append]
        rw [← h1]
      · simpa using h2
    | none =>
      rw [hr] at h
      by_cases hx : x = c
      · simp only [hx, if_true, Option.some.injEq] at h
        subst h
        subst hx
        exact ⟨by simp, by simpa using strrchr_none xs x hr⟩
      · simp [hx] at h

theorem strrchr_append : ∀ (a : List Char) (c : Char) (rest : List Char), c ∉ rest →
    strrchr (a ++ c :: rest) c = some a.length := by
  intro a
  induction a with
  | nil =>
    intro c rest h
    have : strrchr rest c = none := by
      cases hr : strrchr rest c with
      | none => rfl
      | some i =>
        have h1 := (strrchr_some rest c i hr).1
        exfalso
        apply h
        rw [h1]
        simp
    simp [strrchr, this]
  | cons x xs ih =>
    intro c rest h
    simp [strrchr, ih c rest h]

theorem dropWhile_isspace (ws : List Char) (x : Char) (rest : List Char)
    (hws : ∀ c ∈ ws, isspace c = true) (hx : isspace x = false) :
    (ws ++ x :: rest).dropWhile isspace = x :: rest := by
  induction ws with
  | nil => simp [List.dropWhile, hx]
  | cons w ws ih =>
    have hw : isspace w = true := hws w (List.mem_cons_self _ _)
    simp only [List.cons_append, List.dropWhile, hw]
    exact ih (fun c hc => hws c (List.mem_cons_of_mem _ hc))

theorem takeWhile_isspace (t : List Char) : ∀ c ∈ t.takeWhile isspace, isspace c = true := by
  intro c hc
  exact (List.mem_takeWhile_imp hc)

theorem dropWhile_head (t : List Char) :
    ∀ c, (t.dropWhile isspace).head? = some c → isspace c = false := by
  induction t with
  | nil => intro c h; simp at h
  | cons x xs ih =>
    intro c h
    by_cases hx : isspace x = true
    · simp only [List.dropWhile, hx] at h
      exact ih c h
    · simp only [List.dropWhile, hx] at h
      simp only [List.head?_cons, Option.some.injEq] at h
      subst h
      simpa using hx

theorem isdigit_not_space (c : Char) (h : isdigit c = true) : isspace c = false := by
  simp only [isdigit, Bool.and_eq_true, decide_eq_true_eq] at h
  simp only [isspace, Bool.or_eq_false_iff, decide_eq_false_iff_not, Bool.and_eq_false_iff]
  omega

theorem isdigit_not_sign (c : Char) (h : isdigit c = true) : c ≠ '-' ∧ c ≠ '+' := by
  constructor <;>
  · intro hc
    subst hc
    revert h
    decide

theorem strtol_unsigned (t u : List Char) (d : Char) (ds : List Char)
    (hdrop : t.dropWhile isspace = u) (hu : u = d :: ds) (hd : isdigit d = true)
    (hall : ∀ c ∈ ds, isdigit c = true) :
    strtol t = (max LONG_MIN (min LONG_MAX (decimal_value (d :: ds) : Int)), []) := by
  obtain ⟨h1, h2⟩ := isdigit_not_sign d hd
  have hdig : ∀ c ∈ d :: ds, isdigit c = true := by
    intro c hc
    rcases List.mem_cons.1 hc with rfl | hc
    · exact hd
    · exact hall c hc
  unfold strtol
  rw [hdrop, hu]
  simp only [List.head?_cons, Option.some.injEq, h1, h2, or_self, if_false, Option.map_some',
    Option.getD_some, hd, if_true, strtol_digits_all (d :: ds) 0 hdig, decide_False]
  rfl

theorem strtol_plus (t : List Char) (d : Char) (ds : List Char)
    (hdrop : t.dropWhile isspace = '+' :: d :: ds) (hd : isdigit d = true)
    (hall : ∀ c ∈ ds, isdigit c = true) :
    strtol t = (max LONG_MIN (min LONG_MAX (decimal_value (d :: ds) : Int)), []) := by
  have hdig : ∀ c ∈ d :: ds, isdigit c = true := by
    intro c hc
    rcases List.mem_cons.1 hc with rfl | hc
    · exact hd
    · exact hall c hc
  have hpm : ¬ ('+' = '-') := by decide
  unfold strtol
  rw [hdrop]
  simp only [List.head?_cons, Option.some.injEq, hpm, or_true, if_true, List.drop_succ_cons,
    List.drop_zero, Option.map_some', Option.getD_some, hd,
    strtol_digits_all (d :: ds) 0 hdig, decide_False]
  rfl

theorem strtol_minus (t : List Char) (xs : List Char)
    (hdrop : t.dropWhile isspace = '-' :: xs) : (strtol t).1 ≤ 0 := by
  unfold strtol
  rw [hdrop]
  simp only [List.head?_cons, true_or, if_true, List.drop_succ_cons, List.drop_zero,
    decide_True]
  split_ifs
  · simp only [LONG_MIN, LONG_MAX]
    omega
  · simp

theorem strtol_no_digits (t u : List Char) (hdrop : t.dropWhile isspace = u)
    (hu : ((if u.head? = some '-' ∨ u.head? = some '+' then u.drop 1 else u).head?.map
      isdigit).getD false = false) : strtol t = (0, t) := by
  unfold strtol
  rw [hdrop]
  simp only [hu]
  simp

theorem clamp_small (n : Nat) (p : Int) (h0 : 0 < p) (h1 : p ≤ 65535)
    (h : p = max LONG_MIN (min LONG_MAX (n : Int))) : p = (n : Int) := by
  simp only [LONG_MIN, LONG_MAX] at h
  omega

theorem clamp_of_small (n : Nat) (h1 : (n : Int) ≤ 65535) :
    max LONG_MIN (min LONG_MAX (n : Int)) = (n : Int) := by
  simp only [LONG_MIN, LONG_MAX]
  omega

/-- What `strtol` followed by the checks of `parse_netinfo` accepts: optional
white space, an optional `+`, and one or more digits with a value in 1..65535. -/
theorem strtol_accepts (t : List Char) (port : Int) :
    ((strtol t).2 = [] ∧ 0 < (strtol t).1 ∧ (strtol t).1 ≤ 65535 ∧ port = (strtol t).1) ↔
      ∃ ws sg ds : List Char, t = ws ++ sg ++ ds ∧ (∀ c ∈ ws, isspace c = true) ∧
        (sg = [] ∨ sg = ['+']) ∧ ds ≠ [] ∧ (∀ c ∈ ds, isdigit c = true) ∧
        port = (decimal_value ds : Int) ∧ 1 ≤ port ∧ port ≤ 65535 := by
  constructor
  · rintro ⟨hend, hpos, hle, hport⟩
    have hsplit : t = t.takeWhile isspace ++ t.dropWhile isspace :=
      (List.takeWhile_append_dropWhile isspace t).symm
    have hws := takeWhile_isspace t
    -- the text after the sign
    by_cases hdig : ((if (t.dropWhile isspace).head? = some '-' ∨
        (t.dropWhile isspace).head? = some '+' then (t.dropWhile isspace).drop 1
        else t.dropWhile isspace).head?.map isdigit).getD false = false
    · rw [strtol_no_digits t _ rfl hdig] at hpos
      simp at hpos
    · cases hd : t.dropWhile isspace with
      | nil => rw [hd] at hdig; simp at hdig
      | cons x xs =>
        by_cases hm : x = '-'
        · subst hm
          have := strtol_minus t xs hd
          omega
        · by_cases hp : x = '+'
          · subst hp
            rw [hd] at hdig
            cases xs with
            | nil => simp at hdig
            | cons d ds =>
              have hdd : isdigit d = true := by simpa using hdig
              have hall : ∀ c ∈ d :: ds, isdigit c = true := by
                have h2 : (strtol_digits (d :: ds) 0).2 = [] := by
                  have : strtol t = (max LONG_MIN (min LONG_MAX
                      (((strtol_digits (d :: ds) 0).1 : Nat) : Int)),
                      (strtol_digits (d :: ds) 0).2) := by
                    unfold strtol
                    rw [hd]
                    simp [hdd]
                  rw [this] at hend
                  exact hend
                exact strtol_digits_nil _ 0 h2
              have hval := strtol_plus t d ds hd hdd
                (fun c hc => hall c (List.mem_cons_of_mem _ hc))
              rw [hval] at hpos hle hport
              simp only at hpos hle hport
              have hp2 := clamp_small _ port (by omega) (by omega) hport
              refine ⟨t.takeWhile isspace, ['+'], d :: ds, ?_, hws, Or.inr rfl, by simp, hall,
                hp2, by omega, by omega⟩
              rw [List.append_assoc, List.singleton_append, ← hd]
              exact hsplit
          · rw [hd] at hdig
            have hx1 : ¬ (some x = some '-') := by simpa using hm
            have hx2 : ¬ (some x = some '+') := by simpa using hp
            simp only [List.head?_cons, hx1, hx2, or_self, if_false, Option.map_some',
              Option.getD_some, Bool.not_eq_false] at hdig
            have hall : ∀ c ∈ x :: xs, isdigit c = true := by
              have h2 : (strtol_digits (x :: xs) 0).2 = [] := by
                have : strtol t = (max LONG_MIN (min LONG_MAX
                    (((strtol_digits (x :: xs) 0).1 : Nat) : Int)),
                    (strtol_digits (x :: xs) 0).2) := by
                  unfold strtol
                  rw [hd]
                  simp [hdig, hm, hp]
                rw [this] at hend
                exact hend
              exact strtol_digits_nil _ 0 h2
            have hval := strtol_unsigned t _ x xs hd rfl hdig
              (fun c hc => hall c (List.mem_cons_of_mem _ hc))
            rw [hval] at hpos hle hport
            simp only at hpos hle hport
            have hp2 := clamp_small _ port (by omega) (by omega) hport
            refine ⟨t.takeWhile isspace, [], x :: xs, ?_, hws, Or.inl rfl, by simp, hall,
              hp2, by omega, by omega⟩
            rw [List.append_nil, ← hd]
            exact hsplit
  · rintro ⟨ws, sg, ds, ht, hws, hsg, hne, hds, hport, h1, h2⟩
    cases ds with
    | nil => exact absurd rfl hne
    | cons d ds =>
      have hd : isdigit d = true := hds d (List.mem_cons_self _ _)
      have hall : ∀ c ∈ ds, isdigit c = true := fun c hc => hds c (List.mem_cons_of_mem _ hc)
      have hval : strtol t = (max LONG_MIN (min LONG_MAX (decimal_value (d :: ds) : Int)), []) := by
        rcases hsg with rfl | rfl
        · have hdrop : t.dropWhile isspace = d :: ds := by
            rw [ht, List.append_nil]
            exact dropWhile_isspace ws d ds hws (isdigit_not_space d hd)
          exact strtol_unsigned t _ d ds hdrop rfl hd hall
        · have hdrop : t.dropWhile isspace = '+' :: d :: ds := by
            rw [ht, List.append_assoc, List.singleton_append]
            exact dropWhile_isspace ws '+' (d :: ds) hws (by decide)
          exact strtol_plus t d ds hdrop hd hall
      rw [hval]
      simp only
      rw [clamp_of_small _ (by omega)]
      exact ⟨trivial, by omega, by omega, hport⟩

theorem not_sep_of_port (ws sg ds : List Char) (hws : ∀ c ∈ ws, isspace c = true)
    (hsg : sg = [] ∨ sg = ['+']) (hds : ∀ c ∈ ds, isdigit c = true) :
    '/' ∉ ws ++ sg ++ ds := by
  intro h
  rcases List.mem_append.1 h with h | h
  · rcases List.mem_append.1 h with h | h
    · exact absurd (hws _ h) (by decide)
    · rcases hsg with rfl | rfl
      · simp at h
      · simp at h
  · exact absurd (hds _ h) (by decide)

theorem parse_netinfo_rest_iff (u : Bool) (p : List Char) (v : Bool) (ip : String) (port : Int) :
    parse_netinfo_rest u p = some (v, ip, port) ↔
      v = u ∧ ∃ ws sg ds : List Char, p = ip.data ++ '/' :: (ws ++ sg ++ ds) ∧ ip.data ≠ [] ∧
        (∀ c ∈ ws, isspace c = true) ∧ (sg = [] ∨ sg = ['+']) ∧ ds ≠ [] ∧
        (∀ c ∈ ds, isdigit c = true) ∧ port = (decimal_value ds : Int) ∧ 1 ≤ port ∧
        port ≤ 65535 := by
  constructor
  · intro h
    unfold parse_netinfo_rest at h
    cases hs : strrchr p '/' with
    | none => rw [hs] at h; simp at h
    | some i =>
      rw [hs] at h
      simp only at h
      by_cases hc : i = 0 ∨ (p.drop (i + 1)).isEmpty
      · rw [if_pos hc] at h; simp at h
      · rw [if_neg hc] at h
        by_cases hr : (strtol (p.drop (i + 1))).2 ≠ [] ∨ (strtol (p.drop (i + 1))).1 ≤ 0 ∨
            (strtol (p.drop (i + 1))).1 > 65535
        · rw [if_pos hr] at h; simp at h
        · rw [if_neg hr] at h
          simp only [Option.some.injEq, Prod.mk.injEq] at h
          obtain ⟨hv, hip, hport⟩ := h
          have hr1 : (strtol (p.drop (i + 1))).2 = [] := by
            by_contra hx; exact hr (Or.inl hx)
          have hr2 : 0 < (strtol (p.drop (i + 1))).1 := by
            by_contra hx; exact hr (Or.inr (Or.inl (by omega)))
          have hr3 : (strtol (p.drop (i + 1))).1 ≤ 65535 := by
            by_contra hx; exact hr (Or.inr (Or.inr (by omega)))
          have hp : port = (strtol (p.drop (i + 1))).1 := by
            rw [← hport, to_int32_of_lt _ (by omega)]
            omega
          obtain ⟨ws, sg, ds, h1, h2, h3, h4, h5, h6, h7, h8⟩ :=
            (strtol_accepts (p.drop (i + 1)) port).1 ⟨hr1, hr2, hr3, hp⟩
          obtain ⟨hsp, _⟩ := strrchr_some p '/' i hs
          refine ⟨hv.symm, ws, sg, ds, ?_, ?_, h2, h3, h4, h5, h6, h7, h8⟩
          · rw [← hip, ← h1]
            exact hsp
          · rw [← hip]
            simp only
            intro hnil
            have hi0 : i ≠ 0 := fun h0 => hc (Or.inl h0)
            have hpne : p ≠ [] := by
              intro hpnil
              rw [hpnil] at hs
              simp [strrchr] at hs
            rcases List.take_eq_nil_iff.1 hnil with h0 | h0
            · exact hi0 h0
            · exact hpne h0
  · rintro ⟨hv, ws, sg, ds, hp, hip, hws, hsg, hne, hds, hport, h1, h2⟩
    have hsep := not_sep_of_port ws sg ds hws hsg hds
    have hs : strrchr p '/' = some ip.data.length := by
      rw [hp]; exact strrchr_append _ _ _ hsep
    have hdrop : p.drop (ip.data.length + 1) = ws ++ sg ++ ds := by
      rw [hp]
      have hl : ∀ l r : List Char, (l ++ '/' :: r).drop (l.length + 1) = r := by
        intro l r
        induction l with
        | nil => rfl
        | cons x xs ih => simp
      exact hl _ _
    have htake : p.take ip.data.length = ip.data := by
      rw [hp]
      simp
    have hacc := (strtol_accepts (ws ++ sg ++ ds) port).2
      ⟨ws, sg, ds, rfl, hws, hsg, hne, hds, hport, h1, h2⟩
    obtain ⟨a1, a2, a3, a4⟩ := hacc
    unfold parse_netinfo_rest
    rw [hs]
    simp only
    have hc : ¬ (ip.data.length = 0 ∨ (p.drop (ip.data.length + 1)).isEmpty) := by
      rw [hdrop]
      intro hx
      rcases hx with hx | hx
      · exact hip (List.length_eq_zero.1 hx)
      · have : ws ++ sg ++ ds = [] := by simpa using hx
        have : ds = [] := (List.append_eq_nil.1 this).2
        exact hne this
    rw [if_neg hc, hdrop, htake]
    have hr : ¬ ((strtol (ws ++ sg ++ ds)).2 ≠ [] ∨ (strtol (ws ++ sg ++ ds)).1 ≤ 0 ∨
        (strtol (ws ++ sg ++ ds)).1 > 65535) := by
      intro hx
      rcases hx with hx | hx | hx
      · exact hx a1
      · omega
      · omega
    rw [if_neg hr, hv, ← a4]
    have hcast : to_int32 (port % 2 ^ 32).toNat = port := by
      rw [to_int32_of_lt _ (by omega)]
      omega
    rw [hcast]

theorem isPrefixOf_drop : ∀ (pre l : List Char), pre.isPrefixOf l = true →
    l = pre ++ l.drop pre.length := by
  intro pre
  induction pre with
  | nil => intro l _; rfl
  | cons x xs ih =>
    intro l h
    cases l with
    | nil => simp [List.isPrefixOf] at h
    | cons y ys =>
      simp only [List.isPrefixOf, Bool.and_eq_true, beq_iff_eq] at h
      obtain ⟨h1, h2⟩ := h
      subst h1
      simp only [List.length_cons, List.drop_succ_cons, List.cons_append]
      rw [← ih ys h2]

theorem isPrefixOf_append : ∀ (pre t : List Char), pre.isPrefixOf (pre ++ t) = true := by
  intro pre
  induction pre with
  | nil => intro t; simp [List.isPrefixOf]
  | cons x xs ih => intro t; simp [List.isPrefixOf, ih]

theorem drop_length_append (pre t : List Char) : (pre ++ t).drop pre.length = t := by
  induction pre with
  | nil => rfl
  | cons x xs ih => simp

/-- The function `parse_netinfo` accepts exactly the texts of the form
described by `IsNetinfo`. -/
theorem parse_netinfo_iff (s : String) (use_udp : Bool) (ip : String) (port : Int) :
    parse_netinfo s = some (use_udp, ip, port) ↔ IsNetinfo s.data use_udp ip.data port := by
  constructor
  · intro h
    unfold parse_netinfo at h
    by_cases ht : "tcp://".data.isPrefixOf s.data = true
    · rw [if_pos ht] at h
      obtain ⟨hv, ws, sg, ds, hp, rest⟩ := (parse_netinfo_rest_iff _ _ _ _ _).1 h
      refine ⟨ws, sg, ds, ?_, rest⟩
      rw [hv, List.append_assoc, ← hp]
      exact isPrefixOf_drop _ _ ht
    · rw [if_neg ht] at h
      by_cases hu : "udp://".data.isPrefixOf s.data = true
      · rw [if_pos hu] at h
        obtain ⟨hv, ws, sg, ds, hp, rest⟩ := (parse_netinfo_rest_iff _ _ _ _ _).1 h
        refine ⟨ws, sg, ds, ?_, rest⟩
        rw [hv, List.append_assoc, ← hp]
        exact isPrefixOf_drop _ _ hu
      · rw [if_neg hu] at h
        simp at h
  · rintro ⟨ws, sg, ds, hs, rest⟩
    unfold parse_netinfo
    cases use_udp with
    | false =>
      simp only [Bool.false_eq_true, if_false] at hs
      rw [List.append_assoc] at hs
      have ht : "tcp://".data.isPrefixOf s.data = true := by
        rw [hs]; exact isPrefixOf_append _ _
      rw [if_pos ht, hs, drop_length_append]
      exact (parse_netinfo_rest_iff _ _ _ _ _).2 ⟨rfl, ws, sg, ds, rfl, rest⟩
    | true =>
      simp only [if_true] at hs
      rw [List.append_assoc] at hs
      have ht : ¬ ("tcp://".data.isPrefixOf s.data = true) := by
        rw [hs]
        simp [List.isPrefixOf]
      have hu : "udp://".data.isPrefixOf s.data = true := by
        rw [hs]; exact isPrefixOf_append _ _
      rw [if_neg ht, if_pos hu, hs, drop_length_append]
      exact (parse_netinfo_rest_iff _ _ _ _ _).2 ⟨rfl, ws, sg, ds, rfl, rest⟩

theorem main_option_error (lib : Lib) (cfg : Config) (opt : Char) (optarg : String)
    (r : Exit × List Event) (h : main_option lib cfg opt optarg = Except.error r) :
    r = (Exit.code 1, [Event.usage]) ∨ r = (Exit.code 1, [Event.diag]) := by
  unfold main_option at h
  by_cases hN : opt = 'N'
  · rw [if_pos hN] at h
    cases hp : parse_netinfo optarg with
    | none => rw [hp] at h; simp only [Except.error.injEq] at h; exact Or.inl h.symm
    | some x => rw [hp] at h; cases h
  rw [if_neg hN] at h
  by_cases hP : opt = 'P'
  · rw [if_pos hP] at h
    cases hp : select_protocol lib optarg with
    | none => rw [hp] at h; simp only [Except.error.injEq] at h; exact Or.inr h.symm
    | some x => rw [hp] at h; cases h
  rw [if_neg hP] at h
  by_cases hI : opt = 'I'
  · rw [if_pos hI] at h
    cases hp : parse_input_mode optarg with
    | none => rw [hp] at h; simp only [Except.error.injEq] at h; exact Or.inr h.symm
    | some x => rw [hp] at h; cases h
  rw [if_neg hI] at h
  by_cases hD : opt = 'D'
  · rw [if_pos hD] at h; cases h
  rw [if_neg hD] at h
  by_cases hK : opt = 'K'
  · rw [if_pos hK] at h; cases h
  rw [if_neg hK] at h
  by_cases hW : opt = 'W'
  · rw [if_pos hW] at h; cases h
  rw [if_neg hW] at h
  by_cases hw : opt = 'w'
  · rw [if_pos hw] at h; cases h
  rw [if_neg hw] at h
  by_cases hM : opt = 'M'
  · rw [if_pos hM] at h; cases h
  rw [if_neg hM] at h
  by_cases hp : opt = 'p'
  · rw [if_pos hp] at h; cases h
  rw [if_neg hp] at h
  by_cases hs : opt = 's'
  · rw [if_pos hs] at h; cases h
  rw [if_neg hs] at h
  simp only [Except.error.injEq] at h
  exact Or.inl h.symm

theorem main_options_error (lib : Lib) : ∀ (os : List (Char × String)) (cfg : Config)
    (r : Exit × List Event), main_options lib os cfg = Except.error r →
    r = (Exit.code 1, [Event.usage]) ∨ r = (Exit.code 1, [Event.diag]) := by
  intro os
  induction os with
  | nil => intro cfg r h; simp [main_options] at h
  | cons o os ih =>
    intro cfg r h
    simp only [main_options] at h
    cases ho : main_option lib cfg o.1 o.2 with
    | error x =>
      rw [ho] at h
      simp only [Except.error.injEq] at h
      subst h
      exact main_option_error lib cfg o.1 o.2 _ ho
    | ok c =>
      rw [ho] at h
      exact ih c r h

theorem main_options_append (lib : Lib) : ∀ (a b : List (Char × String)) (cfg cfg1 : Config),
    main_options lib a cfg = Except.ok cfg1 →
    main_options lib (a ++ b) cfg = main_options lib b cfg1 := by
  intro a
  induction a with
  | nil =>
    intro b cfg cfg1 h
    simp only [main_options, Except.ok.injEq] at h
    rw [h]; rfl
  | cons o os ih =>
    intro b cfg cfg1 h
    simp only [main_options, List.cons_append] at h ⊢
    cases ho : main_option lib cfg o.1 o.2 with
    | error x => rw [ho] at h; simp at h
    | ok c =>
      rw [ho] at h
      simp only
      exact ih b c cfg1 h

theorem main_options_append_error (lib : Lib) : ∀ (a b : List (Char × String)) (cfg : Config)
    (r : Exit × List Event), main_options lib a cfg = Except.error r →
    main_options lib (a ++ b) cfg = Except.error r := by
  intro a
  induction a with
  | nil => intro b cfg r h; simp [main_options] at h
  | cons o os ih =>
    intro b cfg r h
    simp only [main_options, List.cons_append] at h ⊢
    cases ho : main_option lib cfg o.1 o.2 with
    | error x => rw [ho] at h; exact h
    | ok c =>
      rw [ho] at h
      simp only
      exact ih b c r h

theorem main_options_bad_netinfo (lib : Lib) (s : String) (post : List (Char × String))
    (cfg : Config) (h : parse_netinfo s = none) :
    main_options lib (('N', s) :: post) cfg = Except.error (Exit.code 1, [Event.usage]) := by
  simp [main_options, main_option, h]

/-- C14 (counterexample): the port text ` 8554`, which starts with a space and
so is not entirely a decimal number, is accepted by `parse_netinfo` with port
8554; so is the port text `+80`. -/
theorem parse_netinfo_accepts_space_before_port :
    parse_netinfo "tcp://127.0.0.1/ 8554" = some (false, "127.0.0.1", 8554) ∧
      ¬ (∀ c ∈ " 8554".data, isdigit c = true) ∧
      parse_netinfo "udp://127.0.0.1/+80" = some (true, "127.0.0.1", 80) ∧
      ¬ (∀ c ∈ "+80".data, isdigit c = true) := by
  refine ⟨by decide, by decide, by decide, by decide⟩

/-- C14 (amended): `parse_netinfo` accepts a string exactly when it is
`tcp://IP/PORT` or `udp://IP/PORT` with `IP` the non-empty text up to the last
`/` and `PORT` what `strtol` reads as a whole: optional white space, an
optional `+`, then one or more decimal digits, of value in 1..65535; on
success `use_udp` is set exactly for the `udp` scheme, `ip_out` is `IP` and
`port_out` the value of the digits.  When `parse_netinfo` fails on the
argument of `-N`, `main` returns 1 without a `fork`, after printing the usage
text if the options before `-N` were accepted. -/
theorem parse_netinfo_accepts_netinfo (s : String) :
    (∀ use_udp ip port,
      parse_netinfo s = some (use_udp, ip, port) ↔ IsNetinfo s.data use_udp ip.data port) ∧
    (∀ fuel env e lib before after rest cfg,
      main_options lib before (initial_config rest) = Except.ok cfg →
      parse_netinfo s = none →
      main_argv fuel env e lib (before ++ ('N', s) :: after) rest
        = some (Exit.code 1, [Event.usage])) ∧
    (∀ fuel env e lib before after rest, parse_netinfo s = none →
      ∃ out, main_argv fuel env e lib (before ++ ('N', s) :: after) rest
          = some (Exit.code 1, out) ∧ Event.fork ∉ out) := by
  refine ⟨fun u ip port => parse_netinfo_iff s u ip port, ?_, ?_⟩
  · intro fuel env e lib before after rest cfg hb hs
    unfold main_argv
    rw [main_options_append lib before _ _ cfg hb, main_options_bad_netinfo lib s after cfg hs]
  · intro fuel env e lib before after rest hs
    unfold main_argv
    cases hb : main_options lib before (initial_config rest) with
    | error r =>
      rw [main_options_append_error lib before _ _ r hb]
      rcases main_options_error lib before _ r hb with rfl | rfl
      · exact ⟨_, rfl, by decide⟩
      · exact ⟨_, rfl, by decide⟩
    | ok cfg =>
      rw [main_options_append lib before _ _ cfg hb, main_options_bad_netinfo lib s after cfg hs]
      exact ⟨_, rfl, by decide⟩

/-- An instance of the theorem for C14: the scenario `-N ftp://x/y`. -/
theorem parse_netinfo_accepts_netinfo_witness :
    parse_netinfo "ftp://x/y" = none ∧
      main_argv 0 full_env Endian.little sample_lib [('N', "ftp://x/y")] ["--", "server"]
        = some (Exit.code 1, [Event.usage]) :=
  ⟨by decide,
    (parse_netinfo_accepts_netinfo "ftp://x/y").2.1 0 full_env Endian.little sample_lib [] []
      ["--", "server"] (initial_config ["--", "server"]) rfl (by decide)⟩

end AflnetExec
